import Mathlib

/-!
toyredis: cache engine, RESP codec and command handlers.

A shallow embedding of `lru.go`, `resp.go` and the handlers of `server.go`.

Modelling conventions.

* Go `string` and `[]byte` are byte sequences (`Bytes`); a `[]byte` that may be `nil`
  is an `Option Bytes`.
* A `*list.Element` is named by the key of the entry it carries: the key is written once,
  when the element is created, and never changed.  The LRU list `ll` is the list of entries,
  front first; the index map `cache` is kept as the list of its keys (the element a key maps
  to is the one that carries the key); the sampling array `array` is the list of element names.
* `time.Time` is an integer count of nanoseconds, `nilTime` is `none`, and every operation
  that calls `time.Now()` takes the clock reading `now` as an argument.
* A run that does not return normally (a panic, or a loop that never exits) is an
  `Except.error` carrying a `Fault`; a Go `error` result is an `Option Err`.
* The operations run one at a time, as they do under the mutex of the cache.  A handler takes
  one clock reading for the cache calls of its request; `gc` reads the clock once for each
  entry it looks at, and its sweeps follow one another with no other operation in between.
* `strings.ToLower` is a parameter `lower` of the dispatcher; on a text of ASCII bytes it is
  `asciiLower`.  (On other texts Go may return ASCII letters as well: the Kelvin sign
  becomes `k`.)
-/

namespace Toyredis

/-- Byte sequences: Go `string` and non-nil `[]byte`. -/
abbrev Bytes := List UInt8

/-- The bytes of an ASCII literal. -/
def ascii (s : String) : Bytes := s.toList.map (fun ch => UInt8.ofNat ch.toNat)

/-- Ways in which a call fails to return normally. -/
inductive Fault
  | nilValuePanic
  | sizeLimitPanic
  | indexOutOfRange
  | makesliceOutOfRange
  | sliceBoundsOutOfRange
  | evictionLoopsForever
  | outOfFuel
  | elementNotInList
  deriving DecidableEq

deriving instance DecidableEq for Except

/-- Go `error` values of the package. -/
inductive Err
  | wrongType
  | invalidRequest
  | unsupportedRequest
  | arityError
  | notIntError
  | invalidMaxmemory (s : Bytes)
  deriving DecidableEq

/-- The text of an error, `err.Error()`; `invalidMaxmemory s` is the error that
`fmt.Errorf("invalid maxmemory: %s", s)` makes in `handleConfigSet`. -/
def Err.Error : Err → Bytes
  | .wrongType => ascii "WRONGTYPE Operation against a key holding the wrong kind of value"
  | .invalidRequest => ascii "ERR invalid request"
  | .unsupportedRequest => ascii "ERR unsupported command"
  | .arityError => ascii "ERR wrong number of arguments"
  | .notIntError => ascii "ERR value is not an integer or out of range"
  | .invalidMaxmemory s => ascii "invalid maxmemory: " ++ s

/-! ## lru.go -/

/-- The `value interface{}` of an entry: `[]byte` or `map[string][]byte`.  A Go map is kept
as an association list; its iteration order is the list order. -/
inductive Value
  | str (b : Bytes)
  | hash (m : List (Bytes × Bytes))
  deriving DecidableEq

/-- `type entry struct`. -/
structure entry where
  key : Bytes
  value : Value
  expire : Option Int
  pos : Nat
  deriving DecidableEq

/-- `type Cache struct` (without the mutex and the quit channel). -/
structure Cache where
  sizeLimit : Int
  size : Int
  ll : List entry
  cache : List Bytes
  array : List Bytes
  deriving DecidableEq

/-- `func (kv *entry) hasExpired() bool`, at clock reading `now`. -/
def entry.hasExpired (kv : entry) (now : Int) : Bool :=
  match kv.expire with
  | none => false
  | some t => decide (t < now)

/-- `func NewCache(sizeLimit int) *Cache` (the ticker goroutine is not part of the state). -/
def NewCache (sizeLimit : Int) : Except Fault Cache :=
  if sizeLimit ≤ 0 then .error .sizeLimitPanic
  else .ok { sizeLimit := sizeLimit, size := 0, ll := [], cache := [], array := [] }

/-- `v[k]` on a Go map, with the `ok` flag as `Option`. -/
def mapGet (m : List (Bytes × Bytes)) (k : Bytes) : Option Bytes :=
  (m.find? (fun p => decide (p.1 = k))).map (fun p => p.2)

/-- `m[k] = v` on a Go map. -/
def mapSet (m : List (Bytes × Bytes)) (k v : Bytes) : List (Bytes × Bytes) :=
  match mapGet m k with
  | some _ => m.map (fun p => if p.1 = k then (k, v) else p)
  | none => m ++ [(k, v)]

/-- `delete(m, k)` on a Go map. -/
def mapDelete (m : List (Bytes × Bytes)) (k : Bytes) : List (Bytes × Bytes) :=
  m.filter (fun p => decide (p.1 ≠ k))

/-- `c.cache[key]` followed by the dereference of the element found. -/
def Cache.find (c : Cache) (key : Bytes) : Option entry :=
  if key ∈ c.cache then c.ll.find? (fun e => decide (e.key = key)) else none

/-- `c.ll.MoveToFront(ee)` for the element named `key`. -/
def moveToFront (ll : List entry) (key : Bytes) : List entry :=
  match ll.find? (fun e => decide (e.key = key)) with
  | some e => e :: ll.filter (fun x => decide (x.key ≠ key))
  | none => ll

/-- An assignment to fields of the entry of the element named `key`. -/
def modifyEntry (ll : List entry) (key : Bytes) (f : entry → entry) : List entry :=
  ll.map (fun e => if e.key = key then f e else e)

/-- `func (c *Cache) removeElement(e *list.Element)`; `e` is the entry the element carries
when the call is made. -/
def Cache.removeElement (c : Cache) (e : entry) : Except Fault Cache :=
  let ll := c.ll.filter (fun x => decide (x.key ≠ e.key))
  let cache := c.cache.filter (fun k => decide (k ≠ e.key))
  let size := c.size - (e.key.length : Int)
  let size :=
    match e.value with
    | .str v => size - (v.length : Int)
    | .hash m => m.foldl (fun s p => s - ((p.1.length : Int) + (p.2.length : Int))) size
  match c.array.getLast? with
  | none => .error .indexOutOfRange
  | some last =>
    if e.pos < c.array.length then
      let array := c.array.set e.pos last
      let ll := modifyEntry ll last (fun x => { x with pos := e.pos })
      .ok { c with size := size, ll := ll, cache := cache, array := array.dropLast }
    else .error .indexOutOfRange

/-- `func (c *Cache) removeOldest()`. -/
def Cache.removeOldest (c : Cache) : Except Fault Cache :=
  match c.ll.getLast? with
  | none => .ok c
  | some ele => c.removeElement ele

/-- The loop `for c.sizeLimit != 0 && c.size > c.sizeLimit { c.removeOldest() }`.
With an empty list `removeOldest` changes nothing, so the condition stays true and the loop
never exits: `evictionLoopsForever`.  Each other iteration shortens the list, so a budget of
`c.ll.length` iterations is never used up. -/
def evictLoop : Nat → Cache → Except Fault Cache
  | fuel, c =>
    if c.sizeLimit ≠ 0 ∧ c.size > c.sizeLimit then
      if c.ll = [] then .error .evictionLoopsForever
      else
        match fuel with
        | 0 => .error .outOfFuel
        | n + 1 =>
          match c.removeOldest with
          | .error f => .error f
          | .ok c1 => evictLoop n c1
    else .ok c

/-- The eviction loop that ends `Set` and `HSet`. -/
def Cache.evict (c : Cache) : Except Fault Cache := evictLoop c.ll.length c

/-- Lines 96-112 of `Set`: the update of a string entry or the insertion of a new one,
before the eviction loop; `none` when the key holds a hash. -/
def Cache.setStore (c : Cache) (key value : Bytes) : Option Cache :=
  match c.find key with
  | some ee =>
    match ee.value with
    | .str oldValue =>
      let size := c.size + (value.length : Int)
      let size := size - (oldValue.length : Int)
      let ll := moveToFront c.ll key
      let ll := modifyEntry ll key (fun x => { x with value := .str value })
      let ll := modifyEntry ll key (fun x => { x with expire := none })
      some { c with size := size, ll := ll }
    | .hash _ => none
  | none =>
    some { c with
      size := c.size + ((key.length : Int) + (value.length : Int))
      ll := { key := key, value := .str value, expire := none, pos := c.array.length } :: c.ll
      cache := key :: c.cache
      array := c.array ++ [key] }

/-- `func (c *Cache) Set(key string, value []byte) (err error)`. -/
def Cache.Set (c : Cache) (key : Bytes) (value : Option Bytes) :
    Except Fault (Cache × Option Err) :=
  match value with
  | none => .error .nilValuePanic
  | some v =>
    match c.setStore key v with
    | none => .ok (c, some .wrongType)
    | some c1 =>
      match c1.evict with
      | .error f => .error f
      | .ok c2 => .ok (c2, none)

/-- Lines 128-148 of `HSet`: the update of a hash entry or the insertion of a new one,
before the eviction loop; `none` when the key holds a string. -/
def Cache.hsetStore (c : Cache) (key vk vv : Bytes) : Option Cache :=
  match c.find key with
  | some ee =>
    match ee.value with
    | .str _ => none
    | .hash oldValue =>
      let size :=
        match mapGet oldValue vk with
        | some oldVv => c.size + (vv.length : Int) - (oldVv.length : Int)
        | none => c.size + ((vk.length : Int) + (vv.length : Int))
      let ll := modifyEntry c.ll key (fun x => { x with value := .hash (mapSet oldValue vk vv) })
      let ll := moveToFront ll key
      let ll := modifyEntry ll key (fun x => { x with expire := none })
      some { c with size := size, ll := ll }
  | none =>
    some { c with
      size := c.size + ((vk.length : Int) + (vv.length : Int))
      ll := { key := key, value := .hash [(vk, vv)], expire := none, pos := c.array.length }
              :: c.ll
      cache := key :: c.cache
      array := c.array ++ [key] }

/-- `func (c *Cache) HSet(key string, vk string, vv []byte) (err error)`. -/
def Cache.HSet (c : Cache) (key vk : Bytes) (vv : Option Bytes) :
    Except Fault (Cache × Option Err) :=
  match vv with
  | none => .error .nilValuePanic
  | some v =>
    match c.hsetStore key vk v with
    | none => .ok (c, some .wrongType)
    | some c1 =>
      match c1.evict with
      | .error f => .error f
      | .ok c2 => .ok (c2, none)

/-- Wrap-around of 64-bit signed arithmetic. -/
def wrapInt64 (x : Int) : Int := (x + 2 ^ 63) % 2 ^ 64 - 2 ^ 63

/-- `func (c *Cache) Expire(key string, ttl int) int`; `ttl` in milliseconds.  The product
`time.Millisecond * time.Duration(ttl)` is taken in 64 bits. -/
def Cache.Expire (c : Cache) (now : Int) (key : Bytes) (ttl : Int) : Cache × Int :=
  match c.find key with
  | some _ =>
    let expireAt : Option Int :=
      if ttl > 0 then some (now + wrapInt64 (1000000 * ttl)) else none
    ({ c with ll := modifyEntry c.ll key (fun x => { x with expire := expireAt }) }, 1)
  | none => (c, 0)

/-- `func (c *Cache) Exists(key string) int`. -/
def Cache.Exists (c : Cache) (now : Int) (key : Bytes) : Except Fault (Cache × Int) :=
  match c.find key with
  | some kv =>
    if kv.hasExpired now then
      match c.removeElement kv with
      | .error f => .error f
      | .ok c1 => .ok (c1, 0)
    else .ok (c, 1)
  | none => .ok (c, 0)

/-- `func (c *Cache) Get(key string) (value []byte, err error)`. -/
def Cache.Get (c : Cache) (now : Int) (key : Bytes) :
    Except Fault (Cache × Option Bytes × Option Err) :=
  match c.find key with
  | some kv =>
    if kv.hasExpired now then
      match c.removeElement kv with
      | .error f => .error f
      | .ok c1 => .ok (c1, none, none)
    else
      match kv.value with
      | .str v => .ok ({ c with ll := moveToFront c.ll key }, some v, none)
      | .hash _ => .ok (c, none, some .wrongType)
  | none => .ok (c, none, none)

/-- `func (c *Cache) HGet(key string, vk string) (value []byte, err error)`. -/
def Cache.HGet (c : Cache) (now : Int) (key vk : Bytes) :
    Except Fault (Cache × Option Bytes × Option Err) :=
  match c.find key with
  | some kv =>
    if kv.hasExpired now then
      match c.removeElement kv with
      | .error f => .error f
      | .ok c1 => .ok (c1, none, none)
    else
      match kv.value with
      | .hash v => .ok ({ c with ll := moveToFront c.ll key }, mapGet v vk, none)
      | .str _ => .ok (c, none, some .wrongType)
  | none => .ok (c, none, none)

/-- The loop of `HGetAll` that fills `list` with field, value, field, value, ... -/
def hgetallList : List (Bytes × Bytes) → List Bytes
  | [] => []
  | (vk, vv) :: m => vk :: vv :: hgetallList m

/-- `func (c *Cache) HGetAll(key string) (value [][]byte, err error)`; the result is `none`
for a nil slice. -/
def Cache.HGetAll (c : Cache) (now : Int) (key : Bytes) :
    Except Fault (Cache × Option (List Bytes) × Option Err) :=
  match c.find key with
  | some kv =>
    if kv.hasExpired now then
      match c.removeElement kv with
      | .error f => .error f
      | .ok c1 => .ok (c1, none, none)
    else
      match kv.value with
      | .hash v => .ok ({ c with ll := moveToFront c.ll key }, some (hgetallList v), none)
      | .str _ => .ok (c, none, some .wrongType)
  | none => .ok (c, none, none)

/-- The loop of `HDel` over the fields `kk`: the map after the deletions and the count. -/
def hdelLoop : List Bytes → List (Bytes × Bytes) → Int → List (Bytes × Bytes) × Int
  | [], v, num => (v, num)
  | k :: kk, v, num =>
    match mapGet v k with
    | some _ => hdelLoop kk (mapDelete v k) (num + 1)
    | none => hdelLoop kk v num

/-- `func (c *Cache) HDel(key string, kk []string) (num int, err error)`. -/
def Cache.HDel (c : Cache) (now : Int) (key : Bytes) (kk : List Bytes) :
    Except Fault (Cache × Int × Option Err) :=
  match c.find key with
  | some kv =>
    if kv.hasExpired now then
      match c.removeElement kv with
      | .error f => .error f
      | .ok c1 => .ok (c1, 0, none)
    else
      match kv.value with
      | .hash v =>
        let r := hdelLoop kk v 0
        .ok ({ c with ll := modifyEntry c.ll key (fun x => { x with value := .hash r.1 }) },
          r.2, none)
      | .str _ => .ok (c, 0, some .wrongType)
  | none => .ok (c, 0, none)

/-- `func (c *Cache) HExists(key, k string) (num int, err error)`. -/
def Cache.HExists (c : Cache) (now : Int) (key k : Bytes) :
    Except Fault (Cache × Int × Option Err) :=
  match c.find key with
  | some kv =>
    if kv.hasExpired now then
      match c.removeElement kv with
      | .error f => .error f
      | .ok c1 => .ok (c1, 0, none)
    else
      match kv.value with
      | .hash v =>
        match mapGet v k with
        | some _ => .ok (c, 1, none)
        | none => .ok (c, 0, none)
      | .str _ => .ok (c, 0, some .wrongType)
  | none => .ok (c, 0, none)

/-- The loop of `Remove` over the keys, with the running count `num`. -/
def removeLoop : List Bytes → Cache → Int → Except Fault (Cache × Int)
  | [], c, num => .ok (c, num)
  | k :: ks, c, num =>
    match c.find k with
    | some ele =>
      match c.removeElement ele with
      | .error f => .error f
      | .ok c1 => removeLoop ks c1 (num + 1)
    | none => removeLoop ks c num

/-- `func (c *Cache) Remove(key []string) (num int)`. -/
def Cache.Remove (c : Cache) (key : List Bytes) : Except Fault (Cache × Int) :=
  removeLoop key c 0

/-- `func (c *Cache) Flush()`. -/
def Cache.Flush (c : Cache) : Cache :=
  { c with size := 0, ll := [], cache := [], array := [] }

/-- `func (c *Cache) GetSize() int`. -/
def Cache.GetSize (c : Cache) : Int := c.size

/-- `func (c *Cache) GetSizeLimit() int`. -/
def Cache.GetSizeLimit (c : Cache) : Int := c.sizeLimit

/-- `func (c *Cache) SetSizeLimit(sizeLimit int)`. -/
def Cache.SetSizeLimit (c : Cache) (sizeLimit : Int) : Cache :=
  { c with sizeLimit := sizeLimit }

/-- The first loop of `gc`: for the first 20 indices `x` of the permutation `p`, the element
`c.array[x]` is looked at and kept in `expired` when its entry has expired at the clock reading
`clock i` of that iteration; the result is `expired` and `total`.  `elementNotInList` stands
for an array slot whose element is not in the list, which no heap of the program shows. -/
def gcScan (c : Cache) (clock : Nat → Int) : Nat → List Nat → Except Fault (List Bytes × Nat)
  | _, [] => .ok ([], 0)
  | i, x :: xs =>
    if i ≥ 20 then .ok ([], 0)
    else
      match c.array[x]? with
      | none => .error .indexOutOfRange
      | some h =>
        match c.ll.find? (fun e => decide (e.key = h)) with
        | none => .error .elementNotInList
        | some kv =>
          match gcScan c clock (i + 1) xs with
          | .error f => .error f
          | .ok (expired, total) =>
            .ok (if kv.hasExpired (clock i) then h :: expired else expired, total + 1)

/-- The second loop of `gc`: `c.removeElement(i)` for each element of `expired`; the entry of
an element is read when its turn comes. -/
def gcRemove : List Bytes → Cache → Except Fault Cache
  | [], c => .ok c
  | h :: hs, c =>
    match c.ll.find? (fun e => decide (e.key = h)) with
    | none => .error .elementNotInList
    | some e =>
      match c.removeElement e with
      | .error f => .error f
      | .ok c1 => gcRemove hs c1

/-- One sweep of `func (c *Cache) gc()`, from `c.mu.Lock()` to `c.mu.Unlock()`, with the
permutation `p` that `rand.Perm(len(c.array))` returned: the state after the sweep,
`len(expired)` and `total`. -/
def Cache.gcSweep (c : Cache) (clock : Nat → Int) (p : List Nat) :
    Except Fault (Cache × Nat × Nat) :=
  match gcScan c clock 0 p with
  | .error f => .error f
  | .ok (expired, total) =>
    match gcRemove expired c with
    | .error f => .error f
    | .ok c1 => .ok (c1, expired.length, total)

/-! ## resp.go -/

/-- The byte of a decimal digit `d < 10`. -/
def digitByte (d : Nat) : UInt8 := UInt8.ofNat (48 + d)

/-- The decimal digits of `n` put in front of `acc`; `fuel` bounds the number of digits. -/
def natDigits : Nat → Nat → Bytes → Bytes
  | 0, _, acc => acc
  | fuel + 1, n, acc =>
    if n < 10 then digitByte n :: acc
    else natDigits fuel (n / 10) (digitByte (n % 10) :: acc)

/-- `strconv.Itoa`: the decimal text of an integer, with `-` in front of a negative one. -/
def Itoa (i : Int) : Bytes :=
  if i < 0 then 45 :: natDigits (i.natAbs + 1) i.natAbs []
  else natDigits (i.natAbs + 1) i.natAbs []

/-- Whether a byte is one of `'0'` to `'9'`. -/
def isDigit (b : UInt8) : Bool := decide (48 ≤ b.toNat ∧ b.toNat ≤ 57)

/-- The number written by a run of decimal digits, continuing from `acc`; `none` when a byte
is not a digit. -/
def parseDigits : Bytes → Nat → Option Nat
  | [], acc => some acc
  | b :: t, acc => if isDigit b then parseDigits t (acc * 10 + (b.toNat - 48)) else none

/-- `strconv.Atoi`: an optional sign followed by at least one decimal digit, the value within
64 bits; `none` stands for the `*NumError` results. -/
def Atoi (s : Bytes) : Option Int :=
  match s with
  | [] => none
  | b :: t =>
    let ds := if b = 43 ∨ b = 45 then t else s
    if ds = [] then none
    else
      match parseDigits ds 0 with
      | none => none
      | some n =>
        let v : Int := if b = 45 then -(n : Int) else (n : Int)
        if -(2 : Int) ^ 63 ≤ v ∧ v < (2 : Int) ^ 63 then some v else none

/-- Errors that the reader returns. -/
inductive ReadErr
  | eof
  | unexpectedEOF
  | invalidReply (b : Bytes)
  | expectingArray (b : UInt8)
  | expectingString (b : UInt8)
  | numError (s : Bytes)
  deriving DecidableEq

/-- Outcome of a read: a value and the input left unread, an error, or a fault. -/
inductive Res (α : Type)
  | ok (a : α) (rest : Bytes)
  | err (e : ReadErr)
  | fault (f : Fault)
  deriving DecidableEq

/-- `bufio.Reader.ReadSlice('\n')` on a stream that holds a line end within the buffer size,
and `ReadBytes('\n')` in general: the bytes up to and including the first `'\n'`, and the
rest; `none` when the stream ends first (`io.EOF`). -/
def readSlice : Bytes → Option (Bytes × Bytes)
  | [] => none
  | b :: t =>
    if b = 10 then some ([b], t)
    else
      match readSlice t with
      | none => none
      | some (l, r) => some (b :: l, r)

/-- The size of the buffer of `bufio.NewReader`. -/
def defaultBufSize : Nat := 4096

/-- `func (r *Reader) readline() ([]byte, error)`.  A line of more than `defaultBufSize`
bytes takes the `ErrBufferFull` branch, where `b, err := r.rd.ReadBytes('\n')` declares a new
`b`: the `b` tested and returned afterwards is still the slice of the buffer that `ReadSlice`
returned, read after `ReadBytes` has refilled the buffer.  `bufAfter` gives the
`defaultBufSize` bytes found there, as a function of the unread input. -/
def readline (bufAfter : Bytes → Bytes) (inp : Bytes) : Res Bytes :=
  match readSlice inp with
  | none => .err .eof
  | some (line, rest) =>
    let b :=
      if line.length ≤ defaultBufSize then line
      else (bufAfter inp ++ List.replicate defaultBufSize 0).take defaultBufSize
    if b.length ≤ 2 ∨ b[b.length - 2]? ≠ some 13 then .err (.invalidReply b)
    else .ok (b.take (b.length - 2)) rest

/-- `io.ReadFull(r.rd, b)` for a `b` of length `n`. -/
def readFull (inp : Bytes) (n : Nat) : Res Bytes :=
  if n = 0 then .ok [] inp
  else if n ≤ inp.length then .ok (inp.take n) (inp.drop n)
  else if inp = [] then .err .eof
  else .err .unexpectedEOF

/-- `func (r *Reader) readStringReply() (string, error)`.  `make` panics on a negative
length and is taken to succeed otherwise; `replyLen+2` is taken in 64 bits. -/
def readStringReply (bufAfter : Bytes → Bytes) (inp : Bytes) : Res Bytes :=
  match readline bufAfter inp with
  | .err e => .err e
  | .fault f => .fault f
  | .ok line rest =>
    match line with
    | [] => .fault .indexOutOfRange
    | b0 :: tl =>
      if b0 ≠ 36 then .err (.expectingString b0)
      else
        match Atoi tl with
        | none => .err (.numError tl)
        | some replyLen =>
          let n := wrapInt64 (replyLen + 2)
          if n < 0 then .fault .makesliceOutOfRange
          else
            match readFull rest n.toNat with
            | .err e => .err e
            | .fault f => .fault f
            | .ok b rest2 =>
              if replyLen < 0 then .fault .sliceBoundsOutOfRange
              else .ok (b.take replyLen.toNat) rest2

/-- The loop of `ReadRequest`: `replyLen` calls of `readStringReply`. -/
def readStrings (bufAfter : Bytes → Bytes) : Nat → Bytes → Res (List Bytes)
  | 0, inp => .ok [] inp
  | n + 1, inp =>
    match readStringReply bufAfter inp with
    | .err e => .err e
    | .fault f => .fault f
    | .ok s rest =>
      match readStrings bufAfter n rest with
      | .err e => .err e
      | .fault f => .fault f
      | .ok ss rest2 => .ok (s :: ss) rest2

/-- `func (r *Reader) ReadRequest() ([]string, error)`. -/
def ReadRequest (bufAfter : Bytes → Bytes) (inp : Bytes) : Res (List Bytes) :=
  match readline bufAfter inp with
  | .err e => .err e
  | .fault f => .fault f
  | .ok line rest =>
    match line with
    | [] => .fault .indexOutOfRange
    | b0 :: tl =>
      if b0 ≠ 42 then .err (.expectingArray b0)
      else
        match Atoi tl with
        | none => .err (.numError tl)
        | some replyLen =>
          if replyLen < 0 then .fault .makesliceOutOfRange
          else readStrings bufAfter replyLen.toNat rest

/-- `type Writer struct`: the bytes written so far to the underlying writer (a
`bytes.Buffer` or a `bufio.Writer`, whose writes are taken not to fail). -/
structure Writer where
  out : Bytes
  deriving DecidableEq

/-- `w.WriteByte(b)`. -/
def Writer.WriteByte (w : Writer) (b : UInt8) : Writer := { out := w.out ++ [b] }

/-- `w.Write(b)`. -/
def Writer.Write (w : Writer) (b : Bytes) : Writer := { out := w.out ++ b }

/-- `func (w *Writer) clrf() error`. -/
def Writer.clrf (w : Writer) : Writer := (w.WriteByte 13).WriteByte 10

/-- `func (w *Writer) simple(id byte, b []byte) error`. -/
def Writer.simple (w : Writer) (id : UInt8) (b : Bytes) : Writer :=
  ((w.WriteByte id).Write b).clrf

/-- `func (w *Writer) Status(s string) error`. -/
def Writer.Status (w : Writer) (s : Bytes) : Writer := w.simple 43 s

/-- `func (w *Writer) Error(s string) error`. -/
def Writer.Error (w : Writer) (s : Bytes) : Writer := w.simple 45 s

/-- `func (w *Writer) Int(i int) error`. -/
def Writer.Int (w : Writer) (i : Int) : Writer := w.simple 58 (Itoa i)

/-- `func (w *Writer) nullString() error`. -/
def Writer.nullString (w : Writer) : Writer := w.simple 36 [45, 49]

/-- `func (w *Writer) String(b []byte) error`. -/
def Writer.String (w : Writer) (b : Option Bytes) : Writer :=
  match b with
  | none => w.nullString
  | some b => ((w.simple 36 (Itoa b.length)).Write b).clrf

/-- The loop of `StringArray`: `w.String(b)` for each element in turn. -/
def Writer.strings (w : Writer) : List (Option Bytes) → Writer
  | [] => w
  | b :: bs => Writer.strings (w.String b) bs

/-- `func (w *Writer) StringArray(bs [][]byte) error`. -/
def Writer.StringArray (w : Writer) (bs : List (Option Bytes)) : Writer :=
  (w.simple 42 (Itoa bs.length)).strings bs

/-- `func (w *Writer) NullStringArray() error`. -/
def Writer.NullStringArray (w : Writer) : Writer := w.simple 42 [45, 49]

/-! ## server.go -/

/-- `func (s *server) handleSet(cn *Conn, ss []string) (err error)`; the error that
`s.cache.Set` returns is dropped. -/
def handleSet (c : Cache) (wr : Writer) (ss : List Bytes) :
    Except Fault (Cache × Writer × Option Err) :=
  match ss with
  | [k, v] =>
    match c.Set k (some v) with
    | .error f => .error f
    | .ok (c1, _) => .ok (c1, wr.Status (ascii "OK"), none)
  | _ => .ok (c, wr, some .arityError)

/-- `func (s *server) handleGet(cn *Conn, ss []string) (err error)`. -/
def handleGet (c : Cache) (wr : Writer) (now : Int) (ss : List Bytes) :
    Except Fault (Cache × Writer × Option Err) :=
  match ss with
  | [k] =>
    match c.Get now k with
    | .error f => .error f
    | .ok (c1, _, some err) => .ok (c1, wr, some err)
    | .ok (c1, d, none) => .ok (c1, wr.String d, none)
  | _ => .ok (c, wr, some .arityError)

/-- `func (s *server) handleHSet(cn *Conn, ss []string) (err error)`; the error that
`s.cache.HSet` returns is dropped. -/
def handleHSet (c : Cache) (wr : Writer) (ss : List Bytes) :
    Except Fault (Cache × Writer × Option Err) :=
  match ss with
  | [k, f, v] =>
    match c.HSet k f (some v) with
    | .error f => .error f
    | .ok (c1, _) => .ok (c1, wr.Status (ascii "OK"), none)
  | _ => .ok (c, wr, some .arityError)

/-- The loop of `handleMSet`: `s.cache.Set(ss[i], []byte(ss[i+1]))` for `i = 0, 2, ...`. -/
def msetLoop : List Bytes → Cache → Except Fault Cache
  | k :: v :: rest, c =>
    match c.Set k (some v) with
    | .error f => .error f
    | .ok (c1, _) => msetLoop rest c1
  | _, c => .ok c

/-- `func (s *server) handleMSet(cn *Conn, ss []string) (err error)`. -/
def handleMSet (c : Cache) (wr : Writer) (ss : List Bytes) :
    Except Fault (Cache × Writer × Option Err) :=
  if ss.length < 2 ∨ ss.length % 2 ≠ 0 then .ok (c, wr, some .arityError)
  else
    match msetLoop ss c with
    | .error f => .error f
    | .ok c1 => .ok (c1, wr.Status (ascii "OK"), none)

/-- The loop of `handleHMSet`: `s.cache.HSet(ss[0], ss[i], []byte(ss[i+1]))` for
`i = 1, 3, ...`; the list is `ss[1:]`. -/
def hmsetLoop (key : Bytes) : List Bytes → Cache → Except Fault Cache
  | f :: v :: rest, c =>
    match c.HSet key f (some v) with
    | .error e => .error e
    | .ok (c1, _) => hmsetLoop key rest c1
  | _, c => .ok c

/-- `func (s *server) handleHMSet(cn *Conn, ss []string) (err error)`. -/
def handleHMSet (c : Cache) (wr : Writer) (ss : List Bytes) :
    Except Fault (Cache × Writer × Option Err) :=
  if ss.length < 3 ∨ ss.length % 2 ≠ 1 then .ok (c, wr, some .arityError)
  else
    match ss with
    | [] => .ok (c, wr, some .arityError)
    | key :: rest =>
      match hmsetLoop key rest c with
      | .error f => .error f
      | .ok c1 => .ok (c1, wr.Status (ascii "OK"), none)

/-- `func (s *server) handleHGetAll(cn *Conn, ss []string) (err error)`; a nil result of
`HGetAll` goes to `StringArray` as a slice of length 0. -/
def handleHGetAll (c : Cache) (wr : Writer) (now : Int) (ss : List Bytes) :
    Except Fault (Cache × Writer × Option Err) :=
  match ss with
  | [k] =>
    match c.HGetAll now k with
    | .error f => .error f
    | .ok (c1, _, some err) => .ok (c1, wr, some err)
    | .ok (c1, none, none) => .ok (c1, wr.StringArray [], none)
    | .ok (c1, some d, none) => .ok (c1, wr.StringArray (d.map some), none)
  | _ => .ok (c, wr, some .arityError)

/-- The access `ss[0]` of line 117 of `handleConnection`, made on every request that
`ReadRequest` returned without error. -/
def firstArg (ss : List Bytes) : Except Fault Bytes :=
  match ss with
  | [] => .error .indexOutOfRange
  | s :: _ => .ok s

/-- Lines 157-159 of `handleConnection`: `if err != nil { cn.wr.Error(err.Error()) }`. -/
def replyError (wr : Writer) (err : Option Err) : Writer :=
  match err with
  | none => wr
  | some e => wr.Error e.Error

/-! ## lru_test.go -/

/-- The first loop of `TestEvict`: `lru.Set(k, v)` for each key in turn. -/
def setEach : List Bytes → Bytes → Cache → Except Fault Cache
  | [], _, c => .ok c
  | k :: ks, v, c =>
    match c.Set k (some v) with
    | .error f => .error f
    | .ok (c1, _) => setEach ks v c1

/-- The read loops of `TestEvict`: `lru.Get(k)` for each key in turn, collecting the values. -/
def getEach (now : Int) : List Bytes → Cache → Except Fault (List (Option Bytes))
  | [], _ => .ok []
  | k :: ks, c =>
    match c.Get now k with
    | .error f => .error f
    | .ok (c1, v, _) =>
      match getEach now ks c1 with
      | .error f => .error f
      | .ok vs => .ok (v :: vs)

/-- The keys `"0"`, ..., `"9"` of `TestEvict`. -/
def digitKeys : List Bytes := (List.range 10).map (fun i => [UInt8.ofNat (48 + i)])

/-- The state of `TestEvict` (limit 50) after the `Set` of "0" to "8": the keys "4" to "8"
hold "123456789". -/
def evictState : Cache :=
  { sizeLimit := 50
    size := 50
    ll := [ { key := [56], value := .str (ascii "123456789"), expire := none, pos := 3 },
            { key := [55], value := .str (ascii "123456789"), expire := none, pos := 2 },
            { key := [54], value := .str (ascii "123456789"), expire := none, pos := 1 },
            { key := [53], value := .str (ascii "123456789"), expire := none, pos := 0 },
            { key := [52], value := .str (ascii "123456789"), expire := none, pos := 4 } ]
    cache := [[56], [55], [54], [53], [52]]
    array := [[53], [54], [55], [56], [52]] }

/-- The constant `MB` of lru.go. -/
def MB : Int := 1048576

/-- The state of `TestGet` after `lru.Set("aaa", []byte("1234"))` on `NewCache(MB)`. -/
def testGetState : Cache :=
  { sizeLimit := MB
    size := 7
    ll := [{ key := ascii "aaa", value := .str (ascii "1234"), expire := none, pos := 0 }]
    cache := [ascii "aaa"]
    array := [ascii "aaa"] }

/-- A state in which "foo" holds the string "fooValue" with an expiration at instant 100 and
"bar" holds the hash with the field "k1" of value "v1" with the same expiration (the expire
block of `TestWithRedisCli`). -/
def expireState : Cache :=
  { sizeLimit := 20 * MB
    size := 15
    ll := [ { key := ascii "bar", value := .hash [(ascii "k1", ascii "v1")], expire := some 100,
              pos := 1 },
            { key := ascii "foo", value := .str (ascii "fooValue"), expire := some 100,
              pos := 0 } ]
    cache := [ascii "bar", ascii "foo"]
    array := [ascii "foo", ascii "bar"] }

/-! ## Reference definitions for the codec -/

/-- The byte of an ASCII character. -/
def charByte (ch : Char) : UInt8 := UInt8.ofNat ch.toNat

/-- The decimal text of an integer, from the digits that `Nat.toDigits 10` gives, with `-` in
front of a negative one. -/
def decimal (i : Int) : Bytes :=
  (if i < 0 then [45] else []) ++ (Nat.toDigits 10 i.natAbs).map charByte

/-- The bytes of one bulk string reply: `$`, the decimal length, CRLF, the payload, CRLF; or
`$-1` CRLF for an absent payload. -/
def bulk (b : Option Bytes) : Bytes :=
  match b with
  | none => ascii "$-1\r\n"
  | some b => [36] ++ decimal b.length ++ [13, 10] ++ b ++ [13, 10]

/-- The concatenation of the bulk string replies of a sequence. -/
def bulks : List (Option Bytes) → Bytes
  | [] => []
  | b :: bs => bulk b ++ bulks bs

/-! ## Structural invariant and cost -/

/-- The keys of the LRU list, front first. -/
def Cache.keys (c : Cache) : List Bytes := c.ll.map entry.key

/-- The structural invariant of the three collections (I1 and I2 of the data model): the
keys of the LRU list are distinct and are exactly the keys of the index map, and the sampling
array holds each element once, at the position its entry records. -/
def WF (c : Cache) : Prop :=
  c.keys.Nodup ∧ c.cache.Nodup ∧
  (∀ k ∈ c.cache, k ∈ c.keys) ∧ (∀ k ∈ c.keys, k ∈ c.cache) ∧
  c.array.Nodup ∧ c.array.length = c.ll.length ∧
  (∀ e ∈ c.ll, c.array[e.pos]? = some e.key)

instance (c : Cache) : Decidable (WF c) := by
  unfold WF; infer_instance

/-- What an entry holds, without its bookkeeping index: key, value and expiration. -/
def entry.content (e : entry) : Bytes × Value × Option Int := (e.key, e.value, e.expire)

/-- The contents of the LRU list, front (most recently used) first. -/
def Cache.contents (c : Cache) : List (Bytes × Value × Option Int) := c.ll.map entry.content

/-- Payload cost of a value: the length of a string, the sum of field and value lengths of a
hash. -/
def Value.cost : Value → Int
  | .str v => (v.length : Int)
  | .hash m => (m.map (fun p => (p.1.length : Int) + (p.2.length : Int))).sum

/-- Cost of an entry: length of the key plus the payload cost. -/
def contentCost (x : Bytes × Value × Option Int) : Int := (x.1.length : Int) + x.2.1.cost

/-- Cost of an entry. -/
def entry.cost (e : entry) : Int := contentCost e.content

/-- Total cost of a list of entry contents. -/
def costs (l : List (Bytes × Value × Option Int)) : Int := (l.map contentCost).sum

/-- The states that the operations of the cache reach from a fresh cache.  A call of `gc` is
a run of sweeps, each under the lock, between which other operations may come. -/
inductive Reachable : Cache → Prop
  | fresh (n : Int) (c : Cache) : NewCache n = .ok c → Reachable c
  | set (c c1 : Cache) (k v : Bytes) (r : Option Err) :
      Reachable c → c.Set k (some v) = .ok (c1, r) → Reachable c1
  | hset (c c1 : Cache) (k f v : Bytes) (r : Option Err) :
      Reachable c → c.HSet k f (some v) = .ok (c1, r) → Reachable c1
  | expire (c : Cache) (now : Int) (k : Bytes) (ttl : Int) :
      Reachable c → Reachable (c.Expire now k ttl).1
  | exist (c c1 : Cache) (now : Int) (k : Bytes) (n : Int) :
      Reachable c → c.Exists now k = .ok (c1, n) → Reachable c1
  | get (c c1 : Cache) (now : Int) (k : Bytes) (r : Option Bytes × Option Err) :
      Reachable c → c.Get now k = .ok (c1, r) → Reachable c1
  | hget (c c1 : Cache) (now : Int) (k f : Bytes) (r : Option Bytes × Option Err) :
      Reachable c → c.HGet now k f = .ok (c1, r) → Reachable c1
  | hgetall (c c1 : Cache) (now : Int) (k : Bytes) (r : Option (List Bytes) × Option Err) :
      Reachable c → c.HGetAll now k = .ok (c1, r) → Reachable c1
  | hdel (c c1 : Cache) (now : Int) (k : Bytes) (fs : List Bytes) (r : Int × Option Err) :
      Reachable c → c.HDel now k fs = .ok (c1, r) → Reachable c1
  | hexists (c c1 : Cache) (now : Int) (k f : Bytes) (r : Int × Option Err) :
      Reachable c → c.HExists now k f = .ok (c1, r) → Reachable c1
  | remove (c c1 : Cache) (ks : List Bytes) (n : Int) :
      Reachable c → c.Remove ks = .ok (c1, n) → Reachable c1
  | flush (c : Cache) : Reachable c → Reachable c.Flush
  | setSizeLimit (c : Cache) (n : Int) : Reachable c → Reachable (c.SetSizeLimit n)
  | gcSweep (c c1 : Cache) (clock : Nat → Int) (p : List Nat) (r : Nat × Nat) :
      Reachable c → p.Perm (List.range c.array.length) →
      c.gcSweep clock p = .ok (c1, r) → Reachable c1

/-- The fields of a hash are distinct, as the keys of a Go map are. -/
def fieldsDistinct (m : List (Bytes × Bytes)) : Prop := (m.map Prod.fst).Nodup

/-- The number of distinct elements of `ks` that are in `present`. -/
def countPresent (ks present : List Bytes) : Nat :=
  (ks.toFinset.filter (fun k => k ∈ present)).card

/-- The fields of a hash. -/
def fields (m : List (Bytes × Bytes)) : List Bytes := m.map Prod.fst

/-- The state after `HSET bar k1 v1`, `HSET bar k2 v2`, `SET foo v` on a fresh cache. -/
def hdelState : Cache :=
  { sizeLimit := 20 * MB
    size := 12
    ll := [ { key := ascii "foo", value := .str (ascii "v"), expire := none, pos := 1 },
            { key := ascii "bar",
              value := .hash [(ascii "k1", ascii "v1"), (ascii "k2", ascii "v2")],
              expire := none, pos := 0 } ]
    cache := [ascii "foo", ascii "bar"]
    array := [ascii "bar", ascii "foo"] }

/-- The state after `HMSET foo k1 v1 k2 v2 k3 v3` on a fresh cache (the hmset block of
`TestWithRedisCli`). -/
def hmsetState : Cache :=
  { sizeLimit := 20 * MB
    size := 12
    ll := [ { key := ascii "foo",
              value := .hash [(ascii "k1", ascii "v1"), (ascii "k2", ascii "v2"),
                (ascii "k3", ascii "v3")],
              expire := none, pos := 0 } ]
    cache := [ascii "foo"]
    array := [ascii "foo"] }

/-- The state of the hmset block of `TestWithRedisCli` after `HDEL foo k1 k2`: only "k3" is
left in the hash. -/
def hdelK3State : Cache :=
  { sizeLimit := 20 * MB
    size := 12
    ll := [ { key := ascii "foo", value := .hash [(ascii "k3", ascii "v3")],
              expire := none, pos := 0 } ]
    cache := [ascii "foo"]
    array := [ascii "foo"] }

/-- The state after `MSET foo fooValue bar barValue baz bazValue` on a fresh cache (the mset
block of `TestWithRedisCli`). -/
def msetState : Cache :=
  { sizeLimit := 20 * MB
    size := 33
    ll := [ { key := ascii "baz", value := .str (ascii "bazValue"), expire := none, pos := 2 },
            { key := ascii "bar", value := .str (ascii "barValue"), expire := none, pos := 1 },
            { key := ascii "foo", value := .str (ascii "fooValue"), expire := none, pos := 0 } ]
    cache := [ascii "baz", ascii "bar", ascii "foo"]
    array := [ascii "foo", ascii "bar", ascii "baz"] }

/-! ## gc as a run of sweeps -/

/-- The recursion of `func (c *Cache) gc()`: a sweep, and `c.gc()` again when
`len(expired)*4 > total`.  The sweep number `k` reads the clock through `clocks k` and gets
`perms k n` from `rand.Perm(n)`; the result is the final state and the number of sweeps made.
The first argument bounds the depth of the recursion. -/
def gcFrom (clocks : Nat → Nat → Int) (perms : Nat → Nat → List Nat) :
    Nat → Nat → Cache → Except Fault (Cache × Nat)
  | 0, _, _ => .error .outOfFuel
  | fuel + 1, k, c =>
    match c.gcSweep (clocks k) (perms k c.array.length) with
    | .error f => .error f
    | .ok (c1, n, total) =>
      if n * 4 > total then
        match gcFrom clocks perms fuel (k + 1) c1 with
        | .error f => .error f
        | .ok (c2, sweeps) => .ok (c2, sweeps + 1)
      else .ok (c1, 1)

/-- `func (c *Cache) gc()` as called by the ticker of `NewCache`, with no other operation
between two sweeps. -/
def Cache.gc (c : Cache) (fuel : Nat) (clocks : Nat → Nat → Int) (perms : Nat → Nat → List Nat) :
    Except Fault (Cache × Nat) :=
  gcFrom clocks perms fuel 0 c

/-! ## server.go: the other handlers and the dispatcher -/

/-- `func (s *server) handleFlush(cn *Conn, ss []string) (err error)`. -/
def handleFlush (c : Cache) (wr : Writer) (ss : List Bytes) :
    Except Fault (Cache × Writer × Option Err) :=
  if ss.length ≠ 0 then .ok (c, wr, some .arityError)
  else .ok (c.Flush, wr.Status (ascii "OK"), none)

/-- `func (s *server) handleExpire(cn *Conn, ss []string, unit int) (err error)`; the
product `i*unit` is taken in 64 bits. -/
def handleExpire (c : Cache) (wr : Writer) (now : Int) (ss : List Bytes) (unit : Int) :
    Except Fault (Cache × Writer × Option Err) :=
  match ss with
  | [k, t] =>
    match Atoi t with
    | none => .ok (c, wr, some .notIntError)
    | some i =>
      let r := c.Expire now k (wrapInt64 (i * unit))
      .ok (r.1, wr.Int r.2, none)
  | _ => .ok (c, wr, some .arityError)

/-- The loop of `handleMGet`: `s.cache.Get(k)` for each key, the values collected in `buf`;
the first error ends the loop. -/
def mgetLoop (now : Int) :
    List Bytes → Cache → List (Option Bytes) →
      Except Fault (Cache × List (Option Bytes) × Option Err)
  | [], c, buf => .ok (c, buf, none)
  | k :: ks, c, buf =>
    match c.Get now k with
    | .error f => .error f
    | .ok (c1, _, some err) => .ok (c1, buf, some err)
    | .ok (c1, d, none) => mgetLoop now ks c1 (buf ++ [d])

/-- `func (s *server) handleMGet(cn *Conn, ss []string) (err error)`. -/
def handleMGet (c : Cache) (wr : Writer) (now : Int) (ss : List Bytes) :
    Except Fault (Cache × Writer × Option Err) :=
  if ss.length < 1 then .ok (c, wr, some .arityError)
  else
    match mgetLoop now ss c [] with
    | .error f => .error f
    | .ok (c1, _, some err) => .ok (c1, wr, some err)
    | .ok (c1, buf, none) => .ok (c1, wr.StringArray buf, none)

/-- `func (s *server) handleExists(cn *Conn, ss []string) (err error)`. -/
def handleExists (c : Cache) (wr : Writer) (now : Int) (ss : List Bytes) :
    Except Fault (Cache × Writer × Option Err) :=
  match ss with
  | [k] =>
    match c.Exists now k with
    | .error f => .error f
    | .ok (c1, num) => .ok (c1, wr.Int num, none)
  | _ => .ok (c, wr, some .arityError)

/-- `func (s *server) handleHGet(cn *Conn, ss []string) (err error)`. -/
def handleHGet (c : Cache) (wr : Writer) (now : Int) (ss : List Bytes) :
    Except Fault (Cache × Writer × Option Err) :=
  match ss with
  | [k, f] =>
    match c.HGet now k f with
    | .error e => .error e
    | .ok (c1, _, some err) => .ok (c1, wr, some err)
    | .ok (c1, d, none) => .ok (c1, wr.String d, none)
  | _ => .ok (c, wr, some .arityError)

/-- The loop of `handleHMGet`: `s.cache.HGet(ss[0], k)` for each field of `ss[1:]`. -/
def hmgetLoop (now : Int) (key : Bytes) :
    List Bytes → Cache → List (Option Bytes) →
      Except Fault (Cache × List (Option Bytes) × Option Err)
  | [], c, buf => .ok (c, buf, none)
  | k :: ks, c, buf =>
    match c.HGet now key k with
    | .error f => .error f
    | .ok (c1, _, some err) => .ok (c1, buf, some err)
    | .ok (c1, d, none) => hmgetLoop now key ks c1 (buf ++ [d])

/-- `func (s *server) handleHMGet(cn *Conn, ss []string) (err error)`. -/
def handleHMGet (c : Cache) (wr : Writer) (now : Int) (ss : List Bytes) :
    Except Fault (Cache × Writer × Option Err) :=
  if ss.length < 2 then .ok (c, wr, some .arityError)
  else
    match ss with
    | [] => .ok (c, wr, some .arityError)
    | key :: rest =>
      match hmgetLoop now key rest c [] with
      | .error f => .error f
      | .ok (c1, _, some err) => .ok (c1, wr, some err)
      | .ok (c1, buf, none) => .ok (c1, wr.StringArray buf, none)

/-- `func (s *server) handleDel(cn *Conn, ss []string) (err error)`. -/
def handleDel (c : Cache) (wr : Writer) (ss : List Bytes) :
    Except Fault (Cache × Writer × Option Err) :=
  if ss.length < 1 then .ok (c, wr, some .arityError)
  else
    match c.Remove ss with
    | .error f => .error f
    | .ok (c1, num) => .ok (c1, wr.Int num, none)

/-- `func (s *server) handleHDel(cn *Conn, ss []string) (err error)`. -/
def handleHDel (c : Cache) (wr : Writer) (now : Int) (ss : List Bytes) :
    Except Fault (Cache × Writer × Option Err) :=
  if ss.length < 2 then .ok (c, wr, some .arityError)
  else
    match ss with
    | [] => .ok (c, wr, some .arityError)
    | key :: rest =>
      match c.HDel now key rest with
      | .error f => .error f
      | .ok (c1, _, some err) => .ok (c1, wr, some err)
      | .ok (c1, num, none) => .ok (c1, wr.Int num, none)

/-- `func (s *server) handleHExists(cn *Conn, ss []string) (err error)`. -/
def handleHExists (c : Cache) (wr : Writer) (now : Int) (ss : List Bytes) :
    Except Fault (Cache × Writer × Option Err) :=
  match ss with
  | [k, f] =>
    match c.HExists now k f with
    | .error e => .error e
    | .ok (c1, _, some err) => .ok (c1, wr, some err)
    | .ok (c1, num, none) => .ok (c1, wr.Int num, none)
  | _ => .ok (c, wr, some .arityError)

/-- What `handleInfo` reads outside the cache: `os.Getpid()`, `s.port`, `s.clientsCount`, and
the order in which `range` walks the two maps that hold two keys. -/
structure InfoEnv where
  pid : Int
  port : Bytes
  clientsCount : Int
  serverSwapped : Bool
  memorySwapped : Bool

/-- One line `k:v\r\n` of the text of `handleInfo`. -/
def infoLine (k v : Bytes) : Bytes := k ++ ascii ":" ++ v ++ [13, 10]

/-- The text that `handleInfo` builds in `sb`. -/
def infoText (env : InfoEnv) (c : Cache) : Bytes :=
  let srv := [infoLine (ascii "process_id") (Itoa env.pid), infoLine (ascii "tcp_port") env.port]
  let cli := infoLine (ascii "connected_clients") (Itoa env.clientsCount)
  let mem := [infoLine (ascii "used_memory") (Itoa c.GetSize),
    infoLine (ascii "maxmemory") (Itoa c.GetSizeLimit)]
  ascii "# Server" ++ [13, 10] ++ (if env.serverSwapped then srv.reverse else srv).flatten
    ++ [13, 10]
    ++ ascii "# Clients" ++ [13, 10] ++ cli ++ [13, 10]
    ++ ascii "# Memory" ++ [13, 10] ++ (if env.memorySwapped then mem.reverse else mem).flatten

/-- `func (s *server) handleInfo(cn *Conn, ss []string) (err error)`. -/
def handleInfo (env : InfoEnv) (c : Cache) (wr : Writer) (ss : List Bytes) :
    Except Fault (Cache × Writer × Option Err) :=
  if ss.length ≠ 0 then .ok (c, wr, some .arityError)
  else .ok (c, wr.String (some (infoText env c)), none)

/-- The submatch of the regular expression `^(\d+)mb$` of `handleConfigSet`: the digits in
front of the final "mb", `none` when the text does not match. -/
def maxmemoryMatch (s : Bytes) : Option Bytes :=
  let ds := s.take (s.length - 2)
  if s.length ≥ 3 ∧ s.drop (s.length - 2) = ascii "mb" ∧ ds.all isDigit = true then some ds
  else none

/-- `func (s *server) handleConfigSet(cn *Conn, ss []string) (err error)`.  The error of
`strconv.Atoi` is dropped: on digits out of range its value is the largest `int`; the product
`sizeLimit * 1024` is taken in 64 bits. -/
def handleConfigSet (c : Cache) (wr : Writer) (ss : List Bytes) :
    Except Fault (Cache × Writer × Option Err) :=
  match ss with
  | [a, b, v] =>
    if a = ascii "set" then
      if b = ascii "maxmemory" then
        match maxmemoryMatch v with
        | none => .ok (c, wr, some (.invalidMaxmemory v))
        | some ds =>
          let sizeLimit : Int :=
            match Atoi ds with
            | some i => i
            | none => 2 ^ 63 - 1
          .ok (c.SetSizeLimit (wrapInt64 (sizeLimit * 1024)), wr.Status (ascii "OK"), none)
      else if b = ascii "maxmemory-policy" then .ok (c, wr.Status (ascii "OK"), none)
      else .ok (c, wr, some .unsupportedRequest)
    else .ok (c, wr, some .unsupportedRequest)
  | _ => .ok (c, wr, some .unsupportedRequest)

/-- `strings.ToLower` on a text of ASCII bytes: the letters `A` to `Z` become `a` to `z`. -/
def asciiLower (s : Bytes) : Bytes :=
  s.map (fun b => if 65 ≤ b.toNat ∧ b.toNat ≤ 90 then b + 32 else b)

/-- The `switch strings.ToLower(ss[0])` of `handleConnection` (lines 117-156), with the
handler's result in `err`.  `lower` stands for `strings.ToLower`, `now` for the clock reading
of the request. -/
def dispatch (lower : Bytes → Bytes) (env : InfoEnv) (c : Cache) (wr : Writer) (now : Int)
    (ss : List Bytes) : Except Fault (Cache × Writer × Option Err) :=
  match firstArg ss with
  | .error f => .error f
  | .ok cmd =>
    let name := lower cmd
    let args := ss.tail
    if name = ascii "flushdb" then handleFlush c wr args
    else if name = ascii "expire" then handleExpire c wr now args 1000
    else if name = ascii "pexpire" then handleExpire c wr now args 1
    else if name = ascii "set" then handleSet c wr args
    else if name = ascii "mset" then handleMSet c wr args
    else if name = ascii "get" then handleGet c wr now args
    else if name = ascii "mget" then handleMGet c wr now args
    else if name = ascii "exists" then handleExists c wr now args
    else if name = ascii "hset" then handleHSet c wr args
    else if name = ascii "hmset" then handleHMSet c wr args
    else if name = ascii "hget" then handleHGet c wr now args
    else if name = ascii "hmget" then handleHMGet c wr now args
    else if name = ascii "hgetall" then handleHGetAll c wr now args
    else if name = ascii "hexists" then handleHExists c wr now args
    else if name = ascii "del" then handleDel c wr args
    else if name = ascii "hdel" then handleHDel c wr now args
    else if name = ascii "info" then handleInfo env c wr args
    else if name = ascii "config" then handleConfigSet c wr args
    else .ok (c, wr, some .unsupportedRequest)

/-- One turn of the loop of `handleConnection` after `ReadRequest` has returned the request
`ss`: the dispatch, then the error reply when the handler returned an error. -/
def serveRequest (lower : Bytes → Bytes) (env : InfoEnv) (c : Cache) (wr : Writer) (now : Int)
    (ss : List Bytes) : Except Fault (Cache × Writer) :=
  match dispatch lower env c wr now ss with
  | .error f => .error f
  | .ok (c1, wr1, err) => .ok (c1, replyError wr1 err)

/-- The loop of `handleConnection` over the requests that `ReadRequest` returns in turn. -/
def serveRequests (lower : Bytes → Bytes) (env : InfoEnv) (now : Int) :
    List (List Bytes) → Cache → Writer → Except Fault (Cache × Writer)
  | [], c, wr => .ok (c, wr)
  | ss :: rest, c, wr =>
    match serveRequest lower env c wr now ss with
    | .error f => .error f
    | .ok (c1, wr1) => serveRequests lower env now rest c1 wr1

/-- The environment of the server that `cmd/redis.go` starts on port 6379, with one client. -/
def mainEnv : InfoEnv :=
  { pid := 1, port := ascii "6379", clientsCount := 1, serverSwapped := false,
    memorySwapped := false }

/-! ## States for the eviction loop, the expiration and gc -/

/-- The state after `NewCache(100)`, `HSet("k", "f", []byte("0123456789"))`,
`HDel("k", []string{"f"})`, `Remove([]string{"k"})` and `SetSizeLimit(5)`: no entry is left
and `size` is 10. -/
def stuckState : Cache :=
  { sizeLimit := 5, size := 10, ll := [], cache := [], array := [] }

/-- The state of `TestExpire` cut down to the keys 0, 1 and 2, with the clock at 0 during the
first loop: "myKey-0" has no expiration, "myKey-1" expires after 100 ms and "myKey-2" after
200 ms. -/
def sweepState : Cache :=
  { sizeLimit := 1048576
    size := 21
    ll := [ { key := ascii "myKey-2", value := .str [], expire := some 200000000, pos := 2 },
            { key := ascii "myKey-1", value := .str [], expire := some 100000000, pos := 1 },
            { key := ascii "myKey-0", value := .str [], expire := none, pos := 0 } ]
    cache := [ascii "myKey-2", ascii "myKey-1", ascii "myKey-0"]
    array := [ascii "myKey-0", ascii "myKey-1", ascii "myKey-2"] }

/-- What a handler that returned `err` has done to the writer `wr`: nothing when it returned
an error, and one call of `Status("OK")`, `Int`, `String` or `StringArray` otherwise. -/
def oneReply (wr wr1 : Writer) (err : Option Err) : Prop :=
  match err with
  | some _ => wr1 = wr
  | none => wr1 = wr.Status (ascii "OK") ∨ (∃ n, wr1 = wr.Int n) ∨ (∃ b, wr1 = wr.String b) ∨
      (∃ bs, wr1 = wr.StringArray bs)

/-! ## Lemmas on the list operations -/

theorem foldl_sub_eq (m : List (Bytes × Bytes)) (s : Int) :
    m.foldl (fun s p => s - ((p.1.length : Int) + (p.2.length : Int))) s
      = s - (m.map (fun p => (p.1.length : Int) + (p.2.length : Int))).sum := by
  induction m generalizing s with
  | nil => simp
  | cons p m ih => simp only [List.foldl_cons, List.map_cons, List.sum_cons, ih]; omega

theorem modifyEntry_keys (ll : List entry) (k : Bytes) (f : entry → entry)
    (hf : ∀ e, (f e).key = e.key) : (modifyEntry ll k f).map entry.key = ll.map entry.key := by
  induction ll with
  | nil => rfl
  | cons e t ih =>
    simp only [modifyEntry, List.map_cons, List.cons.injEq] at ih ⊢
    refine ⟨?_, ih⟩
    split
    · exact hf e
    · rfl

theorem modifyEntry_pos_content (ll : List entry) (k : Bytes) (p : Nat) :
    (modifyEntry ll k (fun x => { x with pos := p })).map entry.content
      = ll.map entry.content := by
  induction ll with
  | nil => rfl
  | cons e t ih =>
    simp only [modifyEntry, List.map_cons, List.cons.injEq] at ih ⊢
    refine ⟨?_, ih⟩
    split <;> rfl

theorem filter_keys (ll : List entry) (k : Bytes) :
    (ll.filter (fun x => decide (x.key ≠ k))).map entry.key
      = (ll.map entry.key).filter (fun x => decide (x ≠ k)) := by
  induction ll with
  | nil => rfl
  | cons e t ih =>
    simp only [ne_eq, decide_not] at ih
    by_cases h : e.key = k <;> simp [List.filter_cons, h, ih]

/-- Removing by key the last element of a list with distinct keys drops the last element. -/
theorem filter_last_eq_dropLast (ll : List entry) (e : entry)
    (hnd : (ll.map entry.key).Nodup) (hl : ll.getLast? = some e) :
    ll.filter (fun x => decide (x.key ≠ e.key)) = ll.dropLast := by
  obtain ⟨init, rfl⟩ : ∃ init, ll = init ++ [e] := by
    rcases List.eq_nil_or_concat ll with h | ⟨init, a, h⟩
    · subst h; simp at hl
    · subst h; simp at hl; exact ⟨init, by rw [hl]; simp⟩
  have hne : ∀ x ∈ init, x.key ≠ e.key := by
    intro x hx hk
    rw [List.map_append, List.nodup_append] at hnd
    exact hnd.2.2 (List.mem_map_of_mem _ hx) (by simp [hk])
  rw [List.filter_append, List.dropLast_concat]
  have h1 : init.filter (fun x => decide (x.key ≠ e.key)) = init := by
    rw [List.filter_eq_self]
    intro x hx
    simpa using hne x hx
  rw [h1]
  simp

/-! ## removeElement and the eviction loop -/

theorem removeElement_cost (e : entry) (s : Int) :
    (match e.value with
      | .str v => s - (e.key.length : Int) - (v.length : Int)
      | .hash m =>
        m.foldl (fun s p => s - ((p.1.length : Int) + (p.2.length : Int)))
          (s - (e.key.length : Int))) = s - e.cost := by
  unfold entry.cost contentCost entry.content Value.cost
  cases e.value with
  | str v => simp only; omega
  | hash m => simp only [foldl_sub_eq]; omega

/-- The fields of the state that `removeElement` returns. -/
theorem removeElement_ok {c c1 : Cache} {e : entry} (h : c.removeElement e = .ok c1) :
    c1.sizeLimit = c.sizeLimit ∧ c1.size = c.size - e.cost ∧
    c1.cache = c.cache.filter (fun k => decide (k ≠ e.key)) ∧
    c1.keys = c.keys.filter (fun k => decide (k ≠ e.key)) ∧
    c1.contents = (c.ll.filter (fun x => decide (x.key ≠ e.key))).map entry.content ∧
    ∃ last, c.array.getLast? = some last ∧ e.pos < c.array.length ∧
      c1.array = (c.array.set e.pos last).dropLast ∧
      c1.ll = modifyEntry (c.ll.filter (fun x => decide (x.key ≠ e.key))) last
                (fun x => { x with pos := e.pos }) := by
  unfold Cache.removeElement at h
  cases hlast : c.array.getLast? with
  | none => simp [hlast] at h
  | some last =>
    by_cases hpos : e.pos < c.array.length
    · simp only [hlast, hpos, if_true, Except.ok.injEq] at h
      subst h
      refine ⟨rfl, ?_, rfl, ?_, ?_, last, rfl, hpos, rfl, rfl⟩
      · have := removeElement_cost e c.size
        simp only at this ⊢
        rw [← this]
      · simp only [Cache.keys]
        rw [modifyEntry_keys _ _ (fun x => { x with pos := e.pos }) (fun _ => rfl),
          filter_keys]
      · simp only [Cache.contents]
        rw [modifyEntry_pos_content]
    · simp [hlast, hpos] at h

theorem costs_append (a b : List (Bytes × Value × Option Int)) :
    costs (a ++ b) = costs a + costs b := by
  simp [costs]

theorem append_eq_concat_split {α : Type} {t s a : List α} {x : α}
    (h : t ++ s = a ++ [x]) (hs : s ≠ []) : ∃ s1, s = s1 ++ [x] ∧ a = t ++ s1 := by
  rcases List.eq_nil_or_concat s with h0 | ⟨s1, y, h1⟩
  · exact absurd h0 hs
  · subst h1
    rw [List.concat_eq_append, ← List.append_assoc] at h
    have h2 := List.append_inj_right' h rfl
    have h3 := List.append_inj_left' h rfl
    simp only [List.cons.injEq, and_true] at h2
    subst h2
    exact ⟨s1, by simp, h3.symm⟩

/-- The eviction loop removes a run of entries from the back of the LRU list, and removes an
entry only while the size is above the limit. -/
theorem evictLoop_spec (fuel : Nat) : ∀ (c c2 : Cache), c.keys.Nodup →
    evictLoop fuel c = .ok c2 →
    c2.sizeLimit = c.sizeLimit ∧ (c2.sizeLimit = 0 ∨ c2.size ≤ c2.sizeLimit) ∧
    c2.keys.Nodup ∧
    ∃ evicted, c.contents = c2.contents ++ evicted ∧ c2.size = c.size - costs evicted ∧
      ∀ t s, evicted = t ++ s → t ≠ [] → c.sizeLimit ≠ 0 ∧ c.size - costs s > c.sizeLimit := by
  induction fuel with
  | zero =>
    intro c c2 _ h
    unfold evictLoop at h
    split at h
    · split at h <;> cases h
    · rename_i hc
      simp only [Except.ok.injEq] at h
      subst h
      refine ⟨rfl, ?_, by assumption, [], by simp, by simp [costs], ?_⟩
      · by_cases h0 : c.sizeLimit = 0
        · exact Or.inl h0
        · right
          by_contra hlt
          exact hc ⟨h0, by omega⟩
      · intro t s hts ht
        simp at hts
        exact absurd hts.1 ht
  | succ n ih =>
    intro c c2 hnd h
    unfold evictLoop at h
    split at h
    · rename_i hc
      split at h
      · cases h
      · rename_i hne
        simp only at h
        split at h
        · cases h
        · rename_i c1 hro
          unfold Cache.removeOldest at hro
          split at hro
          · rename_i hl
            simp at hl
            exact absurd hl hne
          · rename_i e hl
            obtain ⟨hlim, hsize, _, hkeys, hcont, _⟩ := removeElement_ok hro
            have hnd1 : c1.keys.Nodup := by
              rw [hkeys]; exact hnd.filter _
            rw [filter_last_eq_dropLast c.ll e hnd hl] at hcont
            have hsplit : c.contents = c1.contents ++ [e.content] := by
              rw [hcont]
              simp only [Cache.contents]
              conv_lhs => rw [← List.dropLast_append_getLast? e hl]
              simp
            obtain ⟨h1, h2, h3, ev1, h4, h5, h6⟩ := ih c1 c2 hnd1 h
            refine ⟨by rw [h1, hlim], h2, h3, ev1 ++ [e.content], ?_, ?_, ?_⟩
            · rw [hsplit, h4]; simp
            · rw [h5, hsize, costs_append]
              simp [costs, entry.cost]
              omega
            · intro t s hts ht
              refine ⟨hc.1, ?_⟩
              by_cases hs : s = []
              · subst hs
                simp only [costs, List.map_nil, List.sum_nil, sub_zero]
                exact hc.2
              · obtain ⟨s1, hs1, hev⟩ := append_eq_concat_split hts.symm hs
                have := (h6 t s1 hev ht).2
                rw [hs1, costs_append]
                rw [hsize, hlim] at this
                simp only [costs, entry.cost, List.map_cons, List.map_nil, List.sum_cons,
                  List.sum_nil] at this ⊢
                omega
    · rename_i hc
      simp only [Except.ok.injEq] at h
      subst h
      refine ⟨rfl, ?_, hnd, [], by simp, by simp [costs], ?_⟩
      · by_cases h0 : c.sizeLimit = 0
        · exact Or.inl h0
        · right
          by_contra hlt
          exact hc ⟨h0, by omega⟩
      · intro t s hts ht
        simp at hts
        exact absurd hts.1 ht

/-! ## Lookup and the store step of Set and HSet -/

theorem find_some {c : Cache} {k : Bytes} {e : entry} (h : c.find k = some e) :
    k ∈ c.cache ∧ c.ll.find? (fun x => decide (x.key = k)) = some e ∧ e ∈ c.ll ∧ e.key = k := by
  unfold Cache.find at h
  split at h
  · rename_i hk
    refine ⟨hk, h, List.mem_of_find?_eq_some h, ?_⟩
    simpa using List.find?_some h
  · cases h

theorem find_none {c : Cache} {k : Bytes} (hwf : WF c) (h : c.find k = none) :
    k ∉ c.cache ∧ k ∉ c.keys := by
  unfold Cache.find at h
  split at h
  · rename_i hk
    have h1 : k ∈ c.keys := hwf.2.2.1 k hk
    simp only [Cache.keys, List.mem_map] at h1
    obtain ⟨e, he, hek⟩ := h1
    rw [List.find?_eq_none] at h
    exact absurd (by simpa using hek) (h e he)
  · rename_i hk
    exact ⟨hk, fun hmem => hk (hwf.2.2.2.1 k hmem)⟩

theorem find_isSome_iff {c : Cache} {k : Bytes} (hwf : WF c) :
    (c.find k).isSome ↔ k ∈ c.cache := by
  constructor
  · intro h
    obtain ⟨e, he⟩ := Option.isSome_iff_exists.mp h
    exact (find_some he).1
  · intro h
    cases hf : c.find k with
    | some e => rfl
    | none => exact absurd h (find_none hwf hf).1

theorem moveToFront_keys {ll : List entry} {k : Bytes} {e : entry}
    (h : ll.find? (fun x => decide (x.key = k)) = some e) :
    (moveToFront ll k).map entry.key
      = k :: (ll.map entry.key).filter (fun x => decide (x ≠ k)) := by
  have hk : e.key = k := by simpa using List.find?_some h
  simp only [moveToFront, h, List.map_cons, hk, filter_keys]

theorem find?_modifyEntry (ll : List entry) (k : Bytes) (f : entry → entry)
    (hf : ∀ e, (f e).key = e.key) :
    (modifyEntry ll k f).find? (fun x => decide (x.key = k))
      = (ll.find? (fun x => decide (x.key = k))).map f := by
  induction ll with
  | nil => rfl
  | cons a t ih =>
    simp only [modifyEntry, List.map_cons] at ih ⊢
    by_cases ha : a.key = k
    · simp [List.find?_cons, ha, hf]
    · simp [List.find?_cons, ha, ih]

theorem nodup_cons_filter {k : Bytes} {l : List Bytes} (h : l.Nodup) :
    (k :: l.filter (fun x => decide (x ≠ k))).Nodup := by
  rw [List.nodup_cons]
  exact ⟨by simp [List.mem_filter], h.filter _⟩

theorem setStore_keys_nodup {c m : Cache} {k v : Bytes} (hwf : WF c)
    (h : c.setStore k v = some m) : m.keys.Nodup ∧ m.sizeLimit = c.sizeLimit := by
  unfold Cache.setStore at h
  split at h
  · rename_i ee hf
    split at h
    · simp only [Option.some.injEq] at h
      subst h
      refine ⟨?_, rfl⟩
      simp only [Cache.keys]
      rw [modifyEntry_keys _ _ (fun x => { x with expire := none }) (fun _ => rfl),
        modifyEntry_keys _ _ (fun x => { x with value := .str v }) (fun _ => rfl),
        moveToFront_keys (find_some hf).2.1]
      exact nodup_cons_filter hwf.1
    · cases h
  · rename_i hf
    simp only [Option.some.injEq] at h
    subst h
    refine ⟨?_, rfl⟩
    simp only [Cache.keys, List.map_cons, List.nodup_cons]
    exact ⟨(find_none hwf hf).2, hwf.1⟩

theorem hsetStore_keys_nodup {c m : Cache} {k vk vv : Bytes} (hwf : WF c)
    (h : c.hsetStore k vk vv = some m) : m.keys.Nodup ∧ m.sizeLimit = c.sizeLimit := by
  unfold Cache.hsetStore at h
  split at h
  · rename_i ee hf
    split at h
    · cases h
    · rename_i oldValue _
      simp only [Option.some.injEq] at h
      subst h
      refine ⟨?_, rfl⟩
      simp only [Cache.keys]
      have hfind := (find_some hf).2.1
      have hk := (find_some hf).2.2.2
      have hfind2 := find?_modifyEntry c.ll k
        (fun x => { x with value := .hash (mapSet oldValue vk vv) }) (fun _ => rfl)
      rw [hfind, Option.map_some'] at hfind2
      rw [modifyEntry_keys _ _ (fun x => { x with expire := none }) (fun _ => rfl),
        moveToFront_keys hfind2,
        modifyEntry_keys _ _ (fun x => { x with value := .hash (mapSet oldValue vk vv) })
          (fun _ => rfl)]
      exact nodup_cons_filter hwf.1
  · rename_i hf
    simp only [Option.some.injEq] at h
    subst h
    refine ⟨?_, rfl⟩
    simp only [Cache.keys, List.map_cons, List.nodup_cons]
    exact ⟨(find_none hwf hf).2, hwf.1⟩

/-! ## C1: eviction order -/

theorem evict_after_store {c m c2 : Cache} (hnd : m.keys.Nodup) (hlim : m.sizeLimit = c.sizeLimit)
    (hpos : 0 < c.sizeLimit) (h : m.evict = .ok c2) :
    ∃ evicted, m.contents = c2.contents ++ evicted ∧
      c2.size = m.size - costs evicted ∧ c2.size ≤ c2.sizeLimit ∧
      ∀ t s, evicted = t ++ s → t ≠ [] → m.size - costs s > m.sizeLimit := by
  obtain ⟨h1, h2, _, ev, h4, h5, h6⟩ := evictLoop_spec _ m c2 hnd h
  refine ⟨ev, h4, h5, ?_, fun t s hts ht => (h6 t s hts ht).2⟩
  rcases h2 with h0 | hle
  · rw [h1, hlim] at h0; omega
  · exact hle

/-- C1. LRU eviction order: in a state satisfying the structural invariant with a positive
size limit, a call of `Set` or `HSet` that returns leaves the contents of the LRU list cut off
at the back: the list after the store step is the final list followed by the evicted run, the
final size is the size after the store step minus the cost of the evicted run and is within
the limit, and whenever only a proper tail `s` of the run had been evicted the size was still
above the limit (eviction stops as soon as it can).  In `TestEvict` (limit 50, `Set` of "0" to
"9" with value "123456789"), `Get` then misses for "0" to "4" and hits for "5" to "9". -/
theorem lru_eviction_order :
    (∀ (c c2 : Cache) (key v : Bytes), WF c → 0 < c.sizeLimit →
      c.Set key (some v) = .ok (c2, none) →
      ∃ m evicted, c.setStore key v = some m ∧ m.contents = c2.contents ++ evicted ∧
        c2.size = m.size - costs evicted ∧ c2.size ≤ c2.sizeLimit ∧
        ∀ t s, evicted = t ++ s → t ≠ [] → m.size - costs s > m.sizeLimit) ∧
    (∀ (c c2 : Cache) (key vk vv : Bytes), WF c → 0 < c.sizeLimit →
      c.HSet key vk (some vv) = .ok (c2, none) →
      ∃ m evicted, c.hsetStore key vk vv = some m ∧ m.contents = c2.contents ++ evicted ∧
        c2.size = m.size - costs evicted ∧ c2.size ≤ c2.sizeLimit ∧
        ∀ t s, evicted = t ++ s → t ≠ [] → m.size - costs s > m.sizeLimit) ∧
    (∀ now : Int, ∃ c, (NewCache 50).bind (setEach digitKeys (ascii "123456789")) = .ok c ∧
      getEach now digitKeys c
        = .ok (List.replicate 5 none ++ List.replicate 5 (some (ascii "123456789")))) := by
  refine ⟨?_, ?_, ?_⟩
  · intro c c2 key v hwf hpos h
    unfold Cache.Set at h
    simp only at h
    cases hm : c.setStore key v with
    | none => simp [hm] at h
    | some m =>
      simp only [hm] at h
      cases he : m.evict with
      | error f => simp [he] at h
      | ok c3 =>
        simp only [he, Except.ok.injEq, Prod.mk.injEq, and_true] at h
        subst h
        obtain ⟨hnd, hlim⟩ := setStore_keys_nodup hwf hm
        obtain ⟨ev, h⟩ := evict_after_store hnd hlim hpos he
        exact ⟨m, ev, rfl, h⟩
  · intro c c2 key vk vv hwf hpos h
    unfold Cache.HSet at h
    simp only at h
    cases hm : c.hsetStore key vk vv with
    | none => simp [hm] at h
    | some m =>
      simp only [hm] at h
      cases he : m.evict with
      | error f => simp [he] at h
      | ok c3 =>
        simp only [he, Except.ok.injEq, Prod.mk.injEq, and_true] at h
        subst h
        obtain ⟨hnd, hlim⟩ := hsetStore_keys_nodup hwf hm
        obtain ⟨ev, h⟩ := evict_after_store hnd hlim hpos he
        exact ⟨m, ev, rfl, h⟩
  · intro now
    refine ⟨_, (by decide! : (NewCache 50).bind (setEach digitKeys (ascii "123456789"))
      = .ok { sizeLimit := 50
              size := 50
              ll := (List.range 5).map (fun i =>
                { key := [UInt8.ofNat (57 - i)], value := .str (ascii "123456789"),
                  expire := none, pos := 4 - i })
              cache := (List.range 5).map (fun i => [UInt8.ofNat (57 - i)])
              array := (List.range 5).map (fun i => [UInt8.ofNat (53 + i)]) }), ?_⟩
    rfl

/-- Witness for C1: in `TestEvict`, the `Set` of "9" on the state holding "4" to "8" evicts
a run from the back of the list. -/
theorem lru_eviction_order_witness :
    (NewCache 50).bind (setEach (digitKeys.take 9) (ascii "123456789")) = .ok evictState ∧
    WF evictState ∧ 0 < evictState.sizeLimit ∧
    ∃ c2, evictState.Set [57] (some (ascii "123456789")) = .ok (c2, none) ∧
      c2.keys = [[57], [56], [55], [54], [53]] ∧
      ∃ m evicted, evictState.setStore [57] (ascii "123456789") = some m ∧
        m.contents = c2.contents ++ evicted ∧
        c2.size = m.size - costs evicted ∧ c2.size ≤ c2.sizeLimit ∧
        ∀ t s, evicted = t ++ s → t ≠ [] → m.size - costs s > m.sizeLimit := by
  refine ⟨by decide!, by decide!, by decide, ?_⟩
  have hset : evictState.Set [57] (some (ascii "123456789"))
      = .ok ({ sizeLimit := 50
               size := 50
               ll := (List.range 5).map (fun i =>
                 { key := [UInt8.ofNat (57 - i)], value := .str (ascii "123456789"),
                   expire := none, pos := 4 - i })
               cache := (List.range 5).map (fun i => [UInt8.ofNat (57 - i)])
               array := (List.range 5).map (fun i => [UInt8.ofNat (53 + i)]) }, none) := by
    decide!
  exact ⟨_, hset, by decide!,
    lru_eviction_order.1 evictState _ [57] (ascii "123456789") (by decide!) (by decide) hset⟩

/-! ## C2: size accounting -/

/-- C2. Size accounting fails on the code: on a fresh cache with limit 100,
`HSet("k", "f", "v")` leaves `size = 2` while the cost of the only live entry is 3 (the length
of the key is not added), `HDel("k", ["f"])` then leaves `size = 2` while the cost is 1 (the
field is not subtracted), and `Remove(["k"])` after the `HSet` leaves `size = -1` on an empty
cache. -/
theorem size_accounting_fails :
    ∃ c0 c1 c2 c3, NewCache 100 = .ok c0 ∧
      c0.HSet [107] [102] (some [118]) = .ok (c1, none) ∧
      c1.size = 2 ∧ costs c1.contents = 3 ∧
      c1.HDel 0 [107] [[102]] = .ok (c2, 1, none) ∧
      c2.size = 2 ∧ costs c2.contents = 1 ∧
      c1.Remove [[107]] = .ok (c3, 1) ∧
      c3.size = -1 ∧ c3.ll = [] := by
  refine ⟨_, _, _, _, rfl, (by decide! : _ = Except.ok
      (({ sizeLimit := 100, size := 2,
          ll := [{ key := [107], value := .hash [([102], [118])], expire := none, pos := 0 }],
          cache := [[107]], array := [[107]] } : Cache), (none : Option Err))),
    by decide!, by decide!, (by decide! : _ = Except.ok
      (({ sizeLimit := 100, size := 2,
          ll := [{ key := [107], value := .hash [], expire := none, pos := 0 }],
          cache := [[107]], array := [[107]] } : Cache), (1 : Int), (none : Option Err))),
    by decide!, by decide!, (by decide! : _ = Except.ok
      (({ sizeLimit := 100, size := -1, ll := [], cache := [], array := [] } : Cache),
        (1 : Int))),
    by decide!, by decide!⟩

/-! ## C3: byte budget -/

theorem evictLoop_budget (fuel : Nat) : ∀ (c c2 : Cache), evictLoop fuel c = .ok c2 →
    c2.sizeLimit = c.sizeLimit ∧ (c2.sizeLimit = 0 ∨ c2.size ≤ c2.sizeLimit) := by
  induction fuel with
  | zero =>
    intro c c2 h
    unfold evictLoop at h
    split at h
    · split at h <;> cases h
    · rename_i hc
      simp only [Except.ok.injEq] at h
      subst h
      refine ⟨rfl, ?_⟩
      by_cases h0 : c.sizeLimit = 0
      · exact Or.inl h0
      · exact Or.inr (by by_contra hlt; exact hc ⟨h0, by omega⟩)
  | succ n ih =>
    intro c c2 h
    unfold evictLoop at h
    split at h
    · split at h
      · cases h
      · simp only at h
        split at h
        · cases h
        · rename_i c1 hro
          have hlim : c1.sizeLimit = c.sizeLimit := by
            unfold Cache.removeOldest at hro
            split at hro
            · simp only [Except.ok.injEq] at hro
              rw [hro]
            · exact (removeElement_ok hro).1
          obtain ⟨h1, h2⟩ := ih c1 c2 h
          exact ⟨by rw [h1, hlim], h2⟩
    · rename_i hc
      simp only [Except.ok.injEq] at h
      subst h
      refine ⟨rfl, ?_⟩
      by_cases h0 : c.sizeLimit = 0
      · exact Or.inl h0
      · exact Or.inr (by by_contra hlt; exact hc ⟨h0, by omega⟩)

theorem setStore_sizeLimit {c m : Cache} {k v : Bytes} (h : c.setStore k v = some m) :
    m.sizeLimit = c.sizeLimit := by
  unfold Cache.setStore at h
  split at h
  · split at h
    · simp only [Option.some.injEq] at h
      subst h; rfl
    · cases h
  · simp only [Option.some.injEq] at h
    subst h; rfl

theorem hsetStore_sizeLimit {c m : Cache} {k vk vv : Bytes} (h : c.hsetStore k vk vv = some m) :
    m.sizeLimit = c.sizeLimit := by
  unfold Cache.hsetStore at h
  split at h
  · split at h
    · cases h
    · simp only [Option.some.injEq] at h
      subst h; rfl
  · simp only [Option.some.injEq] at h
    subst h; rfl

/-- The results of `Set`: a fault, WRONGTYPE with the state untouched, or the state the
eviction loop returns. -/
theorem Set_ok {c c2 : Cache} {k v : Bytes} {r : Option Err}
    (h : c.Set k (some v) = .ok (c2, r)) :
    (r = some .wrongType ∧ c2 = c ∧ c.setStore k v = none) ∨
    (r = none ∧ ∃ m, c.setStore k v = some m ∧ m.evict = .ok c2) := by
  unfold Cache.Set at h
  simp only at h
  cases hm : c.setStore k v with
  | none =>
    simp only [hm, Except.ok.injEq, Prod.mk.injEq] at h
    exact Or.inl ⟨h.2.symm, h.1.symm, rfl⟩
  | some m =>
    simp only [hm] at h
    cases he : m.evict with
    | error f => simp [he] at h
    | ok c3 =>
      simp only [he, Except.ok.injEq, Prod.mk.injEq] at h
      exact Or.inr ⟨h.2.symm, m, rfl, h.1 ▸ he⟩

/-- The results of `HSet`: a fault, WRONGTYPE with the state untouched, or the state the
eviction loop returns. -/
theorem HSet_ok {c c2 : Cache} {k vk vv : Bytes} {r : Option Err}
    (h : c.HSet k vk (some vv) = .ok (c2, r)) :
    (r = some .wrongType ∧ c2 = c ∧ c.hsetStore k vk vv = none) ∨
    (r = none ∧ ∃ m, c.hsetStore k vk vv = some m ∧ m.evict = .ok c2) := by
  unfold Cache.HSet at h
  simp only at h
  cases hm : c.hsetStore k vk vv with
  | none =>
    simp only [hm, Except.ok.injEq, Prod.mk.injEq] at h
    exact Or.inl ⟨h.2.symm, h.1.symm, rfl⟩
  | some m =>
    simp only [hm] at h
    cases he : m.evict with
    | error f => simp [he] at h
    | ok c3 =>
      simp only [he, Except.ok.injEq, Prod.mk.injEq] at h
      exact Or.inr ⟨h.2.symm, m, rfl, h.1 ▸ he⟩

/-- C3, counterexample. On a cache of limit 100, `Set("s", "0123456789")` followed by
`SetSizeLimit(5)` gives a state of size 11 with a positive limit of 5; `HSet("s", "f", "v")`
on it returns WRONGTYPE and leaves size 11 above the limit with a non-empty LRU list. -/
theorem byte_budget_counterexample :
    ∃ c0 c1 c2, NewCache 100 = .ok c0 ∧
      c0.Set [115] (some (ascii "0123456789")) = .ok (c1, none) ∧
      0 < (c1.SetSizeLimit 5).sizeLimit ∧ WF (c1.SetSizeLimit 5) ∧
      (c1.SetSizeLimit 5).HSet [115] [102] (some [118]) = .ok (c2, some .wrongType) ∧
      ¬ (c2.size ≤ c2.sizeLimit ∨ c2.ll = []) := by
  refine ⟨_, _, _, rfl, (by decide! : _ = Except.ok
      (({ sizeLimit := 100, size := 11,
          ll := [{ key := [115], value := .str (ascii "0123456789"), expire := none,
                   pos := 0 }],
          cache := [[115]], array := [[115]] } : Cache), (none : Option Err))),
    by decide!, by decide!, (by decide! : _ = Except.ok
      (({ sizeLimit := 5, size := 11,
          ll := [{ key := [115], value := .str (ascii "0123456789"), expire := none,
                   pos := 0 }],
          cache := [[115]], array := [[115]] } : Cache), some Err.wrongType)),
    by decide!⟩

/-- C3, amended. Byte budget: with a positive size limit, when `Set` or `HSet` returns without
the WRONGTYPE error the size is within the limit; when it returns WRONGTYPE the state is the
state before the call. -/
theorem byte_budget :
    (∀ (c c2 : Cache) (key v : Bytes) (r : Option Err), 0 < c.sizeLimit →
      c.Set key (some v) = .ok (c2, r) →
      (r = none → c2.size ≤ c2.sizeLimit) ∧ (r ≠ none → r = some .wrongType ∧ c2 = c)) ∧
    (∀ (c c2 : Cache) (key vk vv : Bytes) (r : Option Err), 0 < c.sizeLimit →
      c.HSet key vk (some vv) = .ok (c2, r) →
      (r = none → c2.size ≤ c2.sizeLimit) ∧ (r ≠ none → r = some .wrongType ∧ c2 = c)) := by
  constructor
  · intro c c2 key v r hpos h
    rcases Set_ok h with ⟨hr, hc, _⟩ | ⟨hr, m, hm, he⟩
    · subst hr
      exact ⟨(fun h0 => nomatch h0), (fun _ => ⟨rfl, hc⟩)⟩
    · subst hr
      refine ⟨fun _ => ?_, fun h0 => absurd rfl h0⟩
      obtain ⟨h1, h2⟩ := evictLoop_budget _ m c2 he
      rcases h2 with h0 | hle
      · rw [h1, setStore_sizeLimit hm] at h0; omega
      · exact hle
  · intro c c2 key vk vv r hpos h
    rcases HSet_ok h with ⟨hr, hc, _⟩ | ⟨hr, m, hm, he⟩
    · subst hr
      exact ⟨(fun h0 => nomatch h0), (fun _ => ⟨rfl, hc⟩)⟩
    · subst hr
      refine ⟨fun _ => ?_, fun h0 => absurd rfl h0⟩
      obtain ⟨h1, h2⟩ := evictLoop_budget _ m c2 he
      rcases h2 with h0 | hle
      · rw [h1, hsetStore_sizeLimit hm] at h0; omega
      · exact hle

/-- Witness for C3: the `Set` of "9" in `TestEvict` returns within the limit of 50. -/
theorem byte_budget_witness :
    ∃ c2, 0 < evictState.sizeLimit ∧
      evictState.Set [57] (some (ascii "123456789")) = .ok (c2, none) ∧
      c2.size ≤ c2.sizeLimit := by
  have hset : evictState.Set [57] (some (ascii "123456789"))
      = .ok ({ sizeLimit := 50
               size := 50
               ll := (List.range 5).map (fun i =>
                 { key := [UInt8.ofNat (57 - i)], value := .str (ascii "123456789"),
                   expire := none, pos := 4 - i })
               cache := (List.range 5).map (fun i => [UInt8.ofNat (57 - i)])
               array := (List.range 5).map (fun i => [UInt8.ofNat (53 + i)]) }, none) := by
    decide!
  exact ⟨_, by decide, hset,
    (byte_budget.1 evictState _ [57] (ascii "123456789") none (by decide) hset).1 rfl⟩

/-! ## C4: WRONGTYPE at the cache level -/

/-- C4. WRONGTYPE without mutation: when `k` holds an unexpired hash, `Set` and `Get` on `k`
return the WRONGTYPE error and the state they return is the state before the call; when `k`
holds an unexpired string, `HSet`, `HGet`, `HGetAll`, `HDel` and `HExists` do.  In `TestGet`,
`HSet("aaa", "1", "11")` after `Set("aaa", "1234")` returns a non-nil error. -/
theorem wrongtype_no_mutation :
    (∀ (c : Cache) (now : Int) (k v : Bytes) (e : entry) (m : List (Bytes × Bytes)),
      c.find k = some e → e.value = .hash m → e.hasExpired now = false →
      c.Set k (some v) = .ok (c, some .wrongType) ∧
      c.Get now k = .ok (c, none, some .wrongType)) ∧
    (∀ (c : Cache) (now : Int) (k f v : Bytes) (fs : List Bytes) (e : entry) (s : Bytes),
      c.find k = some e → e.value = .str s → e.hasExpired now = false →
      c.HSet k f (some v) = .ok (c, some .wrongType) ∧
      c.HGet now k f = .ok (c, none, some .wrongType) ∧
      c.HGetAll now k = .ok (c, none, some .wrongType) ∧
      c.HDel now k fs = .ok (c, 0, some .wrongType) ∧
      c.HExists now k f = .ok (c, 0, some .wrongType)) ∧
    (∃ c0 c1 err, NewCache MB = .ok c0 ∧ c0.Set (ascii "aaa") (some (ascii "1234")) = .ok (c1, none) ∧
      c1.HSet (ascii "aaa") (ascii "1") (some (ascii "11")) = .ok (c1, some err)) := by
  refine ⟨?_, ?_, ?_⟩
  · intro c now k v e m hf hv hexp
    constructor
    · simp [Cache.Set, Cache.setStore, hf, hv]
    · simp [Cache.Get, hf, hv, hexp]
  · intro c now k f v fs e s hf hv hexp
    refine ⟨?_, ?_, ?_, ?_, ?_⟩
    · simp [Cache.HSet, Cache.hsetStore, hf, hv]
    · simp [Cache.HGet, hf, hv, hexp]
    · simp [Cache.HGetAll, hf, hv, hexp]
    · simp [Cache.HDel, hf, hv, hexp]
    · simp [Cache.HExists, hf, hv, hexp]
  · exact ⟨_, testGetState, Err.wrongType, rfl, by decide!, by decide!⟩

/-- Witness for C4: the state of `TestGet` after `Set("aaa", "1234")` holds a live string at
"aaa", and the five hash operations on it return WRONGTYPE and the same state. -/
theorem wrongtype_no_mutation_witness :
    testGetState.find (ascii "aaa")
      = some { key := ascii "aaa", value := .str (ascii "1234"), expire := none, pos := 0 } ∧
    testGetState.HSet (ascii "aaa") (ascii "1") (some (ascii "11"))
      = .ok (testGetState, some .wrongType) ∧
    testGetState.HGet 0 (ascii "aaa") (ascii "1") = .ok (testGetState, none, some .wrongType) ∧
    testGetState.HGetAll 0 (ascii "aaa") = .ok (testGetState, none, some .wrongType) ∧
    testGetState.HDel 0 (ascii "aaa") [ascii "1"] = .ok (testGetState, 0, some .wrongType) ∧
    testGetState.HExists 0 (ascii "aaa") (ascii "1")
      = .ok (testGetState, 0, some .wrongType) :=
  ⟨by decide!, wrongtype_no_mutation.2.1 testGetState 0 (ascii "aaa") (ascii "1") (ascii "11")
    [ascii "1"] { key := ascii "aaa", value := .str (ascii "1234"), expire := none, pos := 0 }
    (ascii "1234") (by decide!) rfl rfl⟩

/-! ## removeElement keeps the structural invariant -/

theorem nodup_getElem?_inj {l : List Bytes} (h : l.Nodup) {i j : Nat} {x : Bytes}
    (hi : l[i]? = some x) (hj : l[j]? = some x) : i = j := by
  have hil : i < l.length := (List.getElem?_eq_some.mp hi).1
  have hjl : j < l.length := (List.getElem?_eq_some.mp hj).1
  rw [List.nodup_iff_getElem?_ne_getElem?] at h
  rcases Nat.lt_trichotomy i j with hlt | heq | hgt
  · exact absurd (hi.trans hj.symm) (h i j hlt hjl)
  · exact heq
  · exact absurd (hj.trans hi.symm) (h j i hgt hil)

theorem getElem?_swapRemove (A : List Bytes) (p i : Nat) (last : Bytes) (hp : p < A.length) :
    ((A.set p last).dropLast)[i]?
      = if i < A.length - 1 then (if i = p then some last else A[i]?) else none := by
  rw [List.getElem?_dropLast, List.length_set, List.getElem?_set]
  by_cases h1 : i < A.length - 1
  · by_cases h2 : p = i
    · subst h2; simp [h1, hp]
    · have h3 : ¬ i = p := fun h => h2 h.symm
      simp [h1, h2, h3]
  · simp [h1]

theorem length_filter_key {ll : List entry} {e : entry} (hnd : (ll.map entry.key).Nodup)
    (he : e ∈ ll) : (ll.filter (fun x => decide (x.key ≠ e.key))).length + 1 = ll.length := by
  induction ll with
  | nil => simp at he
  | cons a t ih =>
    simp only [List.map_cons, List.nodup_cons] at hnd
    by_cases hk : a.key = e.key
    · have ht : t.filter (fun x => decide (x.key ≠ e.key)) = t := by
        rw [List.filter_eq_self]
        intro x hx
        have : x.key ≠ a.key := fun hxa => hnd.1 (hxa ▸ List.mem_map_of_mem _ hx)
        simpa [← hk] using this
      rw [List.filter_cons_of_neg (by simp [hk]), ht]
      simp
    · have het : e ∈ t := by
        rcases List.mem_cons.mp he with h | h
        · exact absurd (by rw [h]) hk
        · exact h
      rw [List.filter_cons_of_pos (by simp [hk]), List.length_cons, List.length_cons,
        ih hnd.2 het]

/-- On a state that satisfies the structural invariant, `removeElement` of an element of the
list returns, keeps the invariant, and leaves the key of the element in none of the three
collections. -/
theorem removeElement_WF {c : Cache} {e : entry} (hwf : WF c) (he : e ∈ c.ll) :
    ∃ c1, c.removeElement e = .ok c1 ∧ WF c1 ∧
      e.key ∉ c1.cache ∧ e.key ∉ c1.keys ∧ e.key ∉ c1.array := by
  obtain ⟨hnd, hcnd, hck, hkc, hand, hlen, hpos⟩ := hwf
  have hp := hpos e he
  have hplt : e.pos < c.array.length := (List.getElem?_eq_some.mp hp).1
  obtain ⟨last, hlast⟩ : ∃ last, c.array.getLast? = some last := by
    have hne : c.array ≠ [] := by
      intro h
      rw [h] at hplt
      simp at hplt
    exact ⟨_, List.getLast?_eq_getLast _ hne⟩
  have hlast2 : c.array[c.array.length - 1]? = some last := by
    rw [← List.getLast?_eq_getElem?]; exact hlast
  have hrun : c.removeElement e = .ok
      { c with
        size := (match e.value with
          | .str v => c.size - (e.key.length : Int) - (v.length : Int)
          | .hash m => m.foldl (fun s p => s - ((p.1.length : Int) + (p.2.length : Int)))
              (c.size - (e.key.length : Int)))
        ll := modifyEntry (c.ll.filter (fun x => decide (x.key ≠ e.key))) last
          (fun x => { x with pos := e.pos })
        cache := c.cache.filter (fun k => decide (k ≠ e.key))
        array := (c.array.set e.pos last).dropLast } := by
    simp only [Cache.removeElement, hlast, hplt, if_true]
  refine ⟨_, hrun, ?_⟩
  obtain ⟨_, _, hc1, hk1, _, _⟩ := removeElement_ok hrun
  have hget := fun i => getElem?_swapRemove c.array e.pos i last hplt
  have hnotlast : ∀ {q : Nat} {x : Bytes}, c.array[q]? = some x → x ≠ last →
      q < c.array.length - 1 := by
    intro q x hq hx
    have hql : q < c.array.length := (List.getElem?_eq_some.mp hq).1
    by_contra hge
    have : q = c.array.length - 1 := by omega
    rw [this, hlast2] at hq
    exact hx (Option.some.inj hq).symm
  have hnotin : e.key ∉ (c.array.set e.pos last).dropLast := by
    intro hmem
    obtain ⟨i, hi⟩ := List.mem_iff_getElem?.mp hmem
    rw [hget i] at hi
    split at hi
    · rename_i hil
      split at hi
      · rename_i hip
        have hlk : last = e.key := Option.some.inj hi
        have := nodup_getElem?_inj hand hp (hlk ▸ hlast2)
        omega
      · rename_i hip
        exact hip (nodup_getElem?_inj hand hi hp)
    · cases hi
  refine ⟨⟨?_, ?_, ?_, ?_, ?_, ?_, ?_⟩, ?_, ?_, hnotin⟩
  · rw [hk1]; exact hnd.filter _
  · rw [hc1]; exact hcnd.filter _
  · intro k hk
    rw [hc1, List.mem_filter] at hk
    rw [hk1, List.mem_filter]
    exact ⟨hck k hk.1, hk.2⟩
  · intro k hk
    rw [hk1, List.mem_filter] at hk
    rw [hc1, List.mem_filter]
    exact ⟨hkc k hk.1, hk.2⟩
  · rw [List.nodup_iff_getElem?_ne_getElem?]
    intro i j hij hj
    simp only [List.length_dropLast, List.length_set] at hj
    have hA := List.nodup_iff_getElem?_ne_getElem?.mp hand
    have hi : i < c.array.length - 1 := by omega
    rw [hget i, hget j]
    simp only [hi, hj, if_true]
    by_cases hip : i = e.pos
    · have hjp : ¬ j = e.pos := by omega
      simp only [hip, hjp, if_true, if_false]
      rw [← hlast2]
      exact fun h => hA j (c.array.length - 1) hj (by omega) h.symm
    · by_cases hjp : j = e.pos
      · simp only [hip, hjp, if_true, if_false]
        rw [← hlast2]
        exact hA i (c.array.length - 1) hi (by omega)
      · simp only [hip, hjp, if_false]
        exact hA i j hij (by omega)
  · simp only [List.length_dropLast, List.length_set, modifyEntry, List.length_map]
    have := length_filter_key hnd he
    omega
  · intro x hx
    simp only [modifyEntry, List.mem_map, List.mem_filter] at hx
    obtain ⟨y, ⟨hy, hyk⟩, hxy⟩ := hx
    have hyk2 : y.key ≠ e.key := by simpa using hyk
    have hyp := hpos y hy
    have hne : y.pos ≠ e.pos := fun h => hyk2 (Option.some.inj ((h ▸ hyp).symm.trans hp))
    simp only
    rw [hget]
    by_cases hyl : y.key = last
    · rw [if_pos hyl] at hxy
      subst hxy
      simp only
      have : e.pos < c.array.length - 1 := hnotlast hp (fun h => hyk2 (hyl.trans h.symm))
      simp [this, hyl]
    · rw [if_neg hyl] at hxy
      subst hxy
      have : y.pos < c.array.length - 1 := hnotlast hyp hyl
      simp [this, hne, hyp]
  · rw [hc1, List.mem_filter]
    simp
  · rw [hk1, List.mem_filter]
    simp

/-! ## C5: WRONGTYPE on the wire -/

theorem handleHSet_on_string (c : Cache) (wr : Writer) (k f v s : Bytes) (e : entry)
    (hf : c.find k = some e) (hv : e.value = .str s) :
    handleHSet c wr [k, f, v] = .ok (c, wr.Status (ascii "OK"), none) := by
  simp [handleHSet, Cache.HSet, Cache.hsetStore, hf, hv]

theorem handleSet_on_hash (c : Cache) (wr : Writer) (k v : Bytes) (e : entry)
    (m : List (Bytes × Bytes)) (hf : c.find k = some e) (hv : e.value = .hash m) :
    handleSet c wr [k, v] = .ok (c, wr.Status (ascii "OK"), none) := by
  simp [handleSet, Cache.Set, Cache.setStore, hf, hv]

/-- C5. WRONGTYPE is not reported on the wire for writes: after `SET foo v` on a fresh cache,
the HSET handler called with `foo f1 v1` returns no error and the reply on the wire is
`+OK`; the state is unchanged and `GET foo` still replies with "v".  After `HSET bar k1 v1`,
the SET handler called with `bar x` replies `+OK` as well. -/
theorem write_handlers_reply_ok_on_wrongtype :
    ∃ c0 c1 c2, NewCache (20 * MB) = .ok c0 ∧
      handleSet c0 { out := [] } [ascii "foo", ascii "v"]
        = .ok (c1, { out := ascii "+OK\r\n" }, none) ∧
      handleHSet c1 { out := [] } [ascii "foo", ascii "f1", ascii "v1"]
        = .ok (c1, { out := ascii "+OK\r\n" }, none) ∧
      replyError { out := ascii "+OK\r\n" } none = { out := ascii "+OK\r\n" } ∧
      handleGet c1 { out := [] } 0 [ascii "foo"]
        = .ok (c1, { out := ascii "$1\r\nv\r\n" }, none) ∧
      handleHSet c0 { out := [] } [ascii "bar", ascii "k1", ascii "v1"]
        = .ok (c2, { out := ascii "+OK\r\n" }, none) ∧
      handleSet c2 { out := [] } [ascii "bar", ascii "x"]
        = .ok (c2, { out := ascii "+OK\r\n" }, none) := by
  refine ⟨_,
    { sizeLimit := 20 * MB, size := 4,
      ll := [{ key := ascii "foo", value := .str (ascii "v"), expire := none, pos := 0 }],
      cache := [ascii "foo"], array := [ascii "foo"] },
    { sizeLimit := 20 * MB, size := 4,
      ll := [{ key := ascii "bar", value := .hash [(ascii "k1", ascii "v1")], expire := none,
               pos := 0 }],
      cache := [ascii "bar"], array := [ascii "bar"] },
    rfl, by decide!, by decide!, rfl, by decide!, by decide!, by decide!⟩

/-! ## C6: lazy expiration -/

/-- C6. Lazy expiration: in a state satisfying the structural invariant, when the entry of `k`
has an expiration strictly before `now`, each of `Get`, `HGet`, `HGetAll`, `HDel`, `HExists`
and `Exists` on `k` returns a miss without error, whatever the kind of the value, and the
state it returns has `k` in none of the index map, the LRU list and the sampling array, its
size being the size before minus the cost of the entry. -/
theorem lazy_expiration (c : Cache) (now : Int) (k f : Bytes) (fs : List Bytes) (e : entry)
    (t : Int) (hwf : WF c) (hf : c.find k = some e) (he : e.expire = some t) (ht : t < now) :
    ∃ c1, c1.size = c.size - e.cost ∧ k ∉ c1.cache ∧ k ∉ c1.keys ∧ k ∉ c1.array ∧ WF c1 ∧
      c.Get now k = .ok (c1, none, none) ∧
      c.HGet now k f = .ok (c1, none, none) ∧
      c.HGetAll now k = .ok (c1, none, none) ∧
      c.HDel now k fs = .ok (c1, 0, none) ∧
      c.HExists now k f = .ok (c1, 0, none) ∧
      c.Exists now k = .ok (c1, 0) := by
  obtain ⟨_, _, hmem, hk⟩ := find_some hf
  obtain ⟨c1, hrun, hwf1, h1, h2, h3⟩ := removeElement_WF hwf hmem
  have hexp : e.hasExpired now = true := by
    simp [entry.hasExpired, he, ht]
  rw [hk] at h1 h2 h3
  refine ⟨c1, (removeElement_ok hrun).2.1, h1, h2, h3, hwf1, ?_, ?_, ?_, ?_, ?_, ?_⟩
  · simp [Cache.Get, hf, hexp, hrun]
  · simp [Cache.HGet, hf, hexp, hrun]
  · simp [Cache.HGetAll, hf, hexp, hrun]
  · simp [Cache.HDel, hf, hexp, hrun]
  · simp [Cache.HExists, hf, hexp, hrun]
  · simp [Cache.Exists, hf, hexp, hrun]

/-- Witness for C6: at instant 101 the entries of "foo" (a string) and of "bar" (a hash),
both expiring at 100, are removed by the read that finds them. -/
theorem lazy_expiration_witness :
    WF expireState ∧
    (∃ c1, c1.size = expireState.size - 11 ∧ ascii "foo" ∉ c1.cache ∧ ascii "foo" ∉ c1.keys ∧
      ascii "foo" ∉ c1.array ∧ WF c1 ∧
      expireState.Get 101 (ascii "foo") = .ok (c1, none, none) ∧
      expireState.HGet 101 (ascii "foo") (ascii "k1") = .ok (c1, none, none) ∧
      expireState.HGetAll 101 (ascii "foo") = .ok (c1, none, none) ∧
      expireState.HDel 101 (ascii "foo") [ascii "k1"] = .ok (c1, 0, none) ∧
      expireState.HExists 101 (ascii "foo") (ascii "k1") = .ok (c1, 0, none) ∧
      expireState.Exists 101 (ascii "foo") = .ok (c1, 0)) :=
  ⟨by decide!, lazy_expiration expireState 101 (ascii "foo") (ascii "k1") [ascii "k1"]
    { key := ascii "foo", value := .str (ascii "fooValue"), expire := some 100, pos := 0 }
    100 (by decide!) (by decide!) rfl (by decide)⟩

/-! ## C7: writes clear the expiration -/

theorem modifyEntry_filter_ne (ll : List entry) (k : Bytes) (f : entry → entry) :
    modifyEntry (ll.filter (fun x => decide (x.key ≠ k))) k f
      = ll.filter (fun x => decide (x.key ≠ k)) := by
  unfold modifyEntry
  conv_rhs => rw [← List.map_id (ll.filter (fun x => decide (x.key ≠ k)))]
  apply List.map_congr_left
  intro x hx
  have : x.key ≠ k := by simpa using (List.mem_filter.mp hx).2
  simp [this]

theorem filter_modifyEntry (ll : List entry) (k : Bytes) (f : entry → entry)
    (hf : ∀ e, (f e).key = e.key) :
    (modifyEntry ll k f).filter (fun x => decide (x.key ≠ k))
      = ll.filter (fun x => decide (x.key ≠ k)) := by
  induction ll with
  | nil => rfl
  | cons a t ih =>
    simp only [modifyEntry, List.map_cons] at ih ⊢
    by_cases ha : a.key = k
    · rw [if_pos ha, List.filter_cons_of_neg (by simp [hf, ha]),
        List.filter_cons_of_neg (by simp [ha]), ih]
    · rw [if_neg ha, List.filter_cons_of_pos (by simp [ha]),
        List.filter_cons_of_pos (by simp [ha]), ih]

theorem modifyEntry_cons_self (e : entry) (t : List entry) (f : entry → entry) :
    modifyEntry (e :: t) e.key f = f e :: modifyEntry t e.key f := by
  simp [modifyEntry]

/-- The store step of `Set` on a key that holds a string: the entry, with the new value and no
expiration, is put in front of the other entries. -/
theorem setStore_str {c : Cache} {k s : Bytes} (v : Bytes) {e : entry}
    (hf : c.find k = some e) (hv : e.value = .str s) :
    c.setStore k v = some { c with
      size := c.size + (v.length : Int) - (s.length : Int)
      ll := { e with value := .str v, expire := none }
              :: c.ll.filter (fun x => decide (x.key ≠ k)) } := by
  obtain ⟨_, hfind, _, hk⟩ := find_some hf
  subst hk
  simp only [Cache.setStore, hf, hv, moveToFront, hfind, modifyEntry_cons_self,
    modifyEntry_filter_ne]

/-- The store step of `HSet` on a key that holds a hash: the entry, with the field stored and
no expiration, is put in front of the other entries. -/
theorem hsetStore_hash {c : Cache} {k : Bytes} (vk vv : Bytes) {e : entry}
    {m : List (Bytes × Bytes)} (hf : c.find k = some e) (hv : e.value = .hash m) :
    c.hsetStore k vk vv = some { c with
      size := (match mapGet m vk with
        | some oldVv => c.size + (vv.length : Int) - (oldVv.length : Int)
        | none => c.size + ((vk.length : Int) + (vv.length : Int)))
      ll := { e with value := .hash (mapSet m vk vv), expire := none }
              :: c.ll.filter (fun x => decide (x.key ≠ k)) } := by
  obtain ⟨_, hfind, _, hk⟩ := find_some hf
  subst hk
  have hfind2 := find?_modifyEntry c.ll e.key
    (fun x => { x with value := .hash (mapSet m vk vv) }) (fun _ => rfl)
  rw [hfind, Option.map_some'] at hfind2
  simp only [Cache.hsetStore, hf, hv, moveToFront, hfind2]
  rw [filter_modifyEntry _ _ (fun x => { x with value := .hash (mapSet m vk vv) })
    (fun _ => rfl)]
  have := modifyEntry_cons_self { e with value := .hash (mapSet m vk vv) }
    (c.ll.filter (fun x => decide (x.key ≠ e.key))) (fun x => { x with expire := none })
  simp only at this
  rw [this, modifyEntry_filter_ne]

/-- After the eviction loop, an entry still found under the key at the front of the list
holds what the front entry held. -/
theorem find_after_evict {m c2 : Cache} {h e2 : entry} {tl : List entry}
    (hll : m.ll = h :: tl.filter (fun x => decide (x.key ≠ h.key)))
    (hnd : m.keys.Nodup) (he : m.evict = .ok c2) (hf : c2.find h.key = some e2) :
    e2.content = h.content := by
  obtain ⟨_, _, _, ev, hcont, _, _⟩ := evictLoop_spec _ m c2 hnd he
  obtain ⟨_, _, hmem, hk⟩ := find_some hf
  have h1 : e2.content ∈ m.contents := by
    rw [hcont]
    exact List.mem_append_left _ (List.mem_map_of_mem _ hmem)
  simp only [Cache.contents, hll, List.map_cons, List.mem_cons, List.mem_map,
    List.mem_filter] at h1
  rcases h1 with h1 | ⟨y, ⟨_, hy⟩, hyc⟩
  · exact h1
  · have hyk : y.key = e2.key := congrArg Prod.fst hyc
    rw [hk] at hyk
    simp [hyk] at hy

/-- C7. Writes clear the TTL: in a state satisfying the structural invariant, when `k` holds a
string (with any expiration), a `Set(k, v)` that returns returns no error and, if `k` is still
found afterwards, its entry holds `v` and has no expiration; when `k` holds a hash, a
`HSet(k, f, v)` that returns returns no error and, if `k` is still found afterwards, its entry
holds the hash with `f` set to `v` and has no expiration. -/
theorem writes_clear_ttl :
    (∀ (c c2 : Cache) (k v s : Bytes) (e : entry) (r : Option Err), WF c →
      c.find k = some e → e.value = .str s → c.Set k (some v) = .ok (c2, r) →
      r = none ∧ ∀ e2, c2.find k = some e2 → e2.expire = none ∧ e2.value = .str v) ∧
    (∀ (c c2 : Cache) (k f v : Bytes) (e : entry) (m : List (Bytes × Bytes)) (r : Option Err),
      WF c → c.find k = some e → e.value = .hash m → c.HSet k f (some v) = .ok (c2, r) →
      r = none ∧ ∀ e2, c2.find k = some e2 →
        e2.expire = none ∧ e2.value = .hash (mapSet m f v)) := by
  constructor
  · intro c c2 k v s e r hwf hf hv h
    have hst := setStore_str v hf hv
    rcases Set_ok h with ⟨_, _, hnone⟩ | ⟨hr, m, hm, hev⟩
    · rw [hst] at hnone; cases hnone
    · refine ⟨hr, fun e2 hf2 => ?_⟩
      have hnd := (setStore_keys_nodup hwf hm).1
      rw [hst] at hm
      simp only [Option.some.injEq] at hm
      have hk := (find_some hf).2.2.2
      have hll : m.ll = { e with value := .str v, expire := none }
          :: c.ll.filter (fun x => decide (x.key ≠
              ({ e with value := Value.str v, expire := none } : entry).key)) := by
        rw [← hm]; simp only [hk]
      have := find_after_evict hll hnd hev (by simpa only [hk] using hf2)
      simp only [entry.content, Prod.mk.injEq] at this
      exact ⟨this.2.2, this.2.1⟩
  · intro c c2 k f v e m0 r hwf hf hv h
    have hst := hsetStore_hash f v hf hv
    rcases HSet_ok h with ⟨_, _, hnone⟩ | ⟨hr, m, hm, hev⟩
    · rw [hst] at hnone; cases hnone
    · refine ⟨hr, fun e2 hf2 => ?_⟩
      have hnd := (hsetStore_keys_nodup hwf hm).1
      rw [hst] at hm
      simp only [Option.some.injEq] at hm
      have hk := (find_some hf).2.2.2
      have hll : m.ll = { e with value := .hash (mapSet m0 f v), expire := none }
          :: c.ll.filter (fun x => decide (x.key ≠
              ({ e with value := Value.hash (mapSet m0 f v), expire := none } : entry).key)) := by
        rw [← hm]; simp only [hk]
      have := find_after_evict hll hnd hev (by simpa only [hk] using hf2)
      simp only [entry.content, Prod.mk.injEq] at this
      exact ⟨this.2.2, this.2.1⟩

/-- Witness for C7: "foo" holds a string expiring at 100; after `Set("foo", "x")` its entry
is found, holds "x" and has no expiration. -/
theorem writes_clear_ttl_witness :
    WF expireState ∧
    ∃ c2, expireState.Set (ascii "foo") (some (ascii "x")) = .ok (c2, none) ∧
      c2.find (ascii "foo")
        = some { key := ascii "foo", value := .str (ascii "x"), expire := none, pos := 0 } ∧
      ∀ e2, c2.find (ascii "foo") = some e2 → e2.expire = none ∧ e2.value = .str (ascii "x") := by
  have hset : expireState.Set (ascii "foo") (some (ascii "x"))
      = .ok ({ sizeLimit := 20 * MB, size := 8,
               ll := [ { key := ascii "foo", value := .str (ascii "x"), expire := none,
                         pos := 0 },
                       { key := ascii "bar", value := .hash [(ascii "k1", ascii "v1")],
                         expire := some 100, pos := 1 } ],
               cache := [ascii "bar", ascii "foo"],
               array := [ascii "foo", ascii "bar"] }, none) := by decide!
  exact ⟨by decide!, _, hset, by decide!,
    (writes_clear_ttl.1 expireState _ (ascii "foo") (ascii "x") (ascii "fooValue")
      { key := ascii "foo", value := .str (ascii "fooValue"), expire := some 100, pos := 0 }
      none (by decide!) (by decide!) rfl hset).2⟩

/-! ## C8: Expire -/

/-- C8. Expire contract and frame: in a state satisfying the structural invariant,
`Expire(k, ttl)` returns 1 if `k` is in the index map and 0 otherwise; size limit, size, index
map and sampling array are unchanged; the LRU list keeps its entries in the same order with
the same key, value and position, and the same expiration for every other key; the entry of
a present `k` has its expiration cleared when `ttl <= 0` and set to `now` plus the duration
otherwise. -/
theorem expire_contract (c : Cache) (now : Int) (k : Bytes) (ttl : Int) (hwf : WF c) :
    (c.Expire now k ttl).2 = (if k ∈ c.cache then 1 else 0) ∧
    (c.Expire now k ttl).1.sizeLimit = c.sizeLimit ∧
    (c.Expire now k ttl).1.size = c.size ∧
    (c.Expire now k ttl).1.cache = c.cache ∧
    (c.Expire now k ttl).1.array = c.array ∧
    List.Forall₂ (fun a b => b.key = a.key ∧ b.value = a.value ∧ b.pos = a.pos ∧
        (a.key ≠ k → b.expire = a.expire) ∧
        (a.key = k → k ∈ c.cache → ttl ≤ 0 → b.expire = none) ∧
        (a.key = k → k ∈ c.cache → 0 < ttl →
          b.expire = some (now + wrapInt64 (1000000 * ttl))))
      c.ll (c.Expire now k ttl).1.ll := by
  cases hf : c.find k with
  | none =>
    have hk := (find_none hwf hf).1
    simp only [Cache.Expire, hf, hk, if_false, true_and]
    rw [List.forall₂_same]
    intro x _
    exact ⟨rfl, rfl, rfl, fun _ => rfl, fun _ h => h.elim, fun _ h => h.elim⟩
  | some e =>
    have hk := (find_some hf).1
    simp only [Cache.Expire, hf, hk, if_true, true_and, modifyEntry]
    rw [List.forall₂_map_right_iff, List.forall₂_same]
    intro x _
    by_cases hx : x.key = k
    · simp only [hx, if_true, ne_eq, not_true_eq_false, false_imp_iff, true_imp_iff, true_and]
      constructor
      · intro hle
        have : ¬ ttl > 0 := by omega
        simp [this]
      · intro hpos
        have : ttl > 0 := hpos
        simp [this]
    · simp [hx]

/-- Witness for C8: on the state of the expire block of `TestWithRedisCli`, `Expire` on the
existing "foo" returns 1 and on the missing "baz" returns 0. -/
theorem expire_contract_witness :
    WF expireState ∧
    (expireState.Expire 0 (ascii "foo") 100).2 = 1 ∧
    (expireState.Expire 0 (ascii "baz") 100).2 = 0 ∧
    (expireState.Expire 0 (ascii "foo") 100).1.array = expireState.array ∧
    (expireState.Expire 0 (ascii "foo") 0).1.ll
      = [ { key := ascii "bar", value := .hash [(ascii "k1", ascii "v1")], expire := some 100,
            pos := 1 },
          { key := ascii "foo", value := .str (ascii "fooValue"), expire := none, pos := 0 } ] := by
  have h1 := expire_contract expireState 0 (ascii "foo") 100 (by decide!)
  have h2 := expire_contract expireState 0 (ascii "baz") 100 (by decide!)
  refine ⟨by decide!, ?_, ?_, h1.2.2.2.2.1, by decide!⟩
  · rw [h1.1]; decide!
  · rw [h2.1]; decide!

/-! ## C10: the bytes the writer produces -/

theorem charByte_digitChar {d : Nat} (hd : d < 10) : charByte (Nat.digitChar d) = digitByte d := by
  interval_cases d <;> rfl

theorem natDigits_eq_toDigitsCore (fuel : Nat) : ∀ (n : Nat) (acc : List Char),
    natDigits fuel n (acc.map charByte) = (Nat.toDigitsCore 10 fuel n acc).map charByte := by
  induction fuel with
  | zero => intro n acc; rfl
  | succ f ih =>
    intro n acc
    unfold natDigits Nat.toDigitsCore
    by_cases hn : n < 10
    · have h0 : n / 10 = 0 := Nat.div_eq_of_lt hn
      have hm : n % 10 = n := Nat.mod_eq_of_lt hn
      simp only [hn, if_true, h0, hm, List.map_cons, charByte_digitChar hn]
    · have h0 : ¬ n / 10 = 0 := by omega
      have hm : n % 10 < 10 := Nat.mod_lt _ (by decide)
      simp only [hn, if_false, h0]
      rw [← ih, List.map_cons, charByte_digitChar hm]

/-- `Itoa` writes the decimal text. -/
theorem Itoa_eq_decimal (i : Int) : Itoa i = decimal i := by
  have h := natDigits_eq_toDigitsCore (i.natAbs + 1) i.natAbs []
  simp only [List.map_nil] at h
  unfold Itoa decimal Nat.toDigits
  by_cases hi : i < 0
  · simp only [hi, if_true, h, List.singleton_append]
  · simp only [hi, if_false, h, List.nil_append]

theorem strings_out (bs : List (Option Bytes)) : ∀ w : Writer,
    (w.strings bs).out = w.out ++ bulks bs := by
  induction bs with
  | nil => intro w; simp [Writer.strings, bulks]
  | cons b bs ih =>
    intro w
    rw [Writer.strings, ih]
    cases b with
    | none =>
      simp [Writer.String, Writer.nullString, Writer.simple, Writer.clrf, Writer.Write,
        Writer.WriteByte, bulks, bulk, ascii, List.append_assoc]
    | some b =>
      simp [Writer.String, Writer.simple, Writer.clrf, Writer.Write, Writer.WriteByte, bulks,
        bulk, Itoa_eq_decimal, List.append_assoc]

theorem writer_format_aux (w : Writer) (bs : List (Option Bytes)) :
    (w.StringArray bs).out = w.out ++ [42] ++ decimal bs.length ++ [13, 10] ++ bulks bs := by
  rw [Writer.StringArray, strings_out]
  simp [Writer.simple, Writer.clrf, Writer.Write, Writer.WriteByte, Itoa_eq_decimal]

/-- C10. Writer byte format: after the bytes already written, `Status(s)` writes `+` s CRLF,
`Error(s)` writes `-` s CRLF, `Int(i)` writes `:` decimal(i) CRLF, `String(b)` writes `$`
decimal(len b) CRLF b CRLF for a present `b` and `$-1` CRLF for an absent one,
`StringArray(bs)` writes `*` decimal(len bs) CRLF followed by the `String` encoding of each
element in order, and `NullStringArray` writes `*-1` CRLF; `String("foobar")` writes
`$6\r\nfoobar\r\n`. -/
theorem writer_format (w : Writer) (s : Bytes) (i : Int) (b : Bytes)
    (bs : List (Option Bytes)) :
    (w.Status s).out = w.out ++ [43] ++ s ++ [13, 10] ∧
    (w.Error s).out = w.out ++ [45] ++ s ++ [13, 10] ∧
    (w.Int i).out = w.out ++ [58] ++ decimal i ++ [13, 10] ∧
    (w.String (some b)).out = w.out ++ [36] ++ decimal b.length ++ [13, 10] ++ b ++ [13, 10] ∧
    (w.String none).out = w.out ++ ascii "$-1\r\n" ∧
    (w.StringArray bs).out = w.out ++ [42] ++ decimal bs.length ++ [13, 10] ++ bulks bs ∧
    (∀ x, bulk x = (Writer.String { out := [] } x).out) ∧
    w.NullStringArray.out = w.out ++ ascii "*-1\r\n" ∧
    (Writer.String { out := [] } (some (ascii "foobar"))).out = ascii "$6\r\nfoobar\r\n" := by
  refine ⟨?_, ?_, ?_, ?_, ?_, ?_, ?_, ?_, by decide!⟩
  · simp [Writer.Status, Writer.simple, Writer.clrf, Writer.Write, Writer.WriteByte]
  · simp [Writer.Error, Writer.simple, Writer.clrf, Writer.Write, Writer.WriteByte]
  · simp [Writer.Int, Writer.simple, Writer.clrf, Writer.Write, Writer.WriteByte,
      Itoa_eq_decimal]
  · simp [Writer.String, Writer.simple, Writer.clrf, Writer.Write, Writer.WriteByte,
      Itoa_eq_decimal]
  · simp [Writer.String, Writer.nullString, Writer.simple, Writer.clrf, Writer.Write,
      Writer.WriteByte, ascii]
  · rw [Writer.StringArray, strings_out]
    simp [Writer.simple, Writer.clrf, Writer.Write, Writer.WriteByte, Itoa_eq_decimal]
  · intro x
    have := strings_out [x] { out := [] }
    simp only [Writer.strings, bulks, List.append_nil, List.nil_append] at this
    exact this.symm
  · simp [Writer.NullStringArray, Writer.simple, Writer.clrf, Writer.Write, Writer.WriteByte,
      ascii]

/-! ## C9: reading back what the writer wrote -/

theorem digitByte_facts {d : Nat} (hd : d < 10) :
    isDigit (digitByte d) = true ∧ (digitByte d).toNat - 48 = d := by
  interval_cases d <;> exact ⟨rfl, rfl⟩

theorem isDigit_ne {b : UInt8} (h : isDigit b = true) :
    b ≠ 10 ∧ b ≠ 13 ∧ b ≠ 43 ∧ b ≠ 45 := by
  refine ⟨?_, ?_, ?_, ?_⟩ <;> (rintro rfl; revert h; decide)

theorem natDigits_all (fuel : Nat) : ∀ (n : Nat) (acc : Bytes),
    (∀ b ∈ acc, isDigit b = true) → ∀ b ∈ natDigits fuel n acc, isDigit b = true := by
  induction fuel with
  | zero => intro n acc hacc; exact hacc
  | succ f ih =>
    intro n acc hacc
    unfold natDigits
    split
    · rename_i hn
      intro b hb
      rcases List.mem_cons.mp hb with h | h
      · rw [h]; exact (digitByte_facts hn).1
      · exact hacc b h
    · apply ih
      intro b hb
      rcases List.mem_cons.mp hb with h | h
      · rw [h]; exact (digitByte_facts (Nat.mod_lt _ (by decide))).1
      · exact hacc b h

theorem natDigits_ne_nil (fuel : Nat) : ∀ (n : Nat) (acc : Bytes),
    (fuel ≠ 0 ∨ acc ≠ []) → natDigits fuel n acc ≠ [] := by
  induction fuel with
  | zero =>
    intro n acc h
    rcases h with h | h
    · exact absurd rfl h
    · exact h
  | succ f ih =>
    intro n acc _
    unfold natDigits
    split
    · exact List.cons_ne_nil _ _
    · exact ih _ _ (Or.inr (List.cons_ne_nil _ _))

theorem natDigits_length (fuel : Nat) : ∀ (n k : Nat) (acc : Bytes), n < 10 ^ k → 1 ≤ k →
    (natDigits fuel n acc).length ≤ acc.length + k := by
  induction fuel with
  | zero => intro n k acc _ _; simp [natDigits]
  | succ f ih =>
    intro n k acc hn hk
    unfold natDigits
    split
    · simp only [List.length_cons]; omega
    · rename_i h10
      obtain ⟨j, rfl⟩ : ∃ j, k = j + 1 := ⟨k - 1, by omega⟩
      have hj : 1 ≤ j := by
        by_contra hj0
        have : j = 0 := by omega
        subst this
        simp at hn
        omega
      have hdiv : n / 10 < 10 ^ j := by
        rw [Nat.div_lt_iff_lt_mul (by decide)]
        rw [pow_succ] at hn
        exact hn
      have := ih (n / 10) j (digitByte (n % 10) :: acc) hdiv hj
      simp only [List.length_cons] at this
      omega

theorem parseDigits_natDigits (fuel : Nat) : ∀ (n : Nat) (acc : Bytes), n < fuel →
    parseDigits (natDigits fuel n acc) 0 = parseDigits acc n := by
  induction fuel with
  | zero => intro n acc h; omega
  | succ f ih =>
    intro n acc hn
    unfold natDigits
    split
    · rename_i h10
      obtain ⟨h1, h2⟩ := digitByte_facts h10
      simp [parseDigits, h1, h2]
    · rename_i h10
      obtain ⟨h1, h2⟩ := digitByte_facts (Nat.mod_lt n (by decide : 0 < 10))
      rw [ih (n / 10) _ (by omega)]
      simp only [parseDigits, h1, h2, if_true]
      congr 1
      omega

theorem Itoa_natCast (n : Nat) : Itoa (n : Int) = natDigits (n + 1) n [] := by
  have : ¬ ((n : Int) < 0) := by omega
  simp [Itoa, this]

theorem Itoa_natCast_digits (n : Nat) : ∀ b ∈ Itoa (n : Int), isDigit b = true := by
  rw [Itoa_natCast]
  exact natDigits_all _ _ _ (by simp)

theorem Itoa_natCast_length (n : Nat) (h : (n : Int) < 2 ^ 63) :
    (Itoa (n : Int)).length ≤ 19 := by
  rw [Itoa_natCast]
  have hn : n < 10 ^ 19 := by
    have : (n : Int) < 10 ^ 19 := lt_trans h (by norm_num)
    exact_mod_cast this
  have := natDigits_length (n + 1) n 19 [] hn (by decide)
  simpa using this

/-- `Atoi` reads back the decimal text of a length. -/
theorem Atoi_Itoa_natCast (n : Nat) (h : (n : Int) < 2 ^ 63) :
    Atoi (Itoa (n : Int)) = some (n : Int) := by
  have hd := Itoa_natCast_digits n
  have hp : parseDigits (Itoa (n : Int)) 0 = some n := by
    rw [Itoa_natCast, parseDigits_natDigits _ _ _ (by omega)]
    rfl
  have hne : Itoa (n : Int) ≠ [] := by
    rw [Itoa_natCast]
    exact natDigits_ne_nil _ _ _ (Or.inl (by omega))
  cases hI : Itoa (n : Int) with
  | nil => exact absurd hI hne
  | cons b t =>
    rw [hI] at hd hp
    obtain ⟨_, _, h43, h45⟩ := isDigit_ne (hd b (List.mem_cons_self _ _))
    have hlo : -(2 : Int) ^ 63 ≤ (n : Int) := by
      have : (0 : Int) ≤ (n : Int) := by omega
      have h2 : -(2 : Int) ^ 63 ≤ 0 := by norm_num
      omega
    simp only [Atoi, h43, h45, or_self, if_false, hp]
    rw [if_neg (List.cons_ne_nil _ _)]
    exact if_pos ⟨hlo, h⟩

theorem wrapInt64_eq {x : Int} (h1 : -(2 : Int) ^ 63 ≤ x) (h2 : x < 2 ^ 63) :
    wrapInt64 x = x := by
  unfold wrapInt64
  have e1 : (2 : Int) ^ 63 = 9223372036854775808 := by norm_num
  have e2 : (2 : Int) ^ 64 = 18446744073709551616 := by norm_num
  rw [e1] at h1 h2 ⊢
  rw [e2]
  omega

theorem readSlice_append (l rest : Bytes) (h : ∀ b ∈ l, b ≠ 10) :
    readSlice (l ++ 10 :: rest) = some (l ++ [10], rest) := by
  induction l with
  | nil => simp [readSlice]
  | cons a t ih =>
    have ha : a ≠ 10 := h a (List.mem_cons_self _ _)
    have ht := ih (fun b hb => h b (List.mem_cons_of_mem _ hb))
    simp [readSlice, ha, ht]

/-- A header line `id` digits CRLF is read as `id` digits. -/
theorem readline_header (bufAfter : Bytes → Bytes) (id : UInt8) (ds rest : Bytes)
    (hid : id ≠ 10) (hds : ∀ b ∈ ds, isDigit b = true) (hlen : ds.length ≤ 19) :
    readline bufAfter (id :: ds ++ [13, 10] ++ rest) = .ok (id :: ds) rest := by
  have hsplit : id :: ds ++ [13, 10] ++ rest = (id :: ds ++ [13]) ++ 10 :: rest := by simp
  have hno : ∀ b ∈ id :: ds ++ [13], b ≠ 10 := by
    intro b hb
    simp only [List.cons_append, List.mem_cons, List.mem_append, List.mem_singleton,
      List.not_mem_nil, or_false] at hb
    rcases hb with h | h | h
    · rw [h]; exact hid
    · exact (isDigit_ne (hds b h)).1
    · rw [h]; decide
  rw [hsplit]
  unfold readline
  rw [readSlice_append _ _ hno]
  have hl : (id :: ds ++ [13] ++ [10]).length = ds.length + 3 := by simp
  have hle : (id :: ds ++ [13] ++ [10]).length ≤ defaultBufSize := by
    rw [hl]; unfold defaultBufSize; omega
  simp only [hle, if_true]
  have hget : (id :: ds ++ [13] ++ [10])[(id :: ds ++ [13] ++ [10]).length - 2]? = some 13 := by
    rw [hl]
    have : id :: ds ++ [13] ++ [10] = (id :: ds) ++ [13, 10] := by simp
    rw [this, List.getElem?_append_right (by simp)]
    simp
  have htake : (id :: ds ++ [13] ++ [10]).take ((id :: ds ++ [13] ++ [10]).length - 2)
      = id :: ds := by
    rw [hl]
    have : id :: ds ++ [13] ++ [10] = (id :: ds) ++ [13, 10] := by simp
    rw [this]
    exact List.take_left' (by simp)
  rw [hget, htake]
  have : ¬ (ds.length + 3 ≤ 2) := by omega
  simp [hl, this]

theorem readFull_payload (s rest : Bytes) :
    readFull (s ++ [13, 10] ++ rest) (s.length + 2) = .ok (s ++ [13, 10]) rest := by
  unfold readFull
  have h0 : ¬ (s.length + 2 = 0) := by omega
  have h1 : s.length + 2 ≤ (s ++ [13, 10] ++ rest).length := by simp
  have h2 : (s ++ [13, 10] ++ rest).take (s.length + 2) = s ++ [13, 10] :=
    List.take_left' (by simp)
  have h3 : (s ++ [13, 10] ++ rest).drop (s.length + 2) = rest :=
    List.drop_left' (by simp)
  simp only [h0, if_false, h1, if_true, h2, h3]

/-- One bulk string reply is read back as its payload. -/
theorem readStringReply_bulk (bufAfter : Bytes → Bytes) (s rest : Bytes)
    (hs : (s.length : Int) + 2 < 2 ^ 63) :
    readStringReply bufAfter (bulk (some s) ++ rest) = .ok s rest := by
  have hlt : ((s.length : Nat) : Int) < 2 ^ 63 := by omega
  have hform : bulk (some s) ++ rest
      = 36 :: Itoa (s.length : Int) ++ [13, 10] ++ (s ++ [13, 10] ++ rest) := by
    simp [bulk, Itoa_eq_decimal]
  rw [hform]
  unfold readStringReply
  rw [readline_header bufAfter 36 _ _ (by decide) (Itoa_natCast_digits _)
    (Itoa_natCast_length _ hlt)]
  have h2 : -(2 : Int) ^ 63 ≤ (s.length : Int) + 2 := by
    have h2 : -(2 : Int) ^ 63 ≤ 0 := by norm_num
    omega
  have hw : wrapInt64 ((s.length : Int) + 2) = ((s.length + 2 : Nat) : Int) := by
    rw [wrapInt64_eq h2 hs]; simp
  have hn : ¬ ((s.length : Int) < 0) := by omega
  simp only [ne_eq, not_true_eq_false, if_false, Atoi_Itoa_natCast _ hlt, hw]
  have hnn : ¬ (((s.length + 2 : Nat) : Int) < 0) := by omega
  have htake : (s ++ [13, 10]).take s.length = s := List.take_left' rfl
  simp only [hnn, if_false, Int.toNat_ofNat, readFull_payload, hn, htake]

theorem readStrings_bulks (bufAfter : Bytes → Bytes) (V : List Bytes) : ∀ rest : Bytes,
    (∀ s ∈ V, (s.length : Int) + 2 < 2 ^ 63) →
    readStrings bufAfter V.length (bulks (V.map some) ++ rest) = .ok V rest := by
  induction V with
  | nil => intro rest _; simp [readStrings, bulks]
  | cons s t ih =>
    intro rest h
    have hs := h s (List.mem_cons_self _ _)
    have ht := ih rest (fun x hx => h x (List.mem_cons_of_mem _ hx))
    simp only [List.length_cons, List.map_cons, bulks, readStrings, List.append_assoc]
    rw [readStringReply_bulk bufAfter s _ hs]
    simp only [ht]

/-- C9. RESP round trip: for every argument vector `V` of byte strings (of any bytes, empty
strings included) whose lengths are lengths of Go slices (the count below 2^63, each length
plus 2 below 2^63), `ReadRequest` applied to exactly the bytes that `StringArray(V)` writes,
followed by any further input `rest`, returns `V` with no error and leaves `rest` unread. -/
theorem resp_round_trip (bufAfter : Bytes → Bytes) (V : List Bytes) (rest : Bytes)
    (hV : (V.length : Int) < 2 ^ 63) (hs : ∀ s ∈ V, (s.length : Int) + 2 < 2 ^ 63) :
    ReadRequest bufAfter ((Writer.StringArray { out := [] } (V.map some)).out ++ rest)
      = .ok V rest := by
  have hform : (Writer.StringArray { out := [] } (V.map some)).out ++ rest
      = 42 :: Itoa (V.length : Int) ++ [13, 10] ++ (bulks (V.map some) ++ rest) := by
    rw [(writer_format_aux { out := [] } (V.map some))]
    simp [Itoa_eq_decimal]
  rw [hform]
  unfold ReadRequest
  rw [readline_header bufAfter 42 _ _ (by decide) (Itoa_natCast_digits _)
    (Itoa_natCast_length _ hV)]
  have hn : ¬ ((V.length : Int) < 0) := by omega
  simp only [ne_eq, not_true_eq_false, if_false, Atoi_Itoa_natCast _ hV, hn, Int.toNat_ofNat]
  exact readStrings_bulks bufAfter V rest hs

/-- Witness for C9: `TestReader`, the vector "foo", "bar", "baz". -/
theorem resp_round_trip_witness :
    ReadRequest (fun _ => [])
      ((Writer.StringArray { out := [] }
        ([ascii "foo", ascii "bar", ascii "baz"].map some)).out ++ [])
      = .ok [ascii "foo", ascii "bar", ascii "baz"] [] ∧
    (Writer.StringArray { out := [] } ([ascii "foo", ascii "bar", ascii "baz"].map some)).out
      = ascii "*3\r\n$3\r\nfoo\r\n$3\r\nbar\r\n$3\r\nbaz\r\n" :=
  ⟨resp_round_trip (fun _ => []) [ascii "foo", ascii "bar", ascii "baz"] [] (by decide)
    (by decide), by decide!⟩

/-! ## C11: frames with a negative length -/

/-- C11. A frame with a negative length makes `ReadRequest` panic instead of returning an
error: the array counts `*-1` and `*-5` and the bulk length `$-3` reach `make` with a
negative length, and the bulk lengths `$-2` and `$-1` (with one more byte to read) reach the
slice expression `b[:replyLen]` with a negative bound. -/
theorem read_request_panics_on_negative_length :
    ReadRequest (fun _ => []) (ascii "*-1\r\n") = .fault .makesliceOutOfRange ∧
    ReadRequest (fun _ => []) (ascii "*-5\r\n") = .fault .makesliceOutOfRange ∧
    ReadRequest (fun _ => []) (ascii "*1\r\n$-3\r\n") = .fault .makesliceOutOfRange ∧
    ReadRequest (fun _ => []) (ascii "*1\r\n$-2\r\n") = .fault .sliceBoundsOutOfRange ∧
    ReadRequest (fun _ => []) (ascii "*1\r\n$-1\r\n\r\n") = .fault .sliceBoundsOutOfRange := by
  refine ⟨by decide!, by decide!, by decide!, by decide!, by decide!⟩

/-! ## C12: the empty request -/

/-- C12. `ReadRequest` returns the empty argument sequence, with no error, on the frame
`*0\r\n`, and the access to the first argument that the dispatcher then makes is out of
range. -/
theorem read_request_returns_empty_request :
    ReadRequest (fun _ => []) (ascii "*0\r\n") = .ok [] [] ∧
    firstArg [] = .error .indexOutOfRange := by
  refine ⟨by decide!, rfl⟩

/-! ## C15: HGETALL on a missing key -/

/-- C15, counterexample. On a fresh cache the HGETALL handler called with the missing key
"foo" returns no error and writes `*0\r\n`, which is not the null array `*-1\r\n`. -/
theorem hgetall_missing_counterexample :
    ∃ c0, NewCache (20 * MB) = .ok c0 ∧
      handleHGetAll c0 { out := [] } 0 [ascii "foo"]
        = .ok (c0, { out := ascii "*0\r\n" }, none) ∧
      ascii "*0\r\n" ≠ ascii "*-1\r\n" := by
  refine ⟨_, rfl, by decide!, by decide!⟩

/-- C15, amended. The HGETALL handler called with a key that is absent from the index map, or
whose entry has expired, returns no error and writes exactly the empty array `*0\r\n`; the
state is unchanged for an absent key and is the state after the removal of the entry for an
expired one. -/
theorem hgetall_missing_writes_empty_array :
    (∀ (c : Cache) (wr : Writer) (now : Int) (k : Bytes), k ∉ c.cache →
      handleHGetAll c wr now [k] = .ok (c, { out := wr.out ++ ascii "*0\r\n" }, none)) ∧
    (∀ (c : Cache) (wr : Writer) (now : Int) (k : Bytes) (e : entry) (t : Int), WF c →
      c.find k = some e → e.expire = some t → t < now →
      ∃ c1, c.removeElement e = .ok c1 ∧ k ∉ c1.cache ∧
        handleHGetAll c wr now [k] = .ok (c1, { out := wr.out ++ ascii "*0\r\n" }, none)) := by
  have hw : ∀ wr : Writer, wr.StringArray [] = { out := wr.out ++ ascii "*0\r\n" } := by
    intro wr
    have h := writer_format_aux wr []
    have hd : decimal ((([] : List (Option Bytes)).length : Nat) : Int) = [48] := by decide!
    rw [hd] at h
    have : ascii "*0\r\n" = [42, 48, 13, 10] := by decide!
    rw [this]
    cases hx : wr.StringArray [] with
    | mk out =>
      rw [hx] at h
      simp only [bulks, List.append_nil, List.append_assoc, List.singleton_append,
        List.cons_append, List.nil_append] at h
      simp only [Writer.mk.injEq]
      exact h
  constructor
  · intro c wr now k hk
    simp [handleHGetAll, Cache.HGetAll, Cache.find, hk, hw]
  · intro c wr now k e t hwf hf he ht
    obtain ⟨_, _, hmem, hkey⟩ := find_some hf
    obtain ⟨c1, hrun, _, h1, _, _⟩ := removeElement_WF hwf hmem
    have hexp : e.hasExpired now = true := by simp [entry.hasExpired, he, ht]
    refine ⟨c1, hrun, hkey ▸ h1, ?_⟩
    simp [handleHGetAll, Cache.HGetAll, hf, hexp, hrun, hw]

/-- Witness for C15: "foo" has expired at instant 101 in the state of the expire block of
`TestWithRedisCli`, and "baz" is absent. -/
theorem hgetall_missing_writes_empty_array_witness :
    ascii "baz" ∉ expireState.cache ∧
    handleHGetAll expireState { out := [] } 101 [ascii "baz"]
      = .ok (expireState, { out := [] ++ ascii "*0\r\n" }, none) ∧
    ∃ c1, expireState.removeElement
        { key := ascii "foo", value := .str (ascii "fooValue"), expire := some 100, pos := 0 }
        = .ok c1 ∧ ascii "foo" ∉ c1.cache ∧
      handleHGetAll expireState { out := [] } 101 [ascii "foo"]
        = .ok (c1, { out := [] ++ ascii "*0\r\n" }, none) :=
  ⟨by decide!, hgetall_missing_writes_empty_array.1 expireState { out := [] } 101 (ascii "baz")
      (by decide!),
    hgetall_missing_writes_empty_array.2 expireState { out := [] } 101 (ascii "foo")
      { key := ascii "foo", value := .str (ascii "fooValue"), expire := some 100, pos := 0 }
      100 (by decide!) (by decide!) rfl (by decide)⟩

/-! ## C18: arity errors -/

/-- C18. Arity errors are atomic: `handleSet` with other than 2 arguments, `handleHSet` with
other than 3, `handleMSet` with fewer than 2 or an odd number, and `handleHMSet` with fewer
than 3 or an even number return the error "ERR wrong number of arguments", write nothing, and
return the cache state they were given; the dispatcher then writes the error reply. -/
theorem arity_errors_atomic (c : Cache) (wr : Writer) (ss : List Bytes) :
    (ss.length ≠ 2 → handleSet c wr ss = .ok (c, wr, some .arityError)) ∧
    (ss.length ≠ 3 → handleHSet c wr ss = .ok (c, wr, some .arityError)) ∧
    (ss.length < 2 ∨ ss.length % 2 = 1 → handleMSet c wr ss = .ok (c, wr, some .arityError)) ∧
    (ss.length < 3 ∨ ss.length % 2 = 0 → handleHMSet c wr ss = .ok (c, wr, some .arityError)) ∧
    Err.arityError.Error = ascii "ERR wrong number of arguments" ∧
    (replyError wr (some .arityError)).out
      = wr.out ++ ascii "-ERR wrong number of arguments\r\n" := by
  refine ⟨?_, ?_, ?_, ?_, rfl, ?_⟩
  · intro h
    rcases ss with _ | ⟨a, _ | ⟨b, _ | ⟨d, t⟩⟩⟩ <;> simp [handleSet] at h ⊢
  · intro h
    rcases ss with _ | ⟨a, _ | ⟨b, _ | ⟨d, _ | ⟨e, t⟩⟩⟩⟩ <;> simp [handleHSet] at h ⊢
  · intro h
    have : ss.length < 2 ∨ ss.length % 2 ≠ 0 := by omega
    unfold handleMSet
    rw [if_pos this]
  · intro h
    have : ss.length < 3 ∨ ss.length % 2 ≠ 1 := by omega
    unfold handleHMSet
    rw [if_pos this]
  · have h := (writer_format wr (Err.arityError.Error) 0 [] []).2.1
    simp only [replyError]
    rw [h]
    have e1 : Err.arityError.Error = ascii "ERR wrong number of arguments" := rfl
    have e2 : ascii "-ERR wrong number of arguments\r\n"
        = [45] ++ ascii "ERR wrong number of arguments" ++ [13, 10] := by decide!
    rw [e1, e2]
    simp

/-- Witness for C18: `MSET foo fooValue bar` and `HMSET foo k1 v1 k2` are rejected, as are
`SET foo` and `HSET foo k1`. -/
theorem arity_errors_atomic_witness :
    handleMSet testGetState { out := [] } [ascii "foo", ascii "fooValue", ascii "bar"]
      = .ok (testGetState, { out := [] }, some .arityError) ∧
    handleHMSet testGetState { out := [] } [ascii "foo", ascii "k1", ascii "v1", ascii "k2"]
      = .ok (testGetState, { out := [] }, some .arityError) ∧
    handleSet testGetState { out := [] } [ascii "foo"]
      = .ok (testGetState, { out := [] }, some .arityError) ∧
    handleHSet testGetState { out := [] } [ascii "foo", ascii "k1"]
      = .ok (testGetState, { out := [] }, some .arityError) :=
  ⟨(arity_errors_atomic testGetState { out := [] }
      [ascii "foo", ascii "fooValue", ascii "bar"]).2.2.1 (by decide),
   (arity_errors_atomic testGetState { out := [] }
      [ascii "foo", ascii "k1", ascii "v1", ascii "k2"]).2.2.2.1 (by decide),
   (arity_errors_atomic testGetState { out := [] } [ascii "foo"]).1 (by decide),
   (arity_errors_atomic testGetState { out := [] } [ascii "foo", ascii "k1"]).2.1 (by decide)⟩

/-! ## Counting and lemmas on hashes -/

theorem countPresent_cons_not_mem {k : Bytes} {t S : List Bytes} (h : k ∉ S) :
    countPresent (k :: t) S = countPresent t S := by
  simp [countPresent, Finset.filter_insert, h]

theorem countPresent_cons_mem {k : Bytes} {t S : List Bytes} (h : k ∈ S) :
    countPresent (k :: t) S = countPresent t (S.filter (fun x => decide (x ≠ k))) + 1 := by
  have h1 : (t.toFinset.filter (fun x => x ∈ S.filter (fun x => decide (x ≠ k))))
      = (t.toFinset.filter (fun x => x ∈ S)).erase k := by
    ext x
    simp [List.mem_filter]
    tauto
  simp only [countPresent, List.toFinset_cons, Finset.filter_insert, h, if_true, h1]
  rw [Finset.card_insert_eq_ite, Finset.card_erase_eq_ite]
  split
  · rename_i hk
    have := Finset.card_pos.mpr ⟨k, hk⟩
    omega
  · rfl

theorem mapGet_eq_none_iff (m : List (Bytes × Bytes)) (f : Bytes) :
    mapGet m f = none ↔ f ∉ fields m := by
  simp only [mapGet, fields, Option.map_eq_none', List.find?_eq_none, List.mem_map, not_exists,
    not_and]
  constructor
  · intro h p hp hpf
    exact absurd (by simpa using hpf) (h p hp)
  · intro h p hp
    simpa using h p hp

theorem fields_mapDelete (m : List (Bytes × Bytes)) (f : Bytes) :
    fields (mapDelete m f) = (fields m).filter (fun x => decide (x ≠ f)) := by
  induction m with
  | nil => rfl
  | cons p t ih =>
    simp only [fields, mapDelete] at ih ⊢
    by_cases hp : p.1 = f
    · rw [List.filter_cons_of_neg (by simp [hp]), List.map_cons,
        List.filter_cons_of_neg (by simp [hp]), ih]
    · rw [List.filter_cons_of_pos (by simp [hp]), List.map_cons, List.map_cons,
        List.filter_cons_of_pos (by simp [hp]), ih]

/-- The loop of `HDel` deletes the fields of `fs` and counts the distinct ones it found. -/
theorem hdelLoop_spec (fs : List Bytes) : ∀ (v : List (Bytes × Bytes)) (n : Int),
    hdelLoop fs v n
      = (v.filter (fun p => decide (p.1 ∉ fs)), n + (countPresent fs (fields v) : Int)) := by
  induction fs with
  | nil =>
    intro v n
    simp [hdelLoop, countPresent]
  | cons f t ih =>
    intro v n
    unfold hdelLoop
    cases hg : mapGet v f with
    | none =>
      have hf : f ∉ fields v := (mapGet_eq_none_iff v f).mp hg
      simp only [ih, countPresent_cons_not_mem hf]
      congr 1
      apply List.filter_congr
      intro p hp
      have : p.1 ≠ f := fun h => hf (h ▸ List.mem_map_of_mem _ hp)
      simp [this]
    | some x =>
      have hf : f ∈ fields v := by
        by_contra hn
        rw [(mapGet_eq_none_iff v f).mpr hn] at hg
        cases hg
      simp only [ih, countPresent_cons_mem hf, fields_mapDelete]
      congr 1
      · simp only [mapDelete, List.filter_filter]
        apply List.filter_congr
        intro p _
        by_cases h1 : p.1 = f <;> by_cases h2 : p.1 ∈ t <;> simp [h1, h2]
      · push_cast
        omega

theorem mapGet_filter (m : List (Bytes × Bytes)) (fs : List Bytes) (f : Bytes) :
    mapGet (m.filter (fun p => decide (p.1 ∉ fs))) f
      = if f ∈ fs then none else mapGet m f := by
  induction m with
  | nil => simp [mapGet]
  | cons p t ih =>
    simp only [mapGet] at ih ⊢
    by_cases hp : p.1 ∈ fs
    · rw [List.filter_cons_of_neg (by simp [hp]), ih]
      by_cases hf : f ∈ fs
      · simp [hf]
      · have : p.1 ≠ f := fun h => hf (h ▸ hp)
        simp [hf, List.find?_cons, this]
    · rw [List.filter_cons_of_pos (by simp [hp])]
      by_cases hpf : p.1 = f
      · have : f ∉ fs := hpf ▸ hp
        simp [List.find?_cons, hpf, this]
      · simp only [List.find?_cons, hpf, decide_False]
        exact ih

theorem find_modifyEntry {c : Cache} {k : Bytes} {e : entry} (f : entry → entry)
    (hkey : ∀ x, (f x).key = x.key) (hf : c.find k = some e) :
    Cache.find { c with ll := modifyEntry c.ll k f } k = some (f e) := by
  obtain ⟨hk, hfind, _, _⟩ := find_some hf
  simp only [Cache.find, hk, if_true, find?_modifyEntry c.ll k f hkey, hfind, Option.map_some']

/-- `HDel` on a key that holds an unexpired hash. -/
theorem HDel_hash {c : Cache} {now : Int} {k : Bytes} (fs : List Bytes) {e : entry}
    {h : List (Bytes × Bytes)} (hf : c.find k = some e) (hv : e.value = .hash h)
    (hexp : e.hasExpired now = false) :
    c.HDel now k fs = .ok
      ({ c with
          ll := modifyEntry c.ll k (fun x => { x with value := .hash (hdelLoop fs h 0).1 }) },
        (hdelLoop fs h 0).2, none) := by
  simp [Cache.HDel, hf, hexp, hv]

/-! ## C14: HDel and recency -/

/-- C14, counterexample. After `HSET bar k1 v1`, `HSET bar k2 v2`, `SET foo v` the list is
"foo", "bar"; `HDel("bar", ["k1"])` removes one field, leaves the hash non-empty, and the list
is still "foo", "bar": the entry of "bar" is not at the front. -/
theorem hdel_touch_counterexample :
    ∃ c0 c1 c2 c3, NewCache (20 * MB) = .ok c0 ∧
      c0.HSet (ascii "bar") (ascii "k1") (some (ascii "v1")) = .ok (c1, none) ∧
      c1.HSet (ascii "bar") (ascii "k2") (some (ascii "v2")) = .ok (c2, none) ∧
      c2.Set (ascii "foo") (some (ascii "v")) = .ok (hdelState, none) ∧
      hdelState.HDel 0 (ascii "bar") [ascii "k1"] = .ok (c3, 1, none) ∧
      c3.find (ascii "bar")
        = some { key := ascii "bar", value := .hash [(ascii "k2", ascii "v2")],
                 expire := none, pos := 0 } ∧
      c3.keys = [ascii "foo", ascii "bar"] ∧ c3.keys.head? ≠ some (ascii "bar") := by
  refine ⟨_,
    { sizeLimit := 20 * MB, size := 4,
      ll := [{ key := ascii "bar", value := .hash [(ascii "k1", ascii "v1")], expire := none,
               pos := 0 }],
      cache := [ascii "bar"], array := [ascii "bar"] },
    { sizeLimit := 20 * MB, size := 8,
      ll := [{ key := ascii "bar",
               value := .hash [(ascii "k1", ascii "v1"), (ascii "k2", ascii "v2")],
               expire := none, pos := 0 }],
      cache := [ascii "bar"], array := [ascii "bar"] },
    { sizeLimit := 20 * MB, size := 12,
      ll := [ { key := ascii "foo", value := .str (ascii "v"), expire := none, pos := 1 },
              { key := ascii "bar", value := .hash [(ascii "k2", ascii "v2")],
                expire := none, pos := 0 } ],
      cache := [ascii "foo", ascii "bar"], array := [ascii "bar", ascii "foo"] },
    rfl, by decide!, by decide!, by decide!, by decide!, by decide!, by decide!, by decide!⟩

/-- C14, amended. `HDel` does not change the LRU order: when `k` holds an unexpired hash,
`HDel(k, fields)` returns a state whose list has the same keys in the same order, the same
expirations and positions, and the same value for every other key, with the index map and the
sampling array unchanged; the entry of `k` is at the front afterwards exactly when it was at
the front before. -/
theorem hdel_keeps_order (c : Cache) (now : Int) (k : Bytes) (fs : List Bytes) (e : entry)
    (h : List (Bytes × Bytes)) (hf : c.find k = some e) (hv : e.value = .hash h)
    (hexp : e.hasExpired now = false) :
    ∃ c1 n, c.HDel now k fs = .ok (c1, n, none) ∧
      c1.keys = c.keys ∧ c1.cache = c.cache ∧ c1.array = c.array ∧
      List.Forall₂ (fun a b => b.key = a.key ∧ b.expire = a.expire ∧ b.pos = a.pos ∧
        (a.key ≠ k → b.value = a.value)) c.ll c1.ll ∧
      (c1.keys.head? = some k ↔ c.keys.head? = some k) := by
  have hrun := HDel_hash fs hf hv hexp
  have hkeys : (modifyEntry c.ll k
      (fun x => { x with value := .hash (hdelLoop fs h 0).1 })).map entry.key
      = c.ll.map entry.key :=
    modifyEntry_keys _ _ (fun x => { x with value := .hash (hdelLoop fs h 0).1 })
      (fun _ => rfl)
  refine ⟨_, _, hrun, hkeys, rfl, rfl, ?_, ?_⟩
  · simp only [modifyEntry]
    rw [List.forall₂_map_right_iff, List.forall₂_same]
    intro x _
    by_cases hx : x.key = k <;> simp [hx]
  · simp only [Cache.keys, hkeys]

/-- Witness for C14: `HDel("bar", ["k1"])` on the list "foo", "bar". -/
theorem hdel_keeps_order_witness :
    hdelState.find (ascii "bar")
      = some { key := ascii "bar",
               value := .hash [(ascii "k1", ascii "v1"), (ascii "k2", ascii "v2")],
               expire := none, pos := 0 } ∧
    ∃ c1 n, hdelState.HDel 0 (ascii "bar") [ascii "k1"] = .ok (c1, n, none) ∧
      c1.keys = hdelState.keys ∧ c1.cache = hdelState.cache ∧ c1.array = hdelState.array ∧
      List.Forall₂ (fun a b => b.key = a.key ∧ b.expire = a.expire ∧ b.pos = a.pos ∧
        (a.key ≠ ascii "bar" → b.value = a.value)) hdelState.ll c1.ll ∧
      (c1.keys.head? = some (ascii "bar") ↔ hdelState.keys.head? = some (ascii "bar")) :=
  ⟨by decide!, hdel_keeps_order hdelState 0 (ascii "bar") [ascii "k1"]
    { key := ascii "bar", value := .hash [(ascii "k1", ascii "v1"), (ascii "k2", ascii "v2")],
      expire := none, pos := 0 }
    [(ascii "k1", ascii "v1"), (ascii "k2", ascii "v2")] (by decide!) rfl rfl⟩

/-! ## C16: HDel count and presence -/

/-- C16. HDel count and presence: when `k` holds an unexpired hash `h`, `HDel(k, fs)` returns
without error the number of distinct fields of `fs` that were in `h`; afterwards the entry of
`k` holds `h` without the fields of `fs`, so a field of `fs` is not found and every other
field has the value it had; and `Exists(k)` returns 1, also when the hash has become empty. -/
theorem hdel_count_and_presence (c : Cache) (now : Int) (k : Bytes) (fs : List Bytes)
    (e : entry) (h : List (Bytes × Bytes)) (hf : c.find k = some e) (hv : e.value = .hash h)
    (hexp : e.hasExpired now = false) :
    ∃ c1, c.HDel now k fs = .ok (c1, (countPresent fs (fields h) : Int), none) ∧
      c1.find k = some { e with value := .hash (h.filter (fun p => decide (p.1 ∉ fs))) } ∧
      (∀ f, mapGet (h.filter (fun p => decide (p.1 ∉ fs))) f
        = if f ∈ fs then none else mapGet h f) ∧
      c1.Exists now k = .ok (c1, 1) := by
  have hrun := HDel_hash fs hf hv hexp
  have hloop := hdelLoop_spec fs h 0
  rw [hloop] at hrun
  simp only [zero_add] at hrun
  have hfind := find_modifyEntry
    (fun x => { x with value := .hash (h.filter (fun p => decide (p.1 ∉ fs))) })
    (fun _ => rfl) hf
  refine ⟨_, hrun, hfind, fun f => mapGet_filter h fs f, ?_⟩
  have hexp2 : entry.hasExpired
      { e with value := .hash (h.filter (fun p => decide (p.1 ∉ fs))) } now = false := hexp
  simp only [Cache.Exists, hfind, hexp2]
  rfl

/-- Witness for C16: on the hash of "foo" with only "k3" left, `HDEL foo none k3` returns 1
and leaves the empty hash, with "foo" still present. -/
theorem hdel_count_and_presence_witness :
    (∃ c0, NewCache (20 * MB) = .ok c0 ∧
      handleHMSet c0 { out := [] }
        [ascii "foo", ascii "k1", ascii "v1", ascii "k2", ascii "v2", ascii "k3", ascii "v3"]
        = .ok (hmsetState, { out := ascii "+OK\r\n" }, none)) ∧
    hmsetState.HDel 0 (ascii "foo") [ascii "k1", ascii "k2"] = .ok (hdelK3State, 2, none) ∧
    countPresent [ascii "none", ascii "k3"] (fields [(ascii "k3", ascii "v3")]) = 1 ∧
    ∃ c1, hdelK3State.HDel 0 (ascii "foo") [ascii "none", ascii "k3"]
        = .ok (c1, (countPresent [ascii "none", ascii "k3"]
            (fields [(ascii "k3", ascii "v3")]) : Int), none) ∧
      c1.find (ascii "foo")
        = some { key := ascii "foo",
                 value := .hash ([(ascii "k3", ascii "v3")].filter
                   (fun p => decide (p.1 ∉ [ascii "none", ascii "k3"]))),
                 expire := none, pos := 0 } ∧
      (∀ f, mapGet ([(ascii "k3", ascii "v3")].filter
          (fun p => decide (p.1 ∉ [ascii "none", ascii "k3"]))) f
        = if f ∈ [ascii "none", ascii "k3"] then none
          else mapGet [(ascii "k3", ascii "v3")] f) ∧
      c1.Exists 0 (ascii "foo") = .ok (c1, 1) :=
  ⟨⟨_, rfl, by decide!⟩, by decide!, by decide!,
    hdel_count_and_presence hdelK3State 0 (ascii "foo") [ascii "none", ascii "k3"]
      { key := ascii "foo", value := .hash [(ascii "k3", ascii "v3")], expire := none,
        pos := 0 }
      [(ascii "k3", ascii "v3")] (by decide!) rfl rfl⟩

/-! ## C19: HGetAll -/

theorem hgetallList_length (h : List (Bytes × Bytes)) :
    (hgetallList h).length = 2 * h.length := by
  induction h with
  | nil => rfl
  | cons p t ih =>
    obtain ⟨vk, vv⟩ := p
    simp only [hgetallList, List.length_cons, ih]
    omega

theorem hgetallList_getElem? (h : List (Bytes × Bytes)) : ∀ i : Nat,
    (hgetallList h)[2 * i]? = (fields h)[i]? ∧
    (hgetallList h)[2 * i + 1]? = (h.map Prod.snd)[i]? := by
  induction h with
  | nil => intro i; simp [hgetallList, fields]
  | cons p t ih =>
    obtain ⟨vk, vv⟩ := p
    intro i
    cases i with
    | zero => simp [hgetallList, fields]
    | succ j =>
      have e1 : 2 * (j + 1) = (2 * j) + 1 + 1 := by omega
      rw [e1]
      simp only [hgetallList, fields, List.map_cons, List.getElem?_cons_succ]
      exact ih j

theorem mapGet_of_mem {h : List (Bytes × Bytes)} (hd : fieldsDistinct h) {f v : Bytes}
    (hm : (f, v) ∈ h) : mapGet h f = some v := by
  induction h with
  | nil => simp at hm
  | cons p t ih =>
    simp only [fieldsDistinct, List.map_cons, List.nodup_cons] at hd
    rcases List.mem_cons.mp hm with heq | hmem
    · subst heq
      simp [mapGet]
    · have hne : p.1 ≠ f := by
        intro hpf
        exact hd.1 (hpf ▸ List.mem_map_of_mem Prod.fst hmem)
      have := ih hd.2 hmem
      simp only [mapGet, List.find?_cons, hne, decide_False] at this ⊢
      exact this

/-- C19. HGetAll returns the hash as pairs: when `k` holds an unexpired hash `h` (its fields
distinct, as the keys of a Go map are) with `n` fields, `HGetAll(k)` returns without error a
sequence of length `2n` in which, for every `i < n`, element `2i` is a field of the hash and
element `2i+1` is the value of that field, and every field of the hash is at exactly one even
position. -/
theorem hgetall_pairs (c : Cache) (now : Int) (k : Bytes) (e : entry)
    (h : List (Bytes × Bytes)) (hf : c.find k = some e) (hv : e.value = .hash h)
    (hexp : e.hasExpired now = false) (hd : fieldsDistinct h) :
    ∃ c1 l, c.HGetAll now k = .ok (c1, some l, none) ∧
      l.length = 2 * h.length ∧
      (∀ i, i < h.length → ∃ f v, l[2 * i]? = some f ∧ l[2 * i + 1]? = some v ∧
        mapGet h f = some v) ∧
      (∀ f, (mapGet h f).isSome → ∃! i, i < h.length ∧ l[2 * i]? = some f) := by
  refine ⟨_, hgetallList h, by simp [Cache.HGetAll, hf, hexp, hv]; rfl,
    hgetallList_length h, ?_, ?_⟩
  · intro i hi
    obtain ⟨h1, h2⟩ := hgetallList_getElem? h i
    refine ⟨(h[i]).1, (h[i]).2, ?_, ?_, ?_⟩
    · rw [h1]; simp [fields, hi]
    · rw [h2]; simp [hi]
    · exact mapGet_of_mem hd (List.getElem_mem _)
  · intro f hsome
    have hmem : f ∈ fields h := by
      by_contra hn
      rw [(mapGet_eq_none_iff h f).mpr hn] at hsome
      cases hsome
    obtain ⟨i, hi⟩ := List.mem_iff_getElem?.mp hmem
    have hil : i < h.length := by
      have := (List.getElem?_eq_some.mp hi).1
      simpa [fields] using this
    refine ⟨i, ⟨hil, by rw [(hgetallList_getElem? h i).1]; exact hi⟩, ?_⟩
    rintro j ⟨_, hj⟩
    rw [(hgetallList_getElem? h j).1] at hj
    exact nodup_getElem?_inj hd hj hi

/-- Witness for C19: after `HMSET foo k1 v1 k2 v2 k3 v3`, `HGetAll("foo")` returns the six
elements k1, v1, k2, v2, k3, v3. -/
theorem hgetall_pairs_witness :
    hmsetState.HGetAll 0 (ascii "foo")
      = .ok (hmsetState,
          some [ascii "k1", ascii "v1", ascii "k2", ascii "v2", ascii "k3", ascii "v3"],
          none) ∧
    fieldsDistinct [(ascii "k1", ascii "v1"), (ascii "k2", ascii "v2"), (ascii "k3", ascii "v3")] ∧
    ∃ c1 l, hmsetState.HGetAll 0 (ascii "foo") = .ok (c1, some l, none) ∧
      l.length = 2 * 3 ∧
      (∀ i, i < 3 → ∃ f v, l[2 * i]? = some f ∧ l[2 * i + 1]? = some v ∧
        mapGet [(ascii "k1", ascii "v1"), (ascii "k2", ascii "v2"), (ascii "k3", ascii "v3")] f
          = some v) ∧
      (∀ f, (mapGet [(ascii "k1", ascii "v1"), (ascii "k2", ascii "v2"),
          (ascii "k3", ascii "v3")] f).isSome → ∃! i, i < 3 ∧ l[2 * i]? = some f) :=
  ⟨by decide!, by unfold fieldsDistinct; decide!,
    hgetall_pairs hmsetState 0 (ascii "foo")
      { key := ascii "foo",
        value := .hash [(ascii "k1", ascii "v1"), (ascii "k2", ascii "v2"),
          (ascii "k3", ascii "v3")],
        expire := none, pos := 0 }
      [(ascii "k1", ascii "v1"), (ascii "k2", ascii "v2"), (ascii "k3", ascii "v3")]
      (by decide!) rfl rfl (by unfold fieldsDistinct; decide!)⟩

/-! ## The structural invariant along the operations -/

theorem contents_filter (ll : List entry) (k : Bytes) :
    (ll.filter (fun x => decide (x.key ≠ k))).map entry.content
      = (ll.map entry.content).filter (fun x => decide (x.1 ≠ k)) := by
  induction ll with
  | nil => rfl
  | cons a t ih =>
    by_cases h : a.key = k
    · have h2 : (entry.content a).1 = k := h
      rw [List.filter_cons_of_neg (by simp [h]), List.map_cons,
        List.filter_cons_of_neg (by simp [h2]), ih]
    · have h2 : ¬ (entry.content a).1 = k := h
      rw [List.filter_cons_of_pos (by simp [h]), List.map_cons, List.map_cons,
        List.filter_cons_of_pos (by simp [h2]), ih]

theorem eq_of_key_eq {ll : List entry} (hnd : (ll.map entry.key).Nodup) {x y : entry}
    (hx : x ∈ ll) (hy : y ∈ ll) (h : x.key = y.key) : x = y :=
  List.inj_on_of_nodup_map hnd hx hy h

theorem perm_cons_filter {l : List Bytes} {k : Bytes} (hnd : l.Nodup) (hk : k ∈ l) :
    (k :: l.filter (fun x => decide (x ≠ k))).Perm l := by
  rw [List.perm_ext_iff_of_nodup (nodup_cons_filter hnd) hnd]
  intro x
  simp only [List.mem_cons, List.mem_filter, ne_eq, decide_not, Bool.not_eq_true',
    decide_eq_false_iff_not]
  constructor
  · rintro (h | h)
    · exact h ▸ hk
    · exact h.1
  · intro hx
    by_cases hxk : x = k
    · exact Or.inl hxk
    · exact Or.inr ⟨hx, hxk⟩

theorem mem_of_getLast? {ll : List entry} {e : entry} (h : ll.getLast? = some e) : e ∈ ll := by
  rw [← List.dropLast_append_getLast? e h]
  simp

/-- In a state that satisfies the invariant the sampling array holds exactly the keys of the
list. -/
theorem WF_keys_perm_array {c : Cache} (hwf : WF c) : c.keys.Perm c.array := by
  obtain ⟨hnd, _, _, _, _, hlen, hpos⟩ := hwf
  have hsub : c.keys ⊆ c.array := by
    intro k hk
    simp only [Cache.keys, List.mem_map] at hk
    obtain ⟨e, he, rfl⟩ := hk
    exact List.mem_iff_getElem?.mpr ⟨e.pos, hpos e he⟩
  apply (hnd.subperm hsub).perm_of_length_le
  simp [Cache.keys, hlen]

theorem WF_keys_perm_cache {c : Cache} (hwf : WF c) : c.keys.Perm c.cache := by
  obtain ⟨hnd, hcnd, hck, hkc, _⟩ := hwf
  rw [List.perm_ext_iff_of_nodup hnd hcnd]
  exact fun k => ⟨hkc k, hck k⟩

/-- A change of the list that keeps keys (up to order) and positions keeps the invariant. -/
theorem WF_of_same_keypos {c c1 : Cache} (hwf : WF c) (hkeys : c1.keys.Perm c.keys)
    (hmem : ∀ x ∈ c1.ll, ∃ y ∈ c.ll, x.key = y.key ∧ x.pos = y.pos)
    (hcache : c1.cache = c.cache) (harr : c1.array = c.array) : WF c1 := by
  obtain ⟨hnd, hcnd, hck, hkc, hand, hlen, hpos⟩ := hwf
  refine ⟨hkeys.nodup_iff.mpr hnd, hcache ▸ hcnd, ?_, ?_, harr ▸ hand, ?_, ?_⟩
  · intro k hk
    exact hkeys.mem_iff.mpr (hck k (hcache ▸ hk))
  · intro k hk
    rw [hcache]
    exact hkc k (hkeys.mem_iff.mp hk)
  · have := hkeys.length_eq
    simp only [Cache.keys, List.length_map] at this
    rw [harr, hlen, this]
  · intro x hx
    obtain ⟨y, hy, h1, h2⟩ := hmem x hx
    rw [harr, h1, h2]
    exact hpos y hy

theorem WF_modifyEntry {c : Cache} (hwf : WF c) (k : Bytes) (f : entry → entry)
    (hkey : ∀ x, (f x).key = x.key) (hpos : ∀ x, (f x).pos = x.pos) :
    WF { c with ll := modifyEntry c.ll k f } := by
  refine WF_of_same_keypos hwf ?_ ?_ rfl rfl
  · simp only [Cache.keys]
    rw [modifyEntry_keys _ _ f hkey]
  · intro x hx
    simp only [modifyEntry, List.mem_map] at hx
    obtain ⟨y, hy, rfl⟩ := hx
    refine ⟨y, hy, ?_⟩
    split
    · exact ⟨hkey y, hpos y⟩
    · exact ⟨rfl, rfl⟩

theorem moveToFront_eq {ll : List entry} {k : Bytes} {e : entry}
    (h : ll.find? (fun x => decide (x.key = k)) = some e) :
    moveToFront ll k = e :: ll.filter (fun x => decide (x.key ≠ k)) := by
  simp [moveToFront, h]

theorem WF_moveToFront {c : Cache} (hwf : WF c) {k : Bytes} {e : entry}
    (h : c.ll.find? (fun x => decide (x.key = k)) = some e) :
    WF { c with ll := moveToFront c.ll k } := by
  have hmem : e ∈ c.ll := List.mem_of_find?_eq_some h
  have hk : e.key = k := by simpa using List.find?_some h
  refine WF_of_same_keypos hwf ?_ ?_ rfl rfl
  · simp only [Cache.keys]
    rw [moveToFront_keys h]
    exact perm_cons_filter hwf.1 (hk ▸ List.mem_map_of_mem _ hmem)
  · intro x hx
    rw [moveToFront_eq h] at hx
    rcases List.mem_cons.mp hx with rfl | hx
    · exact ⟨x, hmem, rfl, rfl⟩
    · exact ⟨x, (List.mem_filter.mp hx).1, rfl, rfl⟩

/-- Putting a new element at the front of the list, in the index map and at the end of the
sampling array keeps the invariant. -/
theorem WF_insert {c : Cache} (hwf : WF c) {k : Bytes} (hk : k ∉ c.keys) (v : Value)
    (size : Int) :
    WF { c with
      size := size
      ll := { key := k, value := v, expire := none, pos := c.array.length } :: c.ll
      cache := k :: c.cache
      array := c.array ++ [k] } := by
  have hka : k ∉ c.array := fun h => hk ((WF_keys_perm_array hwf).mem_iff.mpr h)
  have hkc : k ∉ c.cache := fun h => hk (hwf.2.2.1 k h)
  obtain ⟨hnd, hcnd, hck, hkc2, hand, hlen, hpos⟩ := hwf
  refine ⟨?_, ?_, ?_, ?_, ?_, ?_, ?_⟩
  · simp only [Cache.keys, List.map_cons, List.nodup_cons]
    exact ⟨hk, hnd⟩
  · exact List.nodup_cons.mpr ⟨hkc, hcnd⟩
  · intro x hx
    simp only [Cache.keys, List.map_cons, List.mem_cons] at hx ⊢
    rcases hx with h | h
    · exact Or.inl h
    · exact Or.inr (hck x h)
  · intro x hx
    simp only [Cache.keys, List.map_cons, List.mem_cons] at hx ⊢
    rcases hx with h | h
    · exact Or.inl h
    · exact Or.inr (hkc2 x h)
  · rw [List.nodup_append]
    refine ⟨hand, List.nodup_singleton k, ?_⟩
    intro x hx hx2
    rw [List.mem_singleton] at hx2
    exact hka (hx2 ▸ hx)
  · simp [hlen]
  · intro x hx
    rcases List.mem_cons.mp hx with rfl | hx
    · simp
    · have := hpos x hx
      have hlt : x.pos < c.array.length := (List.getElem?_eq_some.mp this).1
      simp only
      rw [List.getElem?_append_left hlt]
      exact this

theorem WF_sizes {c : Cache} (hwf : WF c) (sizeLimit size : Int) :
    WF { c with sizeLimit := sizeLimit, size := size } := hwf

theorem setStore_WF {c m : Cache} {k v : Bytes} (hwf : WF c) (h : c.setStore k v = some m) :
    WF m := by
  unfold Cache.setStore at h
  split at h
  · rename_i ee hf
    split at h
    · simp only [Option.some.injEq] at h
      subst h
      have hfind := (find_some hf).2.1
      have h1 := WF_moveToFront hwf hfind
      have h2 := WF_modifyEntry h1 k (fun x => { x with value := .str v })
        (fun _ => rfl) (fun _ => rfl)
      have h3 := WF_modifyEntry h2 k (fun x => { x with expire := none })
        (fun _ => rfl) (fun _ => rfl)
      exact h3
    · cases h
  · rename_i hf
    simp only [Option.some.injEq] at h
    subst h
    exact WF_insert hwf (find_none hwf hf).2 _ _

theorem hsetStore_WF {c m : Cache} {k vk vv : Bytes} (hwf : WF c)
    (h : c.hsetStore k vk vv = some m) : WF m := by
  unfold Cache.hsetStore at h
  split at h
  · rename_i ee hf
    split at h
    · cases h
    · rename_i oldValue _
      simp only [Option.some.injEq] at h
      subst h
      have hfind := (find_some hf).2.1
      have h1 := WF_modifyEntry hwf k
        (fun x => { x with value := .hash (mapSet oldValue vk vv) })
        (fun _ => rfl) (fun _ => rfl)
      have hfind2 := find?_modifyEntry c.ll k
        (fun x => { x with value := .hash (mapSet oldValue vk vv) }) (fun _ => rfl)
      rw [hfind, Option.map_some'] at hfind2
      have h2 := WF_moveToFront h1 hfind2
      have h3 := WF_modifyEntry h2 k (fun x => { x with expire := none })
        (fun _ => rfl) (fun _ => rfl)
      exact h3
  · rename_i hf
    simp only [Option.some.injEq] at h
    subst h
    exact WF_insert hwf (find_none hwf hf).2 _ _

theorem evictLoop_WF (fuel : Nat) : ∀ (c c2 : Cache), WF c → evictLoop fuel c = .ok c2 →
    WF c2 := by
  induction fuel with
  | zero =>
    intro c c2 hwf h
    unfold evictLoop at h
    split at h
    · split at h <;> cases h
    · simp only [Except.ok.injEq] at h
      exact h ▸ hwf
  | succ n ih =>
    intro c c2 hwf h
    unfold evictLoop at h
    split at h
    · split at h
      · cases h
      · simp only at h
        split at h
        · cases h
        · rename_i c1 hro
          refine ih c1 c2 ?_ h
          unfold Cache.removeOldest at hro
          split at hro
          · simp only [Except.ok.injEq] at hro
            exact hro ▸ hwf
          · rename_i e hl
            obtain ⟨c1', hrun, hwf1, _⟩ := removeElement_WF hwf (mem_of_getLast? hl)
            rw [hrun] at hro
            simp only [Except.ok.injEq] at hro
            exact hro ▸ hwf1
    · simp only [Except.ok.injEq] at h
      exact h ▸ hwf

theorem Set_WF {c c2 : Cache} {k v : Bytes} {r : Option Err} (hwf : WF c)
    (h : c.Set k (some v) = .ok (c2, r)) : WF c2 := by
  rcases Set_ok h with ⟨_, hc, _⟩ | ⟨_, m, hm, he⟩
  · exact hc ▸ hwf
  · exact evictLoop_WF _ m c2 (setStore_WF hwf hm) he

theorem HSet_WF {c c2 : Cache} {k f v : Bytes} {r : Option Err} (hwf : WF c)
    (h : c.HSet k f (some v) = .ok (c2, r)) : WF c2 := by
  rcases HSet_ok h with ⟨_, hc, _⟩ | ⟨_, m, hm, he⟩
  · exact hc ▸ hwf
  · exact evictLoop_WF _ m c2 (hsetStore_WF hwf hm) he

theorem removeElement_WF_of_ok {c c1 : Cache} {e : entry} (hwf : WF c) (he : e ∈ c.ll)
    (h : c.removeElement e = .ok c1) : WF c1 := by
  obtain ⟨c2, hrun, hwf2, _⟩ := removeElement_WF hwf he
  rw [hrun] at h
  simp only [Except.ok.injEq] at h
  exact h ▸ hwf2

theorem Exists_WF {c c1 : Cache} {now : Int} {k : Bytes} {n : Int} (hwf : WF c)
    (h : c.Exists now k = .ok (c1, n)) : WF c1 := by
  unfold Cache.Exists at h
  split at h
  · rename_i kv hf
    split at h
    · split at h
      · cases h
      · rename_i c2 hrun
        simp only [Except.ok.injEq, Prod.mk.injEq] at h
        exact h.1 ▸ removeElement_WF_of_ok hwf (find_some hf).2.2.1 hrun
    · simp only [Except.ok.injEq, Prod.mk.injEq] at h
      exact h.1 ▸ hwf
  · simp only [Except.ok.injEq, Prod.mk.injEq] at h
    exact h.1 ▸ hwf

theorem Get_WF {c c1 : Cache} {now : Int} {k : Bytes} {r : Option Bytes × Option Err}
    (hwf : WF c) (h : c.Get now k = .ok (c1, r)) : WF c1 := by
  unfold Cache.Get at h
  split at h
  · rename_i kv hf
    split at h
    · split at h
      · cases h
      · rename_i c2 hrun
        simp only [Except.ok.injEq, Prod.mk.injEq] at h
        exact h.1 ▸ removeElement_WF_of_ok hwf (find_some hf).2.2.1 hrun
    · split at h
      · simp only [Except.ok.injEq, Prod.mk.injEq] at h
        exact h.1 ▸ WF_moveToFront hwf (find_some hf).2.1
      · simp only [Except.ok.injEq, Prod.mk.injEq] at h
        exact h.1 ▸ hwf
  · simp only [Except.ok.injEq, Prod.mk.injEq] at h
    exact h.1 ▸ hwf

theorem HGet_WF {c c1 : Cache} {now : Int} {k f : Bytes} {r : Option Bytes × Option Err}
    (hwf : WF c) (h : c.HGet now k f = .ok (c1, r)) : WF c1 := by
  unfold Cache.HGet at h
  split at h
  · rename_i kv hf
    split at h
    · split at h
      · cases h
      · rename_i c2 hrun
        simp only [Except.ok.injEq, Prod.mk.injEq] at h
        exact h.1 ▸ removeElement_WF_of_ok hwf (find_some hf).2.2.1 hrun
    · split at h
      · simp only [Except.ok.injEq, Prod.mk.injEq] at h
        exact h.1 ▸ WF_moveToFront hwf (find_some hf).2.1
      · simp only [Except.ok.injEq, Prod.mk.injEq] at h
        exact h.1 ▸ hwf
  · simp only [Except.ok.injEq, Prod.mk.injEq] at h
    exact h.1 ▸ hwf

theorem HGetAll_WF {c c1 : Cache} {now : Int} {k : Bytes}
    {r : Option (List Bytes) × Option Err}
    (hwf : WF c) (h : c.HGetAll now k = .ok (c1, r)) : WF c1 := by
  unfold Cache.HGetAll at h
  split at h
  · rename_i kv hf
    split at h
    · split at h
      · cases h
      · rename_i c2 hrun
        simp only [Except.ok.injEq, Prod.mk.injEq] at h
        exact h.1 ▸ removeElement_WF_of_ok hwf (find_some hf).2.2.1 hrun
    · split at h
      · simp only [Except.ok.injEq, Prod.mk.injEq] at h
        exact h.1 ▸ WF_moveToFront hwf (find_some hf).2.1
      · simp only [Except.ok.injEq, Prod.mk.injEq] at h
        exact h.1 ▸ hwf
  · simp only [Except.ok.injEq, Prod.mk.injEq] at h
    exact h.1 ▸ hwf

theorem HDel_WF {c c1 : Cache} {now : Int} {k : Bytes} {fs : List Bytes}
    {r : Int × Option Err} (hwf : WF c) (h : c.HDel now k fs = .ok (c1, r)) : WF c1 := by
  unfold Cache.HDel at h
  split at h
  · rename_i kv hf
    split at h
    · split at h
      · cases h
      · rename_i c2 hrun
        simp only [Except.ok.injEq, Prod.mk.injEq] at h
        exact h.1 ▸ removeElement_WF_of_ok hwf (find_some hf).2.2.1 hrun
    · split at h
      · rename_i v _
        simp only [Except.ok.injEq, Prod.mk.injEq] at h
        exact h.1 ▸ WF_modifyEntry hwf k
          (fun x => { x with value := .hash (hdelLoop fs v 0).1 }) (fun _ => rfl) (fun _ => rfl)
      · simp only [Except.ok.injEq, Prod.mk.injEq] at h
        exact h.1 ▸ hwf
  · simp only [Except.ok.injEq, Prod.mk.injEq] at h
    exact h.1 ▸ hwf

theorem HExists_WF {c c1 : Cache} {now : Int} {k f : Bytes} {r : Int × Option Err}
    (hwf : WF c) (h : c.HExists now k f = .ok (c1, r)) : WF c1 := by
  unfold Cache.HExists at h
  split at h
  · rename_i kv hf
    split at h
    · split at h
      · cases h
      · rename_i c2 hrun
        simp only [Except.ok.injEq, Prod.mk.injEq] at h
        exact h.1 ▸ removeElement_WF_of_ok hwf (find_some hf).2.2.1 hrun
    · split at h
      · split at h <;>
        · simp only [Except.ok.injEq, Prod.mk.injEq] at h
          exact h.1 ▸ hwf
      · simp only [Except.ok.injEq, Prod.mk.injEq] at h
        exact h.1 ▸ hwf
  · simp only [Except.ok.injEq, Prod.mk.injEq] at h
    exact h.1 ▸ hwf

theorem Expire_WF {c : Cache} (now : Int) (k : Bytes) (ttl : Int) (hwf : WF c) :
    WF (c.Expire now k ttl).1 := by
  unfold Cache.Expire
  split
  · exact WF_modifyEntry hwf k _ (fun _ => rfl) (fun _ => rfl)
  · exact hwf

theorem removeLoop_WF (ks : List Bytes) : ∀ (c c1 : Cache) (n m : Int), WF c →
    removeLoop ks c n = .ok (c1, m) → WF c1 := by
  induction ks with
  | nil =>
    intro c c1 n m hwf h
    simp only [removeLoop, Except.ok.injEq, Prod.mk.injEq] at h
    exact h.1 ▸ hwf
  | cons k t ih =>
    intro c c1 n m hwf h
    unfold removeLoop at h
    split at h
    · rename_i ele hf
      split at h
      · cases h
      · rename_i c2 hrun
        exact ih c2 c1 _ m (removeElement_WF_of_ok hwf (find_some hf).2.2.1 hrun) h
    · exact ih c c1 _ m hwf h

theorem gcRemove_WF (hs : List Bytes) : ∀ (c c1 : Cache), WF c → gcRemove hs c = .ok c1 →
    WF c1 := by
  induction hs with
  | nil =>
    intro c c1 hwf h
    simp only [gcRemove, Except.ok.injEq] at h
    exact h ▸ hwf
  | cons x t ih =>
    intro c c1 hwf h
    unfold gcRemove at h
    split at h
    · cases h
    · rename_i e hfind
      split at h
      · cases h
      · rename_i c2 hrun
        exact ih c2 c1 (removeElement_WF_of_ok hwf (List.mem_of_find?_eq_some hfind) hrun) h

theorem gcSweep_WF {c c1 : Cache} {clock : Nat → Int} {p : List Nat} {r : Nat × Nat}
    (hwf : WF c) (h : c.gcSweep clock p = .ok (c1, r)) : WF c1 := by
  unfold Cache.gcSweep at h
  split at h
  · cases h
  · split at h
    · cases h
    · rename_i c2 hrm
      simp only [Except.ok.injEq, Prod.mk.injEq] at h
      exact h.1 ▸ gcRemove_WF _ c c2 hwf hrm

/-- Every reachable state satisfies the structural invariant. -/
theorem Reachable_WF {c : Cache} (h : Reachable c) : WF c := by
  induction h with
  | fresh n c h =>
    unfold NewCache at h
    split at h
    · cases h
    · simp only [Except.ok.injEq] at h
      subst h
      simp [WF, Cache.keys]
  | set c c1 k v r _ h ih => exact Set_WF ih h
  | hset c c1 k f v r _ h ih => exact HSet_WF ih h
  | expire c now k ttl _ ih => exact Expire_WF now k ttl ih
  | exist c c1 now k n _ h ih => exact Exists_WF ih h
  | get c c1 now k r _ h ih => exact Get_WF ih h
  | hget c c1 now k f r _ h ih => exact HGet_WF ih h
  | hgetall c c1 now k r _ h ih => exact HGetAll_WF ih h
  | hdel c c1 now k fs r _ h ih => exact HDel_WF ih h
  | hexists c c1 now k f r _ h ih => exact HExists_WF ih h
  | remove c c1 ks n _ h ih => exact removeLoop_WF ks c c1 0 n ih h
  | flush c _ _ => simp [WF, Cache.Flush, Cache.keys]
  | setSizeLimit c n _ ih => exact ih
  | gcSweep c c1 clock p r _ _ h ih => exact gcSweep_WF ih h

/-! ## A sweep of gc returns -/

theorem find?_key_of_mem {ll : List entry} {h : Bytes} (hm : h ∈ ll.map entry.key) :
    ∃ e, ll.find? (fun x => decide (x.key = h)) = some e ∧ e ∈ ll ∧ e.key = h := by
  cases hf : ll.find? (fun x => decide (x.key = h)) with
  | none =>
    rw [List.find?_eq_none] at hf
    simp only [List.mem_map] at hm
    obtain ⟨e, he, hk⟩ := hm
    exact absurd (by simpa using hk) (hf e he)
  | some e =>
    exact ⟨e, rfl, List.mem_of_find?_eq_some hf, by simpa using List.find?_some hf⟩

/-- The first loop of `gc` returns when the indices are within the array, and the elements it
keeps are distinct elements of the array. -/
theorem gcScan_ok {c : Cache} (hwf : WF c) (clock : Nat → Int) (p : List Nat) : ∀ i : Nat,
    (∀ x ∈ p, x < c.array.length) → p.Nodup →
    ∃ expired total, gcScan c clock i p = .ok (expired, total) ∧ expired.Nodup ∧
      (∀ h ∈ expired, ∃ x ∈ p, c.array[x]? = some h) ∧ total ≤ 20 - i ∧
      expired.length ≤ total := by
  induction p with
  | nil => intro i _ _; exact ⟨[], 0, rfl, List.nodup_nil, by simp, by omega, by simp⟩
  | cons x xs ih =>
    intro i hlt hnd
    unfold gcScan
    by_cases hi : i ≥ 20
    · rw [if_pos hi]
      exact ⟨[], 0, rfl, List.nodup_nil, by simp, by omega, by simp⟩
    · rw [if_neg hi]
      have hx : x < c.array.length := hlt x (List.mem_cons_self _ _)
      have hget : c.array[x]? = some c.array[x] := List.getElem?_eq_getElem hx
      have hmem : c.array[x] ∈ c.keys :=
        (WF_keys_perm_array hwf).mem_iff.mpr (List.getElem_mem _)
      obtain ⟨kv, hfind, _, _⟩ := find?_key_of_mem hmem
      obtain ⟨ex, tot, hrec, hexnd, hex, htot, hlen⟩ :=
        ih (i + 1) (fun y hy => hlt y (List.mem_cons_of_mem _ hy)) (List.nodup_cons.mp hnd).2
      simp only [hget, hfind, hrec]
      refine ⟨_, _, rfl, ?_, ?_, by omega, ?_⟩
      · split
        · rw [List.nodup_cons]
          refine ⟨?_, hexnd⟩
          intro hin
          obtain ⟨y, hy, hay⟩ := hex _ hin
          have := nodup_getElem?_inj hwf.2.2.2.2.1 hay hget
          exact (List.nodup_cons.mp hnd).1 (this ▸ hy)
        · exact hexnd
      · intro h hh
        split at hh
        · rcases List.mem_cons.mp hh with rfl | hh
          · exact ⟨x, List.mem_cons_self _ _, hget⟩
          · obtain ⟨y, hy, hay⟩ := hex h hh
            exact ⟨y, List.mem_cons_of_mem _ hy, hay⟩
        · obtain ⟨y, hy, hay⟩ := hex h hh
          exact ⟨y, List.mem_cons_of_mem _ hy, hay⟩
      · split
        · simp only [List.length_cons]; omega
        · omega

/-- The second loop of `gc` returns on distinct elements of the list and keeps the
invariant. -/
theorem gcRemove_ok (hs : List Bytes) : ∀ c : Cache, WF c → hs.Nodup →
    (∀ h ∈ hs, h ∈ c.keys) → ∃ c1, gcRemove hs c = .ok c1 ∧ WF c1 := by
  induction hs with
  | nil => intro c hwf _ _; exact ⟨c, rfl, hwf⟩
  | cons h t ih =>
    intro c hwf hnd hmem
    obtain ⟨e, hfind, he, hek⟩ := find?_key_of_mem (hmem h (List.mem_cons_self _ _))
    obtain ⟨c2, hrun, hwf2, _⟩ := removeElement_WF hwf he
    have hkeys := (removeElement_ok hrun).2.2.2.1
    obtain ⟨c1, h1, h2⟩ := ih c2 hwf2 (List.nodup_cons.mp hnd).2 (by
      intro g hg
      rw [hkeys, List.mem_filter]
      refine ⟨hmem g (List.mem_cons_of_mem _ hg), ?_⟩
      have : g ≠ h := fun hgh => (List.nodup_cons.mp hnd).1 (hgh ▸ hg)
      simpa [hek] using this)
    refine ⟨c1, ?_, h2⟩
    unfold gcRemove
    simp only [hfind, hrun]
    exact h1

/-- On a state that satisfies the invariant a sweep of `gc` with a permutation of the indices
of the array returns: no index is out of range and every sampled element is in the list; at
most 20 entries are examined. -/
theorem gcSweep_ok {c : Cache} (hwf : WF c) (clock : Nat → Int) {p : List Nat}
    (hp : p.Perm (List.range c.array.length)) :
    ∃ c1 n total, c.gcSweep clock p = .ok (c1, n, total) ∧ WF c1 ∧ n ≤ total ∧ total ≤ 20 := by
  have hlt : ∀ x ∈ p, x < c.array.length := fun x hx => List.mem_range.mp (hp.mem_iff.mp hx)
  have hnd : p.Nodup := hp.nodup_iff.mpr (List.nodup_range _)
  obtain ⟨ex, tot, hscan, hexnd, hex, htot, hlen⟩ := gcScan_ok hwf clock p 0 hlt hnd
  obtain ⟨c1, hrm, hwf1⟩ := gcRemove_ok ex c hwf hexnd (by
    intro h hh
    obtain ⟨x, _, hx⟩ := hex h hh
    exact (WF_keys_perm_array hwf).mem_iff.mpr (List.mem_iff_getElem?.mpr ⟨x, hx⟩))
  refine ⟨c1, ex.length, tot, ?_, hwf1, hlen, by omega⟩
  simp only [Cache.gcSweep, hscan, hrm]

/-! ## C20: the structural invariant of reachable states -/

/-- C20. Structural invariant: in every state reachable from a fresh cache by `Set`, `HSet`,
`Expire`, `Remove`, `Flush`, the sweeps of `gc`, the lazily-expiring reads, `HDel` and
`SetSizeLimit`, the index map, the LRU list and the sampling array have the same number of
entries, the keys of the LRU list are distinct and are exactly the keys of the index map, the
sampling array holds at position `pos` of each entry, which is within bounds, the element of
that entry, and `removeElement` of any element of the list, and a sweep of `gc` with any
permutation of the indices of the array, return without an index out of range. -/
theorem structural_invariant (c : Cache) (h : Reachable c) :
    c.cache.length = c.ll.length ∧ c.ll.length = c.array.length ∧
    c.keys.Nodup ∧ c.cache.Nodup ∧ (∀ k, k ∈ c.cache ↔ k ∈ c.keys) ∧
    (∀ e ∈ c.ll, e.pos < c.array.length ∧ c.array[e.pos]? = some e.key) ∧
    (∀ e ∈ c.ll, ∃ c1, c.removeElement e = .ok c1) ∧
    (∀ (clock : Nat → Int) (p : List Nat), p.Perm (List.range c.array.length) →
      ∃ c1 r, c.gcSweep clock p = .ok (c1, r)) := by
  have hwf := Reachable_WF h
  have hpc := (WF_keys_perm_cache hwf).length_eq
  simp only [Cache.keys, List.length_map] at hpc
  refine ⟨hpc.symm, hwf.2.2.2.2.2.1.symm, hwf.1, hwf.2.1,
    fun k => ⟨hwf.2.2.1 k, hwf.2.2.2.1 k⟩, ?_, ?_, ?_⟩
  · intro e he
    have := hwf.2.2.2.2.2.2 e he
    exact ⟨(List.getElem?_eq_some.mp this).1, this⟩
  · intro e he
    obtain ⟨c1, hrun, _⟩ := removeElement_WF hwf he
    exact ⟨c1, hrun⟩
  · intro clock p hp
    obtain ⟨c1, n, total, hrun, _⟩ := gcSweep_ok hwf clock hp
    exact ⟨c1, (n, total), hrun⟩

/-- The state after `HSET bar k1 v1`, `HSET bar k2 v2`, `SET foo v` is reachable. -/
theorem hdelState_reachable : Reachable hdelState := by
  have h0 : Reachable { sizeLimit := 20 * MB, size := 0, ll := [], cache := [], array := [] } :=
    Reachable.fresh (20 * MB) _ (by decide!)
  have h1 := Reachable.hset _
    { sizeLimit := 20 * MB, size := 4,
      ll := [{ key := ascii "bar", value := .hash [(ascii "k1", ascii "v1")], expire := none,
               pos := 0 }],
      cache := [ascii "bar"], array := [ascii "bar"] }
    (ascii "bar") (ascii "k1") (ascii "v1") none h0 (by decide!)
  have h2 := Reachable.hset _
    { sizeLimit := 20 * MB, size := 8,
      ll := [{ key := ascii "bar",
               value := .hash [(ascii "k1", ascii "v1"), (ascii "k2", ascii "v2")],
               expire := none, pos := 0 }],
      cache := [ascii "bar"], array := [ascii "bar"] }
    (ascii "bar") (ascii "k2") (ascii "v2") none h1 (by decide!)
  exact Reachable.set _ hdelState (ascii "foo") (ascii "v") none h2 (by decide!)

/-- Witness for C20: the invariant on the reachable state with the list "foo", "bar". -/
theorem structural_invariant_witness :
    Reachable hdelState ∧
    hdelState.cache.length = hdelState.ll.length ∧
    hdelState.ll.length = hdelState.array.length ∧
    hdelState.keys.Nodup ∧ hdelState.cache.Nodup ∧
    (∀ k, k ∈ hdelState.cache ↔ k ∈ hdelState.keys) ∧
    (∀ e ∈ hdelState.ll, e.pos < hdelState.array.length ∧
      hdelState.array[e.pos]? = some e.key) ∧
    (∀ e ∈ hdelState.ll, ∃ c1, hdelState.removeElement e = .ok c1) ∧
    (∀ (clock : Nat → Int) (p : List Nat), p.Perm (List.range hdelState.array.length) →
      ∃ c1 r, hdelState.gcSweep clock p = .ok (c1, r)) :=
  ⟨hdelState_reachable, structural_invariant hdelState hdelState_reachable⟩

/-! ## C13: touch promotes recency -/

theorem filter_key_eq_self {c : Cache} {k : Bytes} (hk : k ∉ c.keys) :
    c.ll.filter (fun x => decide (x.key ≠ k)) = c.ll := by
  rw [List.filter_eq_self]
  intro x hx
  have : x.key ≠ k := fun h => hk (h ▸ List.mem_map_of_mem _ hx)
  simpa using this

/-- The store step of `Set` puts an entry of the key in front of the other entries. -/
theorem setStore_ll {c m : Cache} {k v : Bytes} (hwf : WF c) (h : c.setStore k v = some m) :
    ∃ hd, hd.key = k ∧ m.ll = hd :: c.ll.filter (fun x => decide (x.key ≠ k)) := by
  cases hf : c.find k with
  | none =>
    simp only [Cache.setStore, hf, Option.some.injEq] at h
    subst h
    refine ⟨{ key := k, value := .str v, expire := none, pos := c.array.length }, rfl, ?_⟩
    simp only [filter_key_eq_self (find_none hwf hf).2]
  | some e =>
    cases hv : e.value with
    | hash x => simp [Cache.setStore, hf, hv] at h
    | str s =>
      rw [setStore_str v hf hv] at h
      simp only [Option.some.injEq] at h
      subst h
      exact ⟨{ e with value := .str v, expire := none }, (find_some hf).2.2.2, rfl⟩

/-- The store step of `HSet` puts an entry of the key in front of the other entries. -/
theorem hsetStore_ll {c m : Cache} {k f v : Bytes} (hwf : WF c)
    (h : c.hsetStore k f v = some m) :
    ∃ hd, hd.key = k ∧ m.ll = hd :: c.ll.filter (fun x => decide (x.key ≠ k)) := by
  cases hf : c.find k with
  | none =>
    simp only [Cache.hsetStore, hf, Option.some.injEq] at h
    subst h
    refine ⟨{ key := k, value := .hash [(f, v)], expire := none, pos := c.array.length },
      rfl, ?_⟩
    simp only [filter_key_eq_self (find_none hwf hf).2]
  | some e =>
    cases hv : e.value with
    | str x => simp [Cache.hsetStore, hf, hv] at h
    | hash s =>
      rw [hsetStore_hash f v hf hv] at h
      simp only [Option.some.injEq] at h
      subst h
      exact ⟨{ e with value := .hash (mapSet s f v), expire := none },
        (find_some hf).2.2.2, rfl⟩

/-- After the eviction loop an entry still found under the key of the front element is the
front element, and the entries behind it are a prefix of those that were behind it. -/
theorem front_after_evict {m c2 : Cache} {hd e2 : entry} {tl : List entry}
    (hll : m.ll = hd :: tl) (hnd : m.keys.Nodup) (he : m.evict = .ok c2)
    (hf : c2.find hd.key = some e2) :
    ∃ rest, c2.ll = e2 :: rest ∧ rest.map entry.content <+: tl.map entry.content := by
  obtain ⟨_, _, hnd2, ev, hcont, _, _⟩ := evictLoop_spec _ m c2 hnd he
  obtain ⟨_, _, hmem, hk⟩ := find_some hf
  cases hc2 : c2.ll with
  | nil => rw [hc2] at hmem; simp at hmem
  | cons x rest =>
    simp only [Cache.contents, hll, hc2, List.map_cons, List.cons_append, List.cons.injEq]
      at hcont
    have hxk : x.key = e2.key := by
      have : hd.key = x.key := congrArg Prod.fst hcont.1
      rw [← this, hk]
    have hx : x ∈ c2.ll := by rw [hc2]; exact List.mem_cons_self _ _
    have : x = e2 := eq_of_key_eq hnd2 hx hmem hxk
    subst this
    exact ⟨rest, rfl, ⟨ev, hcont.2.symm⟩⟩

/-- C13. Touch promotes recency: in a state satisfying the structural invariant, after a
`Set(k, v)` or `HSet(k, f, v)` that returned without error, an entry still found under `k` is
the front element of the LRU list and the entries behind it are, in the same order and with
the same contents, a prefix of the other entries of the list before the call; a hit of
`Get(k)`, `HGet(k, f)` or `HGetAll(k)` on an unexpired entry of the right kind returns the
state whose list is that entry followed by the other entries in their order. -/
theorem touch_promotes_recency :
    (∀ (c c2 : Cache) (k v : Bytes) (e2 : entry), WF c →
      c.Set k (some v) = .ok (c2, none) → c2.find k = some e2 →
      ∃ rest, c2.ll = e2 :: rest ∧
        rest.map entry.content <+: c.contents.filter (fun x => decide (x.1 ≠ k))) ∧
    (∀ (c c2 : Cache) (k f v : Bytes) (e2 : entry), WF c →
      c.HSet k f (some v) = .ok (c2, none) → c2.find k = some e2 →
      ∃ rest, c2.ll = e2 :: rest ∧
        rest.map entry.content <+: c.contents.filter (fun x => decide (x.1 ≠ k))) ∧
    (∀ (c : Cache) (now : Int) (k v : Bytes) (e : entry), c.find k = some e →
      e.hasExpired now = false → e.value = .str v →
      c.Get now k
        = .ok ({ c with ll := e :: c.ll.filter (fun x => decide (x.key ≠ k)) }, some v, none)) ∧
    (∀ (c : Cache) (now : Int) (k f : Bytes) (h : List (Bytes × Bytes)) (e : entry),
      c.find k = some e → e.hasExpired now = false → e.value = .hash h →
      c.HGet now k f
        = .ok ({ c with ll := e :: c.ll.filter (fun x => decide (x.key ≠ k)) }, mapGet h f,
            none) ∧
      c.HGetAll now k
        = .ok ({ c with ll := e :: c.ll.filter (fun x => decide (x.key ≠ k)) },
            some (hgetallList h), none)) := by
  refine ⟨?_, ?_, ?_, ?_⟩
  · intro c c2 k v e2 hwf h hf
    rcases Set_ok h with ⟨hr, _, _⟩ | ⟨_, m, hm, he⟩
    · cases hr
    · obtain ⟨hd, hk, hll⟩ := setStore_ll hwf hm
      obtain ⟨rest, h1, h2⟩ := front_after_evict hll (setStore_keys_nodup hwf hm).1 he
        (hk ▸ hf)
      exact ⟨rest, h1, by rw [Cache.contents, ← contents_filter]; exact h2⟩
  · intro c c2 k f v e2 hwf h hf
    rcases HSet_ok h with ⟨hr, _, _⟩ | ⟨_, m, hm, he⟩
    · cases hr
    · obtain ⟨hd, hk, hll⟩ := hsetStore_ll hwf hm
      obtain ⟨rest, h1, h2⟩ := front_after_evict hll (hsetStore_keys_nodup hwf hm).1 he
        (hk ▸ hf)
      exact ⟨rest, h1, by rw [Cache.contents, ← contents_filter]; exact h2⟩
  · intro c now k v e hf hexp hv
    simp only [Cache.Get, hf, hexp, hv, moveToFront_eq (find_some hf).2.1]
    rfl
  · intro c now k f h e hf hexp hv
    constructor
    · simp only [Cache.HGet, hf, hexp, hv, moveToFront_eq (find_some hf).2.1]
      rfl
    · simp only [Cache.HGetAll, hf, hexp, hv, moveToFront_eq (find_some hf).2.1]
      rfl

/-- Witness for C13: on the list "foo", "bar", `Get("foo")` and `HGet("bar", "k1")` hit, and
`HSet("bar", "k3", "v3")` leaves "bar" in front of "foo". -/
theorem touch_promotes_recency_witness :
    WF hdelState ∧
    hdelState.Get 0 (ascii "foo")
      = .ok ({ hdelState with
          ll := { key := ascii "foo", value := .str (ascii "v"), expire := none, pos := 1 }
            :: hdelState.ll.filter (fun x => decide (x.key ≠ ascii "foo")) },
        some (ascii "v"), none) ∧
    (∃ c2 e2, hdelState.HSet (ascii "bar") (ascii "k3") (some (ascii "v3")) = .ok (c2, none) ∧
      c2.find (ascii "bar") = some e2 ∧ c2.keys = [ascii "bar", ascii "foo"] ∧
      ∃ rest, c2.ll = e2 :: rest ∧
        rest.map entry.content
          <+: hdelState.contents.filter (fun x => decide (x.1 ≠ ascii "bar"))) := by
  have hset : hdelState.HSet (ascii "bar") (ascii "k3") (some (ascii "v3"))
      = .ok ({ sizeLimit := 20 * MB, size := 16,
               ll := [ { key := ascii "bar",
                         value := .hash [(ascii "k1", ascii "v1"), (ascii "k2", ascii "v2"),
                           (ascii "k3", ascii "v3")],
                         expire := none, pos := 0 },
                       { key := ascii "foo", value := .str (ascii "v"), expire := none,
                         pos := 1 } ],
               cache := [ascii "foo", ascii "bar"],
               array := [ascii "bar", ascii "foo"] }, none) := by decide!
  have hfind : Cache.find
      { sizeLimit := 20 * MB, size := 16,
        ll := [ { key := ascii "bar",
                  value := .hash [(ascii "k1", ascii "v1"), (ascii "k2", ascii "v2"),
                    (ascii "k3", ascii "v3")],
                  expire := none, pos := 0 },
                { key := ascii "foo", value := .str (ascii "v"), expire := none, pos := 1 } ],
        cache := [ascii "foo", ascii "bar"],
        array := [ascii "bar", ascii "foo"] } (ascii "bar")
      = some { key := ascii "bar",
               value := .hash [(ascii "k1", ascii "v1"), (ascii "k2", ascii "v2"),
                 (ascii "k3", ascii "v3")],
               expire := none, pos := 0 } := by decide!
  exact ⟨by decide!,
    touch_promotes_recency.2.2.1 hdelState 0 (ascii "foo") (ascii "v")
      { key := ascii "foo", value := .str (ascii "v"), expire := none, pos := 1 }
      (by decide!) rfl rfl,
    _, _, hset, hfind, by decide!,
    touch_promotes_recency.2.1 hdelState _ (ascii "bar") (ascii "k3") (ascii "v3") _
      (by decide!) hset hfind⟩

/-! ## C17: Remove -/

theorem contents_key_mem {c : Cache} {x : Bytes × Value × Option Int} (hx : x ∈ c.contents) :
    x.1 ∈ c.keys := by
  simp only [Cache.contents, List.mem_map] at hx
  obtain ⟨e, he, rfl⟩ := hx
  exact List.mem_map_of_mem _ he

/-- The loop of `Remove` on a state that satisfies the invariant: it returns, counts the
distinct keys that were in the index map, and leaves the other entries in their order. -/
theorem removeLoop_spec (ks : List Bytes) : ∀ (c : Cache) (n : Int), WF c →
    ∃ c1, removeLoop ks c n = .ok (c1, n + (countPresent ks c.cache : Int)) ∧ WF c1 ∧
      c1.contents = c.contents.filter (fun x => decide (x.1 ∉ ks)) ∧
      c1.cache = c.cache.filter (fun k => decide (k ∉ ks)) := by
  induction ks with
  | nil =>
    intro c n hwf
    exact ⟨c, by simp [removeLoop, countPresent], hwf, by simp, by simp⟩
  | cons k t ih =>
    intro c n hwf
    unfold removeLoop
    cases hf : c.find k with
    | none =>
      obtain ⟨hkc, hkk⟩ := find_none hwf hf
      obtain ⟨c1, h1, h2, h3, h4⟩ := ih c n hwf
      refine ⟨c1, ?_, h2, ?_, ?_⟩
      · simp only [countPresent_cons_not_mem hkc]
        exact h1
      · rw [h3]
        apply List.filter_congr
        intro x hx
        have : x.1 ≠ k := fun h => hkk (h ▸ contents_key_mem hx)
        simp [this]
      · rw [h4]
        apply List.filter_congr
        intro x hx
        have : x ≠ k := fun h => hkc (h ▸ hx)
        simp [this]
    | some e =>
      obtain ⟨hkc, _, hmem, hek⟩ := find_some hf
      obtain ⟨c2, hrun, hwf2, _⟩ := removeElement_WF hwf hmem
      obtain ⟨_, _, hcache, _, hcont, _⟩ := removeElement_ok hrun
      rw [hek] at hcache hcont
      obtain ⟨c1, h1, h2, h3, h4⟩ := ih c2 (n + 1) hwf2
      refine ⟨c1, ?_, h2, ?_, ?_⟩
      · simp only [hrun, h1, countPresent_cons_mem hkc, hcache]
        congr 2
        push_cast
        omega
      · rw [h3, hcont, contents_filter, Cache.contents, List.filter_filter]
        apply List.filter_congr
        intro x _
        by_cases hx1 : x.1 = k <;> by_cases hx2 : x.1 ∈ t <;> simp [hx1, hx2]
      · rw [h4, hcache, List.filter_filter]
        apply List.filter_congr
        intro x _
        by_cases hx1 : x = k <;> by_cases hx2 : x ∈ t <;> simp [hx1, hx2]

/-- C17. Remove count: in a state satisfying the structural invariant, `Remove(ks)` returns
the number of distinct keys of `ks` that were in the index map; afterwards no key of `ks` is
in the index map and `Get` returns null for each; the entries whose key is not in `ks` are
the contents of the list afterwards, with their value and expiration and in their order. -/
theorem remove_count (c : Cache) (ks : List Bytes) (hwf : WF c) :
    ∃ c1, c.Remove ks = .ok (c1, (countPresent ks c.cache : Int)) ∧ WF c1 ∧
      (∀ k ∈ ks, k ∉ c1.cache ∧ k ∉ c1.keys ∧
        ∀ now, c1.Get now k = .ok (c1, none, none)) ∧
      c1.contents = c.contents.filter (fun x => decide (x.1 ∉ ks)) := by
  obtain ⟨c1, h1, h2, h3, h4⟩ := removeLoop_spec ks c 0 hwf
  simp only [zero_add] at h1
  refine ⟨c1, h1, h2, ?_, h3⟩
  intro k hk
  have hkc : k ∉ c1.cache := by
    rw [h4, List.mem_filter]
    simp [hk]
  refine ⟨hkc, fun h => hkc (h2.2.2.2.1 k h), fun now => ?_⟩
  simp [Cache.Get, Cache.find, hkc]

/-- Witness for C17: with "foo", "bar", "baz" stored by MSET, `DEL foo` returns 1, then
`DEL bar baz none` returns 2, then `DEL foo` returns 0. -/
theorem remove_count_witness :
    (∃ c0, NewCache (20 * MB) = .ok c0 ∧
      handleMSet c0 { out := [] }
        [ascii "foo", ascii "fooValue", ascii "bar", ascii "barValue", ascii "baz",
          ascii "bazValue"]
        = .ok (msetState, { out := ascii "+OK\r\n" }, none)) ∧
    (∃ c1 c2, msetState.Remove [ascii "foo"] = .ok (c1, 1) ∧
      c1.Remove [ascii "bar", ascii "baz", ascii "none"] = .ok (c2, 2) ∧
      c2.Remove [ascii "foo"] = .ok (c2, 0) ∧ c2.ll = []) ∧
    WF msetState ∧
    countPresent [ascii "bar", ascii "baz", ascii "none"] msetState.cache = 2 ∧
    ∃ c1, msetState.Remove [ascii "bar", ascii "baz", ascii "none"]
        = .ok (c1, (countPresent [ascii "bar", ascii "baz", ascii "none"] msetState.cache
            : Int)) ∧
      WF c1 ∧
      (∀ k ∈ [ascii "bar", ascii "baz", ascii "none"], k ∉ c1.cache ∧ k ∉ c1.keys ∧
        ∀ now, c1.Get now k = .ok (c1, none, none)) ∧
      c1.contents = msetState.contents.filter
        (fun x => decide (x.1 ∉ [ascii "bar", ascii "baz", ascii "none"])) :=
  ⟨⟨_, rfl, by decide!⟩,
    ⟨{ sizeLimit := 20 * MB, size := 22,
       ll := [ { key := ascii "baz", value := .str (ascii "bazValue"), expire := none,
                 pos := 0 },
               { key := ascii "bar", value := .str (ascii "barValue"), expire := none,
                 pos := 1 } ],
       cache := [ascii "baz", ascii "bar"], array := [ascii "baz", ascii "bar"] },
     { sizeLimit := 20 * MB, size := 0, ll := [], cache := [], array := [] },
     by decide!, by decide!, by decide!, rfl⟩,
    by decide!, by decide!,
    remove_count msetState [ascii "bar", ascii "baz", ascii "none"] (by decide!)⟩



/-! ## C22: what a sweep of gc removes -/

/-- The first loop of `gc`, when it returns: `total` is the number of indices looked at, and
`expired` holds the elements whose entry had expired at the clock reading of their turn. -/
theorem gcScan_spec {c : Cache} (hwf : WF c) (clock : Nat → Int) (p : List Nat) :
    ∀ (i : Nat) (expired : List Bytes) (total : Nat),
    gcScan c clock i p = .ok (expired, total) →
    total = min (20 - i) p.length ∧
    ∀ h, h ∈ expired ↔ ∃ j x e, j < total ∧ p[j]? = some x ∧ c.array[x]? = some h ∧
      e ∈ c.ll ∧ e.key = h ∧ e.hasExpired (clock (i + j)) = true := by
  induction p with
  | nil =>
    intro i expired total h
    simp only [gcScan, Except.ok.injEq, Prod.mk.injEq] at h
    obtain ⟨rfl, rfl⟩ := h
    refine ⟨by simp, ?_⟩
    intro h
    simp
  | cons x xs ih =>
    intro i expired total h
    unfold gcScan at h
    by_cases hi : i ≥ 20
    · rw [if_pos hi] at h
      simp only [Except.ok.injEq, Prod.mk.injEq] at h
      obtain ⟨rfl, rfl⟩ := h
      refine ⟨by simp; omega, ?_⟩
      intro h
      simp
    · rw [if_neg hi] at h
      cases hget : c.array[x]? with
      | none => simp [hget] at h
      | some h0 =>
        cases hfind : c.ll.find? (fun e => decide (e.key = h0)) with
        | none => simp [hget, hfind] at h
        | some kv =>
          have hkv : kv ∈ c.ll := List.mem_of_find?_eq_some hfind
          have hkk : kv.key = h0 := by simpa using List.find?_some hfind
          cases hrec : gcScan c clock (i + 1) xs with
          | error f => simp [hget, hfind, hrec] at h
          | ok r =>
            obtain ⟨ex, tot⟩ := r
            simp only [hget, hfind, hrec, Except.ok.injEq, Prod.mk.injEq] at h
            obtain ⟨hex, htot⟩ := h
            obtain ⟨ht, hm⟩ := ih (i + 1) ex tot hrec
            refine ⟨by simp only [List.length_cons]; omega, ?_⟩
            intro g
            constructor
            · intro hg
              have hcase : (g = h0 ∧ kv.hasExpired (clock i) = true) ∨ g ∈ ex := by
                rw [← hex] at hg
                by_cases hE : kv.hasExpired (clock i) = true
                · rw [if_pos hE] at hg
                  rcases List.mem_cons.mp hg with h1 | h1
                  · exact Or.inl ⟨h1, hE⟩
                  · exact Or.inr h1
                · rw [if_neg hE] at hg
                  exact Or.inr hg
              rcases hcase with ⟨rfl, hE⟩ | hg
              · exact ⟨0, x, kv, by omega, by simp, hget, hkv, hkk, hE⟩
              · obtain ⟨j, y, e, hj, hpj, hay, he, hek, hE⟩ := (hm g).mp hg
                refine ⟨j + 1, y, e, by omega, by simpa using hpj, hay, he, hek, ?_⟩
                rw [← hE]
                congr 2
                omega
            · rintro ⟨j, y, e, hj, hpj, hay, he, hek, hE⟩
              rw [← hex]
              cases j with
              | zero =>
                simp only [List.getElem?_cons_zero, Option.some.injEq] at hpj
                subst hpj
                rw [hget] at hay
                simp only [Option.some.injEq] at hay
                subst hay
                have : e = kv := eq_of_key_eq hwf.1 he hkv (hek.trans hkk.symm)
                subst this
                rw [Nat.add_zero] at hE
                rw [if_pos hE]
                exact List.mem_cons_self _ _
              | succ j =>
                simp only [List.getElem?_cons_succ] at hpj
                have hin : g ∈ ex := (hm g).mpr ⟨j, y, e, by omega, hpj, hay, he, hek, by
                  rw [← hE]
                  congr 2
                  omega⟩
                split
                · exact List.mem_cons_of_mem _ hin
                · exact hin

/-- The second loop of `gc` on distinct elements of the list: it returns, the entries of the
other elements stay in their order with their value and expiration, and the list is shorter
by the number of elements removed. -/
theorem gcRemove_spec (hs : List Bytes) : ∀ c : Cache, WF c → hs.Nodup →
    (∀ h ∈ hs, h ∈ c.keys) → ∃ c1, gcRemove hs c = .ok c1 ∧ WF c1 ∧
      c1.contents = c.contents.filter (fun x => decide (x.1 ∉ hs)) ∧
      c1.ll.length + hs.length = c.ll.length ∧ c1.sizeLimit = c.sizeLimit := by
  induction hs with
  | nil => intro c hwf _ _; exact ⟨c, rfl, hwf, by simp, by simp, rfl⟩
  | cons h t ih =>
    intro c hwf hnd hmem
    obtain ⟨e, hfind, he, hek⟩ := find?_key_of_mem (hmem h (List.mem_cons_self _ _))
    obtain ⟨c2, hrun, hwf2, _⟩ := removeElement_WF hwf he
    obtain ⟨hlim, _, _, hkeys, hcont, _⟩ := removeElement_ok hrun
    rw [hek] at hcont hkeys
    obtain ⟨c1, h1, h2, h3, h4, h5⟩ := ih c2 hwf2 (List.nodup_cons.mp hnd).2 (by
      intro g hg
      rw [hkeys, List.mem_filter]
      refine ⟨hmem g (List.mem_cons_of_mem _ hg), ?_⟩
      have : g ≠ h := fun hgh => (List.nodup_cons.mp hnd).1 (hgh ▸ hg)
      simpa using this)
    refine ⟨c1, ?_, h2, ?_, ?_, h5.trans hlim⟩
    · simp only [gcRemove, hfind, hrun]
      exact h1
    · rw [h3, hcont, contents_filter, Cache.contents, List.filter_filter]
      apply List.filter_congr
      intro x _
      by_cases hx1 : x.1 = h <;> by_cases hx2 : x.1 ∈ t <;> simp [hx1, hx2]
    · have hl2 : c2.ll.length + 1 = c.ll.length := by
        have h6 := length_filter_key hwf.1 he
        have h7 : c2.contents.length = c2.ll.length := by simp [Cache.contents]
        rw [hcont, List.length_map, hek.symm] at h7
        omega
      simp only [List.length_cons]
      omega

/-- A sweep of `gc` on a state that satisfies the invariant, with a permutation of the indices
of the sampling array. -/
theorem gcSweep_spec {c : Cache} (hwf : WF c) (clock : Nat → Int) {p : List Nat}
    (hp : p.Perm (List.range c.array.length)) :
    ∃ (c1 : Cache) (removed : List Bytes) (total : Nat),
      c.gcSweep clock p = .ok (c1, removed.length, total) ∧ WF c1 ∧
      total = min 20 c.ll.length ∧ removed.length ≤ total ∧
      (∀ h, h ∈ removed ↔ ∃ j x e, j < total ∧ p[j]? = some x ∧ c.array[x]? = some h ∧
        e ∈ c.ll ∧ e.key = h ∧ e.hasExpired (clock j) = true) ∧
      c1.contents = c.contents.filter (fun x => decide (x.1 ∉ removed)) ∧
      c1.ll.length + removed.length = c.ll.length ∧ c1.sizeLimit = c.sizeLimit := by
  have hlt : ∀ x ∈ p, x < c.array.length := fun x hx => List.mem_range.mp (hp.mem_iff.mp hx)
  have hnd : p.Nodup := hp.nodup_iff.mpr (List.nodup_range _)
  obtain ⟨ex, tot, hscan, hexnd, hex, _, hlen⟩ := gcScan_ok hwf clock p 0 hlt hnd
  obtain ⟨htot, hmem⟩ := gcScan_spec hwf clock p 0 ex tot hscan
  obtain ⟨c1, hrm, hwf1, hcont, hl, hlim⟩ := gcRemove_spec ex c hwf hexnd (by
    intro h hh
    obtain ⟨x, _, hx⟩ := hex h hh
    exact (WF_keys_perm_array hwf).mem_iff.mpr (List.mem_iff_getElem?.mpr ⟨x, hx⟩))
  have hpl : p.length = c.ll.length := by
    rw [hp.length_eq, List.length_range, hwf.2.2.2.2.2.1]
  refine ⟨c1, ex, tot, ?_, hwf1, by rw [htot, hpl], hlen, ?_, hcont, hl, hlim⟩
  · simp only [Cache.gcSweep, hscan, hrm]
  · intro h
    rw [hmem h]
    simp only [zero_add]

/-- C22. GC removes only expired entries: on a state that satisfies the structural invariant,
with any clock (read once for each entry examined) and any permutation `p` of the indices of
the sampling array, a sweep of `gc` returns; it examines `total = min 20 n` entries of the `n`
present, those at the first `total` indices of `p`; the elements it removes are exactly the
examined ones whose entry had an expiration in the past at the reading of their turn; the
entries of all other keys stay in the list with their value and expiration and in their
relative order, and so does every entry that is expired at none of the readings. -/
theorem gc_sweep_removes_expired (c : Cache) (clock : Nat → Int) (p : List Nat) (hwf : WF c)
    (hp : p.Perm (List.range c.array.length)) :
    ∃ (c1 : Cache) (removed : List Bytes) (total : Nat),
      c.gcSweep clock p = .ok (c1, removed.length, total) ∧
      total = min 20 c.ll.length ∧ total ≤ 20 ∧
      (∀ h, h ∈ removed ↔ ∃ j x e, j < total ∧ p[j]? = some x ∧ c.array[x]? = some h ∧
        e ∈ c.ll ∧ e.key = h ∧ (∃ t, e.expire = some t ∧ t < clock j)) ∧
      c1.contents = c.contents.filter (fun x => decide (x.1 ∉ removed)) ∧
      (∀ e ∈ c.ll, (∀ j, e.hasExpired (clock j) = false) → e.content ∈ c1.contents) ∧
      WF c1 := by
  obtain ⟨c1, removed, total, hrun, hwf1, htot, _, hmem, hcont, _, _⟩ :=
    gcSweep_spec hwf clock hp
  have hexp : ∀ (e : entry) (now : Int),
      e.hasExpired now = true ↔ ∃ t, e.expire = some t ∧ t < now := by
    intro e now
    unfold entry.hasExpired
    cases e.expire with
    | none => simp
    | some t => simp
  refine ⟨c1, removed, total, hrun, htot, by omega, ?_, hcont, ?_, hwf1⟩
  · intro h
    rw [hmem h]
    constructor
    · rintro ⟨j, x, e, h1, h2, h3, h4, h5, h6⟩
      exact ⟨j, x, e, h1, h2, h3, h4, h5, (hexp e _).mp h6⟩
    · rintro ⟨j, x, e, h1, h2, h3, h4, h5, h6⟩
      exact ⟨j, x, e, h1, h2, h3, h4, h5, (hexp e _).mpr h6⟩
  · intro e he hne
    rw [hcont, List.mem_filter]
    refine ⟨List.mem_map_of_mem _ he, ?_⟩
    have : e.key ∉ removed := by
      intro hin
      obtain ⟨j, x, e2, _, _, _, he2, hk, hE⟩ := (hmem e.key).mp hin
      have : e2 = e := eq_of_key_eq hwf.1 he2 he hk
      subst this
      rw [hne j] at hE
      cases hE
    simpa [entry.content] using this

/-! ## C25: gc makes finitely many sweeps -/

theorem gcFrom_spec (clocks : Nat → Nat → Int) (perms : Nat → Nat → List Nat)
    (hperm : ∀ k n, (perms k n).Perm (List.range n)) :
    ∀ (fuel k : Nat) (c : Cache), WF c → c.ll.length < fuel →
    ∃ c1 sweeps, gcFrom clocks perms fuel k c = .ok (c1, sweeps) ∧ 1 ≤ sweeps ∧
      sweeps + c1.ll.length ≤ c.ll.length + 1 ∧ WF c1 ∧ (c.ll = [] → sweeps = 1 ∧ c1 = c) := by
  intro fuel
  induction fuel with
  | zero => intro k c _ h; omega
  | succ n ih =>
    intro k c hwf hfuel
    obtain ⟨c1, removed, total, hrun, hwf1, htot, hle, _, hcont, hlen, _⟩ :=
      gcSweep_spec hwf (clocks k) (hperm k c.array.length)
    unfold gcFrom
    simp only [hrun]
    by_cases hrep : removed.length * 4 > total
    · rw [if_pos hrep]
      have hpos : 1 ≤ removed.length := by omega
      obtain ⟨c2, sweeps, hrec, h1, h2, h3, _⟩ := ih (k + 1) c1 hwf1 (by omega)
      simp only [hrec]
      refine ⟨c2, sweeps + 1, rfl, by omega, by omega, h3, ?_⟩
      intro hnil
      rw [hnil] at hlen
      simp only [List.length_nil] at hlen
      omega
    · rw [if_neg hrep]
      refine ⟨c1, 1, rfl, by omega, by omega, hwf1, ?_⟩
      intro hnil
      refine ⟨rfl, ?_⟩
      have harr : c.array = [] := by
        have := hwf.2.2.2.2.2.1
        rw [hnil] at this
        exact List.eq_nil_of_length_eq_zero this
      have hp0 : perms k c.array.length = [] := by
        have := hperm k c.array.length
        rw [harr] at this ⊢
        simpa using this
      have : c.gcSweep (clocks k) (perms k c.array.length) = .ok (c, 0, 0) := by
        rw [hp0]
        rfl
      rw [this] at hrun
      simp only [Except.ok.injEq, Prod.mk.injEq] at hrun
      exact hrun.1.symm

/-- C25. GC terminates: on a state that satisfies the structural invariant, with any clock and
any permutations from `rand.Perm`, a call of `gc` whose recursion may go deeper than the
number of entries returns after at least one and at most that number plus one sweeps; every
sweep but the last removed an entry, so the sweeps and the entries left together are at most
the entries plus one; the invariant holds afterwards; on an empty cache `gc` makes one sweep
and leaves the state as it was. -/
theorem gc_terminates (c : Cache) (fuel : Nat) (clocks : Nat → Nat → Int)
    (perms : Nat → Nat → List Nat) (hwf : WF c)
    (hperm : ∀ k n, (perms k n).Perm (List.range n)) (hfuel : c.ll.length < fuel) :
    ∃ c1 sweeps, c.gc fuel clocks perms = .ok (c1, sweeps) ∧ 1 ≤ sweeps ∧
      sweeps ≤ c.ll.length + 1 ∧ sweeps + c1.ll.length ≤ c.ll.length + 1 ∧ WF c1 ∧
      (c.ll = [] → sweeps = 1 ∧ c1 = c) := by
  obtain ⟨c1, sweeps, h1, h2, h3, h4, h5⟩ := gcFrom_spec clocks perms hperm fuel 0 c hwf hfuel
  exact ⟨c1, sweeps, h1, h2, by omega, h3, h4, h5⟩

/-! ## C23: the eviction loop on an empty list -/

/-- C23. The eviction loop does not always terminate.  The state `stuckState` is reached from
`NewCache(100)` by `HSet`, `HDel`, `Remove` and `SetSizeLimit(5)`: `HDel` leaves `size` as it
was, so after the `Remove` the list is empty while `size` is 10, above the positive limit 5.
On it `Set("a", "b")` and `HSet("a", "f", "b")` evict the new entry and then meet the empty
list with `size > sizeLimit`: the loop never exits.  The same happens on a fresh cache after
`SetSizeLimit(-1)`. -/
theorem eviction_loop_never_exits :
    (∃ c0 c1 c2 c3, NewCache 100 = .ok c0 ∧
      c0.HSet (ascii "k") (ascii "f") (some (ascii "0123456789")) = .ok (c1, none) ∧
      c1.HDel 0 (ascii "k") [ascii "f"] = .ok (c2, 1, none) ∧
      c2.Remove [ascii "k"] = .ok (c3, 1) ∧
      c3.SetSizeLimit 5 = stuckState) ∧
    Reachable stuckState ∧ 0 < stuckState.sizeLimit ∧
    stuckState.Set (ascii "a") (some (ascii "b")) = .error .evictionLoopsForever ∧
    stuckState.HSet (ascii "a") (ascii "f") (some (ascii "b")) = .error .evictionLoopsForever ∧
    (∃ c0, NewCache 100 = .ok c0 ∧ Reachable (c0.SetSizeLimit (-1)) ∧
      (c0.SetSizeLimit (-1)).Set (ascii "a") (some (ascii "b"))
        = .error .evictionLoopsForever) := by
  have h0 : NewCache 100 = .ok ⟨100, 0, [], [], []⟩ := by decide!
  have h1 : Cache.HSet ⟨100, 0, [], [], []⟩ (ascii "k") (ascii "f") (some (ascii "0123456789"))
      = .ok (⟨100, 11, [⟨ascii "k", .hash [(ascii "f", ascii "0123456789")], none, 0⟩],
          [ascii "k"], [ascii "k"]⟩, none) := by decide!
  have h2 : Cache.HDel ⟨100, 11, [⟨ascii "k", .hash [(ascii "f", ascii "0123456789")], none, 0⟩],
        [ascii "k"], [ascii "k"]⟩ 0 (ascii "k") [ascii "f"]
      = .ok (⟨100, 11, [⟨ascii "k", .hash [], none, 0⟩], [ascii "k"], [ascii "k"]⟩, 1, none) := by
    decide!
  have h3 : Cache.Remove ⟨100, 11, [⟨ascii "k", .hash [], none, 0⟩], [ascii "k"], [ascii "k"]⟩
        [ascii "k"]
      = .ok (⟨100, 10, [], [], []⟩, 1) := by decide!
  have h4 : Cache.SetSizeLimit ⟨100, 10, [], [], []⟩ 5 = stuckState := rfl
  have hr : Reachable stuckState :=
    h4 ▸ Reachable.setSizeLimit _ 5
      (Reachable.remove _ _ _ _
        (Reachable.hdel _ _ 0 _ _ (1, none)
          (Reachable.hset _ _ _ _ _ none (Reachable.fresh 100 _ h0) h1) h2) h3)
  refine ⟨⟨_, _, _, _, h0, h1, h2, h3, h4⟩, hr, by decide, by decide!, by decide!, ?_⟩
  exact ⟨_, h0, Reachable.setSizeLimit _ (-1) (Reachable.fresh 100 _ h0), by decide!⟩

/-! ## C24: a positive ttl that wraps around -/

/-- C24. A positive ttl can expire the key at once.  On the state of `TestGet`, whatever the
clock reads, `Expire("aaa", 9223372036855)` (a positive number of milliseconds within 64
bits) returns 1 and stores an expiration 9223372036854551616 ns before `now`, because the
product with 1000000 wraps around; a `Get` at the same instant finds the key expired, removes
it and returns null.  `PEXPIRE aaa 9223372036855` and `EXPIRE aaa 9223372037` reach `Expire`
with such a ttl and reply `:1`. -/
theorem positive_ttl_expires_at_once :
    (0 : Int) < 9223372036855 ∧ (9223372036855 : Int) < 2 ^ 63 ∧
    ∀ now : Int,
      testGetState.Expire now (ascii "aaa") 9223372036855
        = ({ testGetState with
              ll := [{ key := ascii "aaa", value := .str (ascii "1234"),
                       expire := some (now + -9223372036854551616), pos := 0 }] }, 1) ∧
      (testGetState.Expire now (ascii "aaa") 9223372036855).1.Get now (ascii "aaa")
        = .ok ({ sizeLimit := MB, size := 0, ll := [], cache := [], array := [] },
            none, none) ∧
      handleExpire testGetState ⟨[]⟩ now [ascii "aaa", ascii "9223372036855"] 1
        = .ok ((testGetState.Expire now (ascii "aaa") 9223372036855).1,
            ⟨ascii ":1\r\n"⟩, none) ∧
      (∃ c1, handleExpire testGetState ⟨[]⟩ now [ascii "aaa", ascii "9223372037"] 1000
          = .ok (c1, ⟨ascii ":1\r\n"⟩, none) ∧
        c1.Get now (ascii "aaa")
          = .ok ({ sizeLimit := MB, size := 0, ll := [], cache := [], array := [] },
              none, none)) := by
  refine ⟨by decide, by decide, ?_⟩
  intro now
  have hw : wrapInt64 (1000000 * 9223372036855) = -9223372036854551616 := by decide!
  have hw2 : wrapInt64 (1000000 * 9223372037000) = -9223372036709551616 := by decide!
  have hf : testGetState.find (ascii "aaa")
      = some { key := ascii "aaa", value := .str (ascii "1234"), expire := none, pos := 0 } := by
    decide!
  have hE : testGetState.Expire now (ascii "aaa") 9223372036855
      = ({ testGetState with
            ll := [{ key := ascii "aaa", value := .str (ascii "1234"),
                     expire := some (now + -9223372036854551616), pos := 0 }] }, 1) := by
    simp only [Cache.Expire, hf, hw]
    rfl
  have hG : ∀ d : Int, d < 0 →
      Cache.Get ⟨MB, 7, [⟨ascii "aaa", .str (ascii "1234"), some (now + d), 0⟩], [ascii "aaa"],
        [ascii "aaa"]⟩ now (ascii "aaa")
        = .ok (⟨MB, 0, [], [], []⟩, none, none) := by
    intro d hd
    have hfind : Cache.find ⟨MB, 7, [⟨ascii "aaa", .str (ascii "1234"), some (now + d), 0⟩],
        [ascii "aaa"], [ascii "aaa"]⟩ (ascii "aaa")
        = some ⟨ascii "aaa", .str (ascii "1234"), some (now + d), 0⟩ := rfl
    have hexp : entry.hasExpired ⟨ascii "aaa", .str (ascii "1234"), some (now + d), 0⟩ now
        = true := by
      simp only [entry.hasExpired, decide_eq_true_eq]
      omega
    simp only [Cache.Get, hfind, hexp, if_true]
    rfl
  have hA1 : Atoi (ascii "9223372036855") = some 9223372036855 := by decide!
  have hA2 : Atoi (ascii "9223372037") = some 9223372037 := by decide!
  have hu1 : wrapInt64 (9223372036855 * 1) = 9223372036855 := by decide!
  have hu2 : wrapInt64 (9223372037 * 1000) = 9223372037000 := by decide!
  refine ⟨hE, ?_, ?_, ?_⟩
  · rw [hE]
    exact hG _ (by decide)
  · simp only [handleExpire, hA1, hu1, hE]
    rfl
  · refine ⟨⟨MB, 7, [⟨ascii "aaa", .str (ascii "1234"), some (now + -9223372036709551616), 0⟩],
      [ascii "aaa"], [ascii "aaa"]⟩, ?_, ?_⟩
    · simp only [handleExpire, hA2, hu2, Cache.Expire, hf, hw2]
      rfl
    · exact hG _ (by decide)

/-! ## C21: a request without a reply -/

/-- C21. A request can stay without a reply.  On the server that `cmd/redis.go` starts, the
request `CONFIG set maxmemory 9007199254740992mb` is answered `+OK` and leaves the size limit
at `-2^63`, because the product with 1024 wraps around; on that state the turn of the
dispatcher loop for `SET a b` does not return: the eviction loop of `Set` never exits, and no
reply is written.  The error reply to `CONFIG set maxmemory` with a third argument that does
not match carries that argument as it came, a CR LF inside it included. -/
theorem request_without_reply :
    ∃ c0 c1, NewCache (MB * 20) = .ok c0 ∧
      serveRequest asciiLower mainEnv c0 ⟨[]⟩ 0
          [ascii "CONFIG", ascii "set", ascii "maxmemory", ascii "9007199254740992mb"]
        = .ok (c1, ⟨ascii "+OK\r\n"⟩) ∧
      c1.sizeLimit = -2 ^ 63 ∧ Reachable c1 ∧
      serveRequest asciiLower mainEnv c1 ⟨[]⟩ 0 [ascii "SET", ascii "a", ascii "b"]
        = .error .evictionLoopsForever ∧
      serveRequest asciiLower mainEnv c0 ⟨[]⟩ 0
          [ascii "CONFIG", ascii "set", ascii "maxmemory", ascii "x\r\n+OK"]
        = .ok (c0, ⟨ascii "-invalid maxmemory: x\r\n+OK\r\n"⟩) := by
  have h0 : NewCache (MB * 20) = .ok ⟨20971520, 0, [], [], []⟩ := by decide!
  have h1 : serveRequest asciiLower mainEnv ⟨20971520, 0, [], [], []⟩ ⟨[]⟩ 0
      [ascii "CONFIG", ascii "set", ascii "maxmemory", ascii "9007199254740992mb"]
      = .ok (Cache.SetSizeLimit ⟨20971520, 0, [], [], []⟩ (-2 ^ 63), ⟨ascii "+OK\r\n"⟩) := by
    decide!
  exact ⟨_, _, h0, h1, by decide!, Reachable.setSizeLimit _ _ (Reachable.fresh _ _ h0),
    by decide!, by decide!⟩

/-! ## Witnesses for C22 and C25 -/

/-- Witness for C22: on the cut-down state of `TestExpire` with the clock at 150 ms, a sweep
with the permutation 2, 0, 1 examines the three entries and removes "myKey-1" alone. -/
theorem gc_sweep_removes_expired_witness :
    WF sweepState ∧ [2, 0, 1].Perm (List.range sweepState.array.length) ∧
    sweepState.gcSweep (fun _ => 150000000) [2, 0, 1]
      = .ok (⟨1048576, 14,
          [⟨ascii "myKey-2", .str [], some 200000000, 1⟩, ⟨ascii "myKey-0", .str [], none, 0⟩],
          [ascii "myKey-2", ascii "myKey-0"], [ascii "myKey-0", ascii "myKey-2"]⟩, 1, 3) ∧
    ∃ (c1 : Cache) (removed : List Bytes) (total : Nat),
      sweepState.gcSweep (fun _ => 150000000) [2, 0, 1] = .ok (c1, removed.length, total) ∧
      total = min 20 sweepState.ll.length ∧ total ≤ 20 ∧
      (∀ h, h ∈ removed ↔ ∃ j x e, j < total ∧ [2, 0, 1][j]? = some x ∧
        sweepState.array[x]? = some h ∧ e ∈ sweepState.ll ∧ e.key = h ∧
        (∃ t, e.expire = some t ∧ t < 150000000)) ∧
      c1.contents = sweepState.contents.filter (fun x => decide (x.1 ∉ removed)) ∧
      (∀ e ∈ sweepState.ll, (∀ _ : Nat, e.hasExpired 150000000 = false) →
        e.content ∈ c1.contents) ∧
      WF c1 :=
  ⟨by decide!, by decide!, by decide!,
    gc_sweep_removes_expired sweepState (fun _ => 150000000) [2, 0, 1] (by decide!) (by decide!)⟩

/-- Witness for C25: on the cut-down state of `TestExpire` with the clock at 150 ms and the
identity permutations, `gc` makes two sweeps: the first removes one entry of three, the second
none of two. -/
theorem gc_terminates_witness :
    WF sweepState ∧ (∀ _ n : Nat, (List.range n).Perm (List.range n)) ∧
    sweepState.ll.length < 4 ∧
    sweepState.gc 4 (fun _ _ => 150000000) (fun _ m => List.range m)
      = .ok (⟨1048576, 14,
          [⟨ascii "myKey-2", .str [], some 200000000, 1⟩, ⟨ascii "myKey-0", .str [], none, 0⟩],
          [ascii "myKey-2", ascii "myKey-0"], [ascii "myKey-0", ascii "myKey-2"]⟩, 2) ∧
    ∃ c1 sweeps, sweepState.gc 4 (fun _ _ => 150000000) (fun _ m => List.range m)
        = .ok (c1, sweeps) ∧ 1 ≤ sweeps ∧
      sweeps ≤ sweepState.ll.length + 1 ∧ sweeps + c1.ll.length ≤ sweepState.ll.length + 1 ∧
      WF c1 ∧ (sweepState.ll = [] → sweeps = 1 ∧ c1 = sweepState) :=
  ⟨by decide!, fun _ _ => List.Perm.refl _, by decide, by decide!,
    gc_terminates sweepState 4 (fun _ _ => 150000000) (fun _ m => List.range m) (by decide!)
      (fun _ _ => List.Perm.refl _) (by decide)⟩

/-! ## When the eviction loop exits -/

theorem cost_nonneg (v : Value) : 0 ≤ v.cost := by
  cases v with
  | str s => simp [Value.cost]
  | hash m =>
    unfold Value.cost
    apply List.sum_nonneg
    intro x hx
    simp only [List.mem_map] at hx
    obtain ⟨p, _, rfl⟩ := hx
    omega

theorem costs_nonneg (l : List (Bytes × Value × Option Int)) : 0 ≤ costs l := by
  unfold costs
  apply List.sum_nonneg
  intro x hx
  simp only [List.mem_map] at hx
  obtain ⟨p, _, rfl⟩ := hx
  have := cost_nonneg p.2.1
  unfold contentCost
  omega

theorem costs_filter_key {ll : List entry} {e : entry} (hnd : (ll.map entry.key).Nodup)
    (he : e ∈ ll) :
    costs (ll.map entry.content)
      = e.cost + costs ((ll.filter (fun x => decide (x.key ≠ e.key))).map entry.content) := by
  induction ll with
  | nil => simp at he
  | cons a t ih =>
    simp only [List.map_cons, List.nodup_cons] at hnd
    by_cases hk : a.key = e.key
    · have ht : t.filter (fun x => decide (x.key ≠ e.key)) = t := by
        rw [List.filter_eq_self]
        intro x hx
        have : x.key ≠ a.key := fun hxa => hnd.1 (hxa ▸ List.mem_map_of_mem _ hx)
        simpa [← hk] using this
      have hae : a = e := by
        rcases List.mem_cons.mp he with h | h
        · exact h.symm
        · exact absurd (hk ▸ List.mem_map_of_mem entry.key h) hnd.1
      rw [List.filter_cons_of_neg (by simp [hk]), ht, hae]
      simp [costs, entry.cost]
    · have het : e ∈ t := by
        rcases List.mem_cons.mp he with h | h
        · exact absurd (h ▸ rfl) hk
        · exact h
      rw [List.filter_cons_of_pos (by simp [hk])]
      have := ih hnd.2 het
      simp only [costs, List.map_cons, List.sum_cons, List.map_map] at this ⊢
      omega

/-- The eviction loop on a state that satisfies the invariant: it exits when the size limit is
0 or `size` is not above the limit by more than the cost of the entries, and otherwise it
empties the list and then spins. -/
theorem evictLoop_total (fuel : Nat) : ∀ c : Cache, WF c → c.ll.length ≤ fuel →
    ((c.sizeLimit = 0 ∨ c.size - costs c.contents ≤ c.sizeLimit) →
      ∃ c2, evictLoop fuel c = .ok c2 ∧ WF c2) ∧
    (¬ (c.sizeLimit = 0 ∨ c.size - costs c.contents ≤ c.sizeLimit) →
      evictLoop fuel c = .error .evictionLoopsForever) := by
  induction fuel with
  | zero =>
    intro c hwf hlen
    have hnil : c.ll = [] := List.eq_nil_of_length_eq_zero (by omega)
    have hc0 : costs c.contents = 0 := by simp [Cache.contents, hnil, costs]
    unfold evictLoop
    by_cases hcond : c.sizeLimit ≠ 0 ∧ c.size > c.sizeLimit
    · rw [if_pos hcond, if_pos hnil]
      refine ⟨fun h => ?_, fun _ => rfl⟩
      rcases h with h | h
      · exact absurd h hcond.1
      · omega
    · rw [if_neg hcond]
      refine ⟨fun _ => ⟨c, rfl, hwf⟩, fun h => ?_⟩
      exfalso
      apply h
      by_cases h0 : c.sizeLimit = 0
      · exact Or.inl h0
      · right
        have : ¬ c.size > c.sizeLimit := fun hgt => hcond ⟨h0, hgt⟩
        omega
  | succ n ih =>
    intro c hwf hlen
    unfold evictLoop
    by_cases hcond : c.sizeLimit ≠ 0 ∧ c.size > c.sizeLimit
    · rw [if_pos hcond]
      by_cases hnil : c.ll = []
      · rw [if_pos hnil]
        have hc0 : costs c.contents = 0 := by simp [Cache.contents, hnil, costs]
        refine ⟨fun h => ?_, fun _ => rfl⟩
        rcases h with h | h
        · exact absurd h hcond.1
        · omega
      · rw [if_neg hnil]
        simp only
        obtain ⟨e, hlast⟩ : ∃ e, c.ll.getLast? = some e :=
          ⟨_, List.getLast?_eq_getLast _ hnil⟩
        have hmem : e ∈ c.ll := mem_of_getLast? hlast
        obtain ⟨c1, hrun, hwf1, _⟩ := removeElement_WF hwf hmem
        obtain ⟨hlim, hsize, _, _, hcont, _⟩ := removeElement_ok hrun
        have hro : c.removeOldest = .ok c1 := by
          simp only [Cache.removeOldest, hlast, hrun]
        have hl1 : c1.ll.length + 1 = c.ll.length := by
          have h6 := length_filter_key hwf.1 hmem
          have h7 : c1.contents.length = c1.ll.length := by simp [Cache.contents]
          rw [hcont, List.length_map] at h7
          omega
        have hcost : costs c.contents = e.cost + costs c1.contents := by
          rw [hcont]
          exact costs_filter_key hwf.1 hmem
        obtain ⟨h1, h2⟩ := ih c1 hwf1 (by omega)
        simp only [hro]
        rw [hlim, hsize] at h1 h2
        have heq : c.size - e.cost - costs c1.contents = c.size - costs c.contents := by omega
        rw [heq] at h1 h2
        exact ⟨h1, h2⟩
    · rw [if_neg hcond]
      refine ⟨fun _ => ⟨c, rfl, hwf⟩, fun h => ?_⟩
      exfalso
      apply h
      by_cases h0 : c.sizeLimit = 0
      · exact Or.inl h0
      · right
        have : ¬ c.size > c.sizeLimit := fun hgt => hcond ⟨h0, hgt⟩
        have := costs_nonneg c.contents
        omega

/-- The eviction loop that ends `Set` and `HSet` either returns or spins on the empty list;
no other fault occurs on a state that satisfies the invariant. -/
theorem evict_total {m : Cache} (hwf : WF m) :
    (∃ c2, m.evict = .ok c2 ∧ WF c2) ∨ m.evict = .error .evictionLoopsForever := by
  obtain ⟨h1, h2⟩ := evictLoop_total m.ll.length m hwf (Nat.le_refl _)
  by_cases h : m.sizeLimit = 0 ∨ m.size - costs m.contents ≤ m.sizeLimit
  · exact Or.inl (h1 h)
  · exact Or.inr (h2 h)

theorem Set_total {c : Cache} (hwf : WF c) (k v : Bytes) :
    (∃ c1 r, c.Set k (some v) = .ok (c1, r) ∧ WF c1) ∨
    c.Set k (some v) = .error .evictionLoopsForever := by
  unfold Cache.Set
  simp only
  cases hm : c.setStore k v with
  | none => exact Or.inl ⟨c, _, rfl, hwf⟩
  | some m =>
    simp only
    rcases evict_total (setStore_WF hwf hm) with ⟨c2, h, hwf2⟩ | h
    · exact Or.inl ⟨c2, none, by simp only [h], hwf2⟩
    · exact Or.inr (by simp only [h])

theorem HSet_total {c : Cache} (hwf : WF c) (k f v : Bytes) :
    (∃ c1 r, c.HSet k f (some v) = .ok (c1, r) ∧ WF c1) ∨
    c.HSet k f (some v) = .error .evictionLoopsForever := by
  unfold Cache.HSet
  simp only
  cases hm : c.hsetStore k f v with
  | none => exact Or.inl ⟨c, _, rfl, hwf⟩
  | some m =>
    simp only
    rcases evict_total (hsetStore_WF hwf hm) with ⟨c2, h, hwf2⟩ | h
    · exact Or.inl ⟨c2, none, by simp only [h], hwf2⟩
    · exact Or.inr (by simp only [h])

/-! ## The operations of the cache return -/

theorem Exists_total {c : Cache} (hwf : WF c) (now : Int) (k : Bytes) :
    ∃ c1 n, c.Exists now k = .ok (c1, n) ∧ WF c1 := by
  have key : ∃ c1 n, c.Exists now k = .ok (c1, n) := by
    unfold Cache.Exists
    cases hf : c.find k with
    | none => exact ⟨_, _, rfl⟩
    | some kv =>
      simp only
      by_cases hE : kv.hasExpired now = true
      · obtain ⟨c1, hrun, _⟩ := removeElement_WF hwf (find_some hf).2.2.1
        simp only [hE, if_true, hrun]
        exact ⟨_, _, rfl⟩
      · simp only [hE]
        exact ⟨_, _, rfl⟩
  obtain ⟨c1, n, h⟩ := key
  exact ⟨c1, n, h, Exists_WF hwf h⟩

theorem Get_total {c : Cache} (hwf : WF c) (now : Int) (k : Bytes) :
    ∃ c1 d err, c.Get now k = .ok (c1, d, err) ∧ WF c1 := by
  have key : ∃ c1 d err, c.Get now k = .ok (c1, d, err) := by
    unfold Cache.Get
    cases hf : c.find k with
    | none => exact ⟨_, _, _, rfl⟩
    | some kv =>
      simp only
      by_cases hE : kv.hasExpired now = true
      · obtain ⟨c1, hrun, _⟩ := removeElement_WF hwf (find_some hf).2.2.1
        simp only [hE, if_true, hrun]
        exact ⟨_, _, _, rfl⟩
      · simp only [hE]
        cases kv.value <;> exact ⟨_, _, _, rfl⟩
  obtain ⟨c1, d, err, h⟩ := key
  exact ⟨c1, d, err, h, Get_WF hwf h⟩

theorem HGet_total {c : Cache} (hwf : WF c) (now : Int) (k f : Bytes) :
    ∃ c1 d err, c.HGet now k f = .ok (c1, d, err) ∧ WF c1 := by
  have key : ∃ c1 d err, c.HGet now k f = .ok (c1, d, err) := by
    unfold Cache.HGet
    cases hf : c.find k with
    | none => exact ⟨_, _, _, rfl⟩
    | some kv =>
      simp only
      by_cases hE : kv.hasExpired now = true
      · obtain ⟨c1, hrun, _⟩ := removeElement_WF hwf (find_some hf).2.2.1
        simp only [hE, if_true, hrun]
        exact ⟨_, _, _, rfl⟩
      · simp only [hE]
        cases kv.value <;> exact ⟨_, _, _, rfl⟩
  obtain ⟨c1, d, err, h⟩ := key
  exact ⟨c1, d, err, h, HGet_WF hwf h⟩

theorem HGetAll_total {c : Cache} (hwf : WF c) (now : Int) (k : Bytes) :
    ∃ c1 d err, c.HGetAll now k = .ok (c1, d, err) ∧ WF c1 := by
  have key : ∃ c1 d err, c.HGetAll now k = .ok (c1, d, err) := by
    unfold Cache.HGetAll
    cases hf : c.find k with
    | none => exact ⟨_, _, _, rfl⟩
    | some kv =>
      simp only
      by_cases hE : kv.hasExpired now = true
      · obtain ⟨c1, hrun, _⟩ := removeElement_WF hwf (find_some hf).2.2.1
        simp only [hE, if_true, hrun]
        exact ⟨_, _, _, rfl⟩
      · simp only [hE]
        cases kv.value <;> exact ⟨_, _, _, rfl⟩
  obtain ⟨c1, d, err, h⟩ := key
  exact ⟨c1, d, err, h, HGetAll_WF hwf h⟩

theorem HDel_total {c : Cache} (hwf : WF c) (now : Int) (k : Bytes) (fs : List Bytes) :
    ∃ c1 n err, c.HDel now k fs = .ok (c1, n, err) ∧ WF c1 := by
  have key : ∃ c1 n err, c.HDel now k fs = .ok (c1, n, err) := by
    unfold Cache.HDel
    cases hf : c.find k with
    | none => exact ⟨_, _, _, rfl⟩
    | some kv =>
      simp only
      by_cases hE : kv.hasExpired now = true
      · obtain ⟨c1, hrun, _⟩ := removeElement_WF hwf (find_some hf).2.2.1
        simp only [hE, if_true, hrun]
        exact ⟨_, _, _, rfl⟩
      · simp only [hE]
        cases kv.value <;> exact ⟨_, _, _, rfl⟩
  obtain ⟨c1, n, err, h⟩ := key
  exact ⟨c1, n, err, h, HDel_WF hwf h⟩

theorem HExists_total {c : Cache} (hwf : WF c) (now : Int) (k f : Bytes) :
    ∃ c1 n err, c.HExists now k f = .ok (c1, n, err) ∧ WF c1 := by
  have key : ∃ c1 n err, c.HExists now k f = .ok (c1, n, err) := by
    unfold Cache.HExists
    cases hf : c.find k with
    | none => exact ⟨_, _, _, rfl⟩
    | some kv =>
      simp only
      by_cases hE : kv.hasExpired now = true
      · obtain ⟨c1, hrun, _⟩ := removeElement_WF hwf (find_some hf).2.2.1
        simp only [hE, if_true, hrun]
        exact ⟨_, _, _, rfl⟩
      · simp only [hE]
        cases kv.value with
        | str s => exact ⟨_, _, _, rfl⟩
        | hash m =>
          simp only
          cases mapGet m f <;> exact ⟨_, _, _, rfl⟩
  obtain ⟨c1, n, err, h⟩ := key
  exact ⟨c1, n, err, h, HExists_WF hwf h⟩

theorem mgetLoop_total (now : Int) (ks : List Bytes) : ∀ (c : Cache) (buf : List (Option Bytes)),
    WF c → ∃ c1 buf1 err, mgetLoop now ks c buf = .ok (c1, buf1, err) ∧ WF c1 := by
  induction ks with
  | nil => intro c buf hwf; exact ⟨c, buf, none, rfl, hwf⟩
  | cons k t ih =>
    intro c buf hwf
    obtain ⟨c1, d, err, h, hwf1⟩ := Get_total hwf now k
    unfold mgetLoop
    cases err with
    | some e => exact ⟨c1, buf, some e, by simp only [h], hwf1⟩
    | none =>
      obtain ⟨c2, buf2, err2, h2, hwf2⟩ := ih c1 (buf ++ [d]) hwf1
      exact ⟨c2, buf2, err2, by simp only [h, h2], hwf2⟩

theorem hmgetLoop_total (now : Int) (key : Bytes) (ks : List Bytes) :
    ∀ (c : Cache) (buf : List (Option Bytes)),
    WF c → ∃ c1 buf1 err, hmgetLoop now key ks c buf = .ok (c1, buf1, err) ∧ WF c1 := by
  induction ks with
  | nil => intro c buf hwf; exact ⟨c, buf, none, rfl, hwf⟩
  | cons k t ih =>
    intro c buf hwf
    obtain ⟨c1, d, err, h, hwf1⟩ := HGet_total hwf now key k
    unfold hmgetLoop
    cases err with
    | some e => exact ⟨c1, buf, some e, by simp only [h], hwf1⟩
    | none =>
      obtain ⟨c2, buf2, err2, h2, hwf2⟩ := ih c1 (buf ++ [d]) hwf1
      exact ⟨c2, buf2, err2, by simp only [h, h2], hwf2⟩

theorem msetLoop_total : ∀ (n : Nat) (ss : List Bytes) (c : Cache), ss.length ≤ n → WF c →
    (∃ c1, msetLoop ss c = .ok c1 ∧ WF c1) ∨ msetLoop ss c = .error .evictionLoopsForever := by
  intro n
  induction n with
  | zero =>
    intro ss c hlen hwf
    have : ss = [] := List.eq_nil_of_length_eq_zero (by omega)
    subst this
    exact Or.inl ⟨c, rfl, hwf⟩
  | succ n ih =>
    intro ss c hlen hwf
    match ss, hlen with
    | [], _ => exact Or.inl ⟨c, rfl, hwf⟩
    | [_], _ => exact Or.inl ⟨c, rfl, hwf⟩
    | k :: v :: rest, hlen =>
      unfold msetLoop
      rcases Set_total hwf k v with ⟨c1, r, h, hwf1⟩ | h
      · simp only [h]
        exact ih rest c1 (by simp only [List.length_cons] at hlen; omega) hwf1
      · exact Or.inr (by simp only [h])

theorem hmsetLoop_total (key : Bytes) : ∀ (n : Nat) (ss : List Bytes) (c : Cache),
    ss.length ≤ n → WF c →
    (∃ c1, hmsetLoop key ss c = .ok c1 ∧ WF c1) ∨
    hmsetLoop key ss c = .error .evictionLoopsForever := by
  intro n
  induction n with
  | zero =>
    intro ss c hlen hwf
    have : ss = [] := List.eq_nil_of_length_eq_zero (by omega)
    subst this
    exact Or.inl ⟨c, rfl, hwf⟩
  | succ n ih =>
    intro ss c hlen hwf
    match ss, hlen with
    | [], _ => exact Or.inl ⟨c, rfl, hwf⟩
    | [_], _ => exact Or.inl ⟨c, rfl, hwf⟩
    | f :: v :: rest, hlen =>
      unfold hmsetLoop
      rcases HSet_total hwf key f v with ⟨c1, r, h, hwf1⟩ | h
      · simp only [h]
        exact ih rest c1 (by simp only [List.length_cons] at hlen; omega) hwf1
      · exact Or.inr (by simp only [h])

/-! ## The handlers write one reply -/

theorem handleFlush_reply {c : Cache} (hwf : WF c) (wr : Writer) (ss : List Bytes) :
    ∃ c1 wr1 err, handleFlush c wr ss = .ok (c1, wr1, err) ∧ WF c1 ∧ oneReply wr wr1 err := by
  unfold handleFlush
  split
  · exact ⟨c, wr, _, rfl, hwf, rfl⟩
  · exact ⟨_, _, none, rfl, by simp [WF, Cache.Flush, Cache.keys], Or.inl rfl⟩

theorem handleExpire_reply {c : Cache} (hwf : WF c) (wr : Writer) (now : Int) (ss : List Bytes)
    (unit : Int) :
    ∃ c1 wr1 err, handleExpire c wr now ss unit = .ok (c1, wr1, err) ∧ WF c1 ∧
      oneReply wr wr1 err := by
  rcases ss with _ | ⟨k, _ | ⟨t, _ | ⟨x, r⟩⟩⟩
  · exact ⟨c, wr, _, rfl, hwf, rfl⟩
  · exact ⟨c, wr, _, rfl, hwf, rfl⟩
  · cases hA : Atoi t with
    | none => exact ⟨c, wr, some .notIntError, by simp only [handleExpire, hA], hwf, rfl⟩
    | some i =>
      exact ⟨(c.Expire now k (wrapInt64 (i * unit))).1,
        wr.Int (c.Expire now k (wrapInt64 (i * unit))).2, none,
        by simp only [handleExpire, hA], Expire_WF now k _ hwf, Or.inr (Or.inl ⟨_, rfl⟩)⟩
  · exact ⟨c, wr, _, rfl, hwf, rfl⟩

theorem handleSet_reply {c : Cache} (hwf : WF c) (wr : Writer) (ss : List Bytes) :
    (∃ c1 wr1 err, handleSet c wr ss = .ok (c1, wr1, err) ∧ WF c1 ∧ oneReply wr wr1 err) ∨
    handleSet c wr ss = .error .evictionLoopsForever := by
  rcases ss with _ | ⟨k, _ | ⟨v, _ | ⟨x, r⟩⟩⟩
  · exact Or.inl ⟨c, wr, _, rfl, hwf, rfl⟩
  · exact Or.inl ⟨c, wr, _, rfl, hwf, rfl⟩
  · rcases Set_total hwf k v with ⟨c1, r, h, hwf1⟩ | h
    · exact Or.inl ⟨c1, _, none, by simp only [handleSet, h], hwf1, Or.inl rfl⟩
    · exact Or.inr (by simp only [handleSet, h])
  · exact Or.inl ⟨c, wr, _, rfl, hwf, rfl⟩

theorem handleHSet_reply {c : Cache} (hwf : WF c) (wr : Writer) (ss : List Bytes) :
    (∃ c1 wr1 err, handleHSet c wr ss = .ok (c1, wr1, err) ∧ WF c1 ∧ oneReply wr wr1 err) ∨
    handleHSet c wr ss = .error .evictionLoopsForever := by
  rcases ss with _ | ⟨k, _ | ⟨f, _ | ⟨v, _ | ⟨x, r⟩⟩⟩⟩
  · exact Or.inl ⟨c, wr, _, rfl, hwf, rfl⟩
  · exact Or.inl ⟨c, wr, _, rfl, hwf, rfl⟩
  · exact Or.inl ⟨c, wr, _, rfl, hwf, rfl⟩
  · rcases HSet_total hwf k f v with ⟨c1, r, h, hwf1⟩ | h
    · exact Or.inl ⟨c1, _, none, by simp only [handleHSet, h], hwf1, Or.inl rfl⟩
    · exact Or.inr (by simp only [handleHSet, h])
  · exact Or.inl ⟨c, wr, _, rfl, hwf, rfl⟩

theorem handleMSet_reply {c : Cache} (hwf : WF c) (wr : Writer) (ss : List Bytes) :
    (∃ c1 wr1 err, handleMSet c wr ss = .ok (c1, wr1, err) ∧ WF c1 ∧ oneReply wr wr1 err) ∨
    handleMSet c wr ss = .error .evictionLoopsForever := by
  unfold handleMSet
  split
  · exact Or.inl ⟨c, wr, _, rfl, hwf, rfl⟩
  · rcases msetLoop_total ss.length ss c (Nat.le_refl _) hwf with ⟨c1, h, hwf1⟩ | h
    · exact Or.inl ⟨c1, _, none, by simp only [h], hwf1, Or.inl rfl⟩
    · exact Or.inr (by simp only [h])

theorem handleHMSet_reply {c : Cache} (hwf : WF c) (wr : Writer) (ss : List Bytes) :
    (∃ c1 wr1 err, handleHMSet c wr ss = .ok (c1, wr1, err) ∧ WF c1 ∧ oneReply wr wr1 err) ∨
    handleHMSet c wr ss = .error .evictionLoopsForever := by
  unfold handleHMSet
  split
  · exact Or.inl ⟨c, wr, _, rfl, hwf, rfl⟩
  · rcases ss with _ | ⟨key, rest⟩
    · exact Or.inl ⟨c, wr, _, rfl, hwf, rfl⟩
    · rcases hmsetLoop_total key rest.length rest c (Nat.le_refl _) hwf with ⟨c1, h, hwf1⟩ | h
      · exact Or.inl ⟨c1, _, none, by simp only [h], hwf1, Or.inl rfl⟩
      · exact Or.inr (by simp only [h])

theorem handleGet_reply {c : Cache} (hwf : WF c) (wr : Writer) (now : Int) (ss : List Bytes) :
    ∃ c1 wr1 err, handleGet c wr now ss = .ok (c1, wr1, err) ∧ WF c1 ∧ oneReply wr wr1 err := by
  rcases ss with _ | ⟨k, _ | ⟨x, r⟩⟩
  · exact ⟨c, wr, _, rfl, hwf, rfl⟩
  · obtain ⟨c1, d, err, h, hwf1⟩ := Get_total hwf now k
    cases err with
    | some e => exact ⟨c1, wr, some e, by simp only [handleGet, h], hwf1, rfl⟩
    | none =>
      exact ⟨c1, wr.String d, none, by simp only [handleGet, h], hwf1,
        Or.inr (Or.inr (Or.inl ⟨d, rfl⟩))⟩
  · exact ⟨c, wr, _, rfl, hwf, rfl⟩

theorem handleMGet_reply {c : Cache} (hwf : WF c) (wr : Writer) (now : Int) (ss : List Bytes) :
    ∃ c1 wr1 err, handleMGet c wr now ss = .ok (c1, wr1, err) ∧ WF c1 ∧ oneReply wr wr1 err := by
  unfold handleMGet
  split
  · exact ⟨c, wr, _, rfl, hwf, rfl⟩
  · obtain ⟨c1, buf, err, h, hwf1⟩ := mgetLoop_total now ss c [] hwf
    cases err with
    | some e => exact ⟨c1, wr, some e, by simp only [h], hwf1, rfl⟩
    | none =>
      exact ⟨c1, wr.StringArray buf, none, by simp only [h], hwf1,
        Or.inr (Or.inr (Or.inr ⟨buf, rfl⟩))⟩

theorem handleExists_reply {c : Cache} (hwf : WF c) (wr : Writer) (now : Int)
    (ss : List Bytes) :
    ∃ c1 wr1 err, handleExists c wr now ss = .ok (c1, wr1, err) ∧ WF c1 ∧
      oneReply wr wr1 err := by
  rcases ss with _ | ⟨k, _ | ⟨x, r⟩⟩
  · exact ⟨c, wr, _, rfl, hwf, rfl⟩
  · obtain ⟨c1, n, h, hwf1⟩ := Exists_total hwf now k
    exact ⟨c1, wr.Int n, none, by simp only [handleExists, h], hwf1, Or.inr (Or.inl ⟨n, rfl⟩)⟩
  · exact ⟨c, wr, _, rfl, hwf, rfl⟩

theorem handleHGet_reply {c : Cache} (hwf : WF c) (wr : Writer) (now : Int) (ss : List Bytes) :
    ∃ c1 wr1 err, handleHGet c wr now ss = .ok (c1, wr1, err) ∧ WF c1 ∧ oneReply wr wr1 err := by
  rcases ss with _ | ⟨k, _ | ⟨f, _ | ⟨x, r⟩⟩⟩
  · exact ⟨c, wr, _, rfl, hwf, rfl⟩
  · exact ⟨c, wr, _, rfl, hwf, rfl⟩
  · obtain ⟨c1, d, err, h, hwf1⟩ := HGet_total hwf now k f
    cases err with
    | some e => exact ⟨c1, wr, some e, by simp only [handleHGet, h], hwf1, rfl⟩
    | none =>
      exact ⟨c1, wr.String d, none, by simp only [handleHGet, h], hwf1,
        Or.inr (Or.inr (Or.inl ⟨d, rfl⟩))⟩
  · exact ⟨c, wr, _, rfl, hwf, rfl⟩

theorem handleHMGet_reply {c : Cache} (hwf : WF c) (wr : Writer) (now : Int) (ss : List Bytes) :
    ∃ c1 wr1 err, handleHMGet c wr now ss = .ok (c1, wr1, err) ∧ WF c1 ∧
      oneReply wr wr1 err := by
  unfold handleHMGet
  split
  · exact ⟨c, wr, _, rfl, hwf, rfl⟩
  · rcases ss with _ | ⟨key, rest⟩
    · exact ⟨c, wr, _, rfl, hwf, rfl⟩
    · obtain ⟨c1, buf, err, h, hwf1⟩ := hmgetLoop_total now key rest c [] hwf
      cases err with
      | some e => exact ⟨c1, wr, some e, by simp only [h], hwf1, rfl⟩
      | none =>
        exact ⟨c1, wr.StringArray buf, none, by simp only [h], hwf1,
          Or.inr (Or.inr (Or.inr ⟨buf, rfl⟩))⟩

theorem handleHGetAll_reply {c : Cache} (hwf : WF c) (wr : Writer) (now : Int)
    (ss : List Bytes) :
    ∃ c1 wr1 err, handleHGetAll c wr now ss = .ok (c1, wr1, err) ∧ WF c1 ∧
      oneReply wr wr1 err := by
  rcases ss with _ | ⟨k, _ | ⟨x, r⟩⟩
  · exact ⟨c, wr, _, rfl, hwf, rfl⟩
  · obtain ⟨c1, d, err, h, hwf1⟩ := HGetAll_total hwf now k
    cases err with
    | some e => exact ⟨c1, wr, some e, by simp only [handleHGetAll, h], hwf1, rfl⟩
    | none =>
      cases d with
      | none =>
        exact ⟨c1, wr.StringArray [], none, by simp only [handleHGetAll, h], hwf1,
          Or.inr (Or.inr (Or.inr ⟨[], rfl⟩))⟩
      | some l =>
        exact ⟨c1, wr.StringArray (l.map some), none, by simp only [handleHGetAll, h], hwf1,
          Or.inr (Or.inr (Or.inr ⟨_, rfl⟩))⟩
  · exact ⟨c, wr, _, rfl, hwf, rfl⟩

theorem handleHExists_reply {c : Cache} (hwf : WF c) (wr : Writer) (now : Int)
    (ss : List Bytes) :
    ∃ c1 wr1 err, handleHExists c wr now ss = .ok (c1, wr1, err) ∧ WF c1 ∧
      oneReply wr wr1 err := by
  rcases ss with _ | ⟨k, _ | ⟨f, _ | ⟨x, r⟩⟩⟩
  · exact ⟨c, wr, _, rfl, hwf, rfl⟩
  · exact ⟨c, wr, _, rfl, hwf, rfl⟩
  · obtain ⟨c1, n, err, h, hwf1⟩ := HExists_total hwf now k f
    cases err with
    | some e => exact ⟨c1, wr, some e, by simp only [handleHExists, h], hwf1, rfl⟩
    | none =>
      exact ⟨c1, wr.Int n, none, by simp only [handleHExists, h], hwf1,
        Or.inr (Or.inl ⟨n, rfl⟩)⟩
  · exact ⟨c, wr, _, rfl, hwf, rfl⟩

theorem handleDel_reply {c : Cache} (hwf : WF c) (wr : Writer) (ss : List Bytes) :
    ∃ c1 wr1 err, handleDel c wr ss = .ok (c1, wr1, err) ∧ WF c1 ∧ oneReply wr wr1 err := by
  unfold handleDel
  split
  · exact ⟨c, wr, _, rfl, hwf, rfl⟩
  · obtain ⟨c1, h, hwf1, _⟩ := removeLoop_spec ss c 0 hwf
    exact ⟨c1, wr.Int (0 + (countPresent ss c.cache : Int)), none,
      by simp only [Cache.Remove, h], hwf1, Or.inr (Or.inl ⟨_, rfl⟩)⟩

theorem handleHDel_reply {c : Cache} (hwf : WF c) (wr : Writer) (now : Int) (ss : List Bytes) :
    ∃ c1 wr1 err, handleHDel c wr now ss = .ok (c1, wr1, err) ∧ WF c1 ∧ oneReply wr wr1 err := by
  unfold handleHDel
  split
  · exact ⟨c, wr, _, rfl, hwf, rfl⟩
  · rcases ss with _ | ⟨key, rest⟩
    · exact ⟨c, wr, _, rfl, hwf, rfl⟩
    · obtain ⟨c1, n, err, h, hwf1⟩ := HDel_total hwf now key rest
      cases err with
      | some e => exact ⟨c1, wr, some e, by simp only [h], hwf1, rfl⟩
      | none =>
        exact ⟨c1, wr.Int n, none, by simp only [h], hwf1, Or.inr (Or.inl ⟨n, rfl⟩)⟩

theorem handleInfo_reply {c : Cache} (hwf : WF c) (env : InfoEnv) (wr : Writer)
    (ss : List Bytes) :
    ∃ c1 wr1 err, handleInfo env c wr ss = .ok (c1, wr1, err) ∧ WF c1 ∧ oneReply wr wr1 err := by
  unfold handleInfo
  split
  · exact ⟨c, wr, _, rfl, hwf, rfl⟩
  · exact ⟨c, _, none, rfl, hwf, Or.inr (Or.inr (Or.inl ⟨_, rfl⟩))⟩

theorem handleConfigSet_reply {c : Cache} (hwf : WF c) (wr : Writer) (ss : List Bytes) :
    ∃ c1 wr1 err, handleConfigSet c wr ss = .ok (c1, wr1, err) ∧ WF c1 ∧
      oneReply wr wr1 err := by
  rcases ss with _ | ⟨a, _ | ⟨b, _ | ⟨v, _ | ⟨x, r⟩⟩⟩⟩
  · exact ⟨c, wr, _, rfl, hwf, rfl⟩
  · exact ⟨c, wr, _, rfl, hwf, rfl⟩
  · exact ⟨c, wr, _, rfl, hwf, rfl⟩
  · unfold handleConfigSet
    simp only
    split
    · split
      · split
        · exact ⟨c, wr, _, rfl, hwf, rfl⟩
        · exact ⟨_, _, none, rfl, WF_sizes hwf _ _, Or.inl rfl⟩
      · split
        · exact ⟨c, _, none, rfl, hwf, Or.inl rfl⟩
        · exact ⟨c, wr, _, rfl, hwf, rfl⟩
    · exact ⟨c, wr, _, rfl, hwf, rfl⟩
  · exact ⟨c, wr, _, rfl, hwf, rfl⟩

/-! ## One reply for each turn of the dispatcher that ends -/

/-- The switch of `handleConnection` on a state that satisfies the invariant and a request
with a command name: the handler returns, having written one reply and no error or no reply
and an error, unless the command is one of `set`, `mset`, `hset`, `hmset` and the eviction
loop does not exit. -/
theorem dispatch_reply (lower : Bytes → Bytes) (env : InfoEnv) {c : Cache} (hwf : WF c)
    (wr : Writer) (now : Int) (cmd : Bytes) (args : List Bytes) :
    (∃ c1 wr1 err, dispatch lower env c wr now (cmd :: args) = .ok (c1, wr1, err) ∧ WF c1 ∧
      oneReply wr wr1 err) ∨
    (dispatch lower env c wr now (cmd :: args) = .error .evictionLoopsForever ∧
      (lower cmd = ascii "set" ∨ lower cmd = ascii "mset" ∨ lower cmd = ascii "hset" ∨
        lower cmd = ascii "hmset")) := by
  have hd : dispatch lower env c wr now (cmd :: args) = 
    (if lower cmd = ascii "flushdb" then handleFlush c wr args
    else if lower cmd = ascii "expire" then handleExpire c wr now args 1000
    else if lower cmd = ascii "pexpire" then handleExpire c wr now args 1
    else if lower cmd = ascii "set" then handleSet c wr args
    else if lower cmd = ascii "mset" then handleMSet c wr args
    else if lower cmd = ascii "get" then handleGet c wr now args
    else if lower cmd = ascii "mget" then handleMGet c wr now args
    else if lower cmd = ascii "exists" then handleExists c wr now args
    else if lower cmd = ascii "hset" then handleHSet c wr args
    else if lower cmd = ascii "hmset" then handleHMSet c wr args
    else if lower cmd = ascii "hget" then handleHGet c wr now args
    else if lower cmd = ascii "hmget" then handleHMGet c wr now args
    else if lower cmd = ascii "hgetall" then handleHGetAll c wr now args
    else if lower cmd = ascii "hexists" then handleHExists c wr now args
    else if lower cmd = ascii "del" then handleDel c wr args
    else if lower cmd = ascii "hdel" then handleHDel c wr now args
    else if lower cmd = ascii "info" then handleInfo env c wr args
    else if lower cmd = ascii "config" then handleConfigSet c wr args
    else .ok (c, wr, some .unsupportedRequest)) := rfl
  rw [hd]
  by_cases h1 : lower cmd = ascii "flushdb"
  · rw [if_pos h1]; exact Or.inl (handleFlush_reply hwf wr args)
  rw [if_neg h1]
  by_cases h2 : lower cmd = ascii "expire"
  · rw [if_pos h2]; exact Or.inl (handleExpire_reply hwf wr now args 1000)
  rw [if_neg h2]
  by_cases h3 : lower cmd = ascii "pexpire"
  · rw [if_pos h3]; exact Or.inl (handleExpire_reply hwf wr now args 1)
  rw [if_neg h3]
  by_cases h4 : lower cmd = ascii "set"
  · rw [if_pos h4]
    rcases handleSet_reply hwf wr args with h | h
    · exact Or.inl h
    · exact Or.inr ⟨h, Or.inl h4⟩
  rw [if_neg h4]
  by_cases h5 : lower cmd = ascii "mset"
  · rw [if_pos h5]
    rcases handleMSet_reply hwf wr args with h | h
    · exact Or.inl h
    · exact Or.inr ⟨h, Or.inr (Or.inl h5)⟩
  rw [if_neg h5]
  by_cases h6 : lower cmd = ascii "get"
  · rw [if_pos h6]; exact Or.inl (handleGet_reply hwf wr now args)
  rw [if_neg h6]
  by_cases h7 : lower cmd = ascii "mget"
  · rw [if_pos h7]; exact Or.inl (handleMGet_reply hwf wr now args)
  rw [if_neg h7]
  by_cases h8 : lower cmd = ascii "exists"
  · rw [if_pos h8]; exact Or.inl (handleExists_reply hwf wr now args)
  rw [if_neg h8]
  by_cases h9 : lower cmd = ascii "hset"
  · rw [if_pos h9]
    rcases handleHSet_reply hwf wr args with h | h
    · exact Or.inl h
    · exact Or.inr ⟨h, Or.inr (Or.inr (Or.inl h9))⟩
  rw [if_neg h9]
  by_cases h10 : lower cmd = ascii "hmset"
  · rw [if_pos h10]
    rcases handleHMSet_reply hwf wr args with h | h
    · exact Or.inl h
    · exact Or.inr ⟨h, Or.inr (Or.inr (Or.inr h10))⟩
  rw [if_neg h10]
  by_cases h11 : lower cmd = ascii "hget"
  · rw [if_pos h11]; exact Or.inl (handleHGet_reply hwf wr now args)
  rw [if_neg h11]
  by_cases h12 : lower cmd = ascii "hmget"
  · rw [if_pos h12]; exact Or.inl (handleHMGet_reply hwf wr now args)
  rw [if_neg h12]
  by_cases h13 : lower cmd = ascii "hgetall"
  · rw [if_pos h13]; exact Or.inl (handleHGetAll_reply hwf wr now args)
  rw [if_neg h13]
  by_cases h14 : lower cmd = ascii "hexists"
  · rw [if_pos h14]; exact Or.inl (handleHExists_reply hwf wr now args)
  rw [if_neg h14]
  by_cases h15 : lower cmd = ascii "del"
  · rw [if_pos h15]; exact Or.inl (handleDel_reply hwf wr args)
  rw [if_neg h15]
  by_cases h16 : lower cmd = ascii "hdel"
  · rw [if_pos h16]; exact Or.inl (handleHDel_reply hwf wr now args)
  rw [if_neg h16]
  by_cases h17 : lower cmd = ascii "info"
  · rw [if_pos h17]; exact Or.inl (handleInfo_reply hwf env wr args)
  rw [if_neg h17]
  by_cases h18 : lower cmd = ascii "config"
  · rw [if_pos h18]; exact Or.inl (handleConfigSet_reply hwf wr args)
  rw [if_neg h18]
  exact Or.inl ⟨c, wr, _, rfl, hwf, rfl⟩

/-- One reply for each turn that ends: on a state that satisfies the structural invariant,
whatever `strings.ToLower` returns and whatever the request with at least a command name, a
turn of the dispatcher loop either returns, and then the handler wrote nothing and returned an
error that the dispatcher wrote as one error reply, or the handler returned no error and
wrote one reply (`+OK`, an integer, a bulk string or an array) to which the dispatcher added
nothing; or the command is one of `set`, `mset`, `hset`, `hmset` and the turn never ends
because the eviction loop does not exit.  The invariant holds after a turn that returns. -/
theorem one_reply_unless_eviction_spins (lower : Bytes → Bytes) (env : InfoEnv) (c : Cache)
    (wr : Writer) (now : Int) (ss : List Bytes) (hwf : WF c) (hss : ss ≠ []) :
    (∃ c1 wr1 err, dispatch lower env c wr now ss = .ok (c1, wr1, err) ∧
      serveRequest lower env c wr now ss = .ok (c1, replyError wr1 err) ∧ WF c1 ∧
      ((∃ e, err = some e ∧ wr1 = wr ∧ replyError wr1 err = wr.Error e.Error) ∨
       (err = none ∧ replyError wr1 err = wr1 ∧
         (wr1 = wr.Status (ascii "OK") ∨ (∃ n, wr1 = wr.Int n) ∨ (∃ b, wr1 = wr.String b) ∨
           (∃ bs, wr1 = wr.StringArray bs))))) ∨
    (serveRequest lower env c wr now ss = .error .evictionLoopsForever ∧
      ∃ cmd args, ss = cmd :: args ∧
        (lower cmd = ascii "set" ∨ lower cmd = ascii "mset" ∨ lower cmd = ascii "hset" ∨
          lower cmd = ascii "hmset")) := by
  rcases ss with _ | ⟨cmd, args⟩
  · exact absurd rfl hss
  · rcases dispatch_reply lower env hwf wr now cmd args with ⟨c1, wr1, err, h, hwf1, hone⟩ | ⟨h, hc⟩
    · refine Or.inl ⟨c1, wr1, err, h, by simp only [serveRequest, h], hwf1, ?_⟩
      cases err with
      | some e =>
        have hw : wr1 = wr := hone
        exact Or.inl ⟨e, rfl, hw, by rw [hw]; rfl⟩
      | none => exact Or.inr ⟨rfl, rfl, hone⟩
    · exact Or.inr ⟨by simp only [serveRequest, h], cmd, args, rfl, hc⟩

/-- Witness: `GET aaa` on the state of `TestGet` is answered by the bulk string "1234". -/
theorem one_reply_unless_eviction_spins_witness :
    WF testGetState ∧ [ascii "GET", ascii "aaa"] ≠ [] ∧
    serveRequest asciiLower mainEnv testGetState ⟨[]⟩ 0 [ascii "GET", ascii "aaa"]
      = .ok (testGetState, ⟨ascii "$4\r\n1234\r\n"⟩) ∧
    ((∃ c1 wr1 err, dispatch asciiLower mainEnv testGetState ⟨[]⟩ 0 [ascii "GET", ascii "aaa"]
        = .ok (c1, wr1, err) ∧
      serveRequest asciiLower mainEnv testGetState ⟨[]⟩ 0 [ascii "GET", ascii "aaa"]
        = .ok (c1, replyError wr1 err) ∧ WF c1 ∧
      ((∃ e, err = some e ∧ wr1 = ⟨[]⟩ ∧ replyError wr1 err = Writer.Error ⟨[]⟩ e.Error) ∨
       (err = none ∧ replyError wr1 err = wr1 ∧
         (wr1 = Writer.Status ⟨[]⟩ (ascii "OK") ∨ (∃ n, wr1 = Writer.Int ⟨[]⟩ n) ∨
           (∃ b, wr1 = Writer.String ⟨[]⟩ b) ∨ (∃ bs, wr1 = Writer.StringArray ⟨[]⟩ bs))))) ∨
    (serveRequest asciiLower mainEnv testGetState ⟨[]⟩ 0 [ascii "GET", ascii "aaa"]
        = .error .evictionLoopsForever ∧
      ∃ cmd args, [ascii "GET", ascii "aaa"] = cmd :: args ∧
        (asciiLower cmd = ascii "set" ∨ asciiLower cmd = ascii "mset" ∨
          asciiLower cmd = ascii "hset" ∨ asciiLower cmd = ascii "hmset"))) :=
  ⟨by decide!, by decide, by decide!,
    one_reply_unless_eviction_spins asciiLower mainEnv testGetState ⟨[]⟩ 0
      [ascii "GET", ascii "aaa"] (by decide!) (by decide)⟩

/-! ## When Set returns, and a ttl within range -/

theorem setStore_drift {c m : Cache} {k v : Bytes} (hwf : WF c) (h : c.setStore k v = some m) :
    m.size - costs m.contents = c.size - costs c.contents := by
  cases hf : c.find k with
  | none =>
    simp only [Cache.setStore, hf, Option.some.injEq] at h
    subst h
    simp only [Cache.contents, List.map_cons, costs, List.sum_cons, contentCost, entry.content,
      Value.cost]
    omega
  | some e =>
    cases hv : e.value with
    | hash x => simp [Cache.setStore, hf, hv] at h
    | str s =>
      rw [setStore_str v hf hv] at h
      simp only [Option.some.injEq] at h
      subst h
      obtain ⟨_, _, hmem, hk⟩ := find_some hf
      have hc := costs_filter_key hwf.1 hmem
      rw [hk] at hc
      have he : e.cost = (k.length : Int) + (s.length : Int) := by
        simp only [entry.cost, contentCost, entry.content, hv, Value.cost, hk]
      simp only [Cache.contents] at hc ⊢
      rw [hc, he]
      simp only [List.map_cons, costs, List.sum_cons, contentCost, entry.content, Value.cost, hk]
      omega

/-- When `Set` returns: on a state that satisfies the structural invariant, `Set(k, v)` returns
when the key holds a hash (the WRONGTYPE path), when the size limit is 0, or when `size` is
above the total cost of the entries by no more than the size limit; in every other case the
eviction loop empties the list and never exits.  For `HSet` the same holds with the size and
the entries taken after the store step. -/
theorem eviction_exits_iff (c : Cache) (k f v : Bytes) (hwf : WF c) :
    ((c.setStore k v = none ∨ c.sizeLimit = 0 ∨ c.size - costs c.contents ≤ c.sizeLimit) →
      ∃ c1 r, c.Set k (some v) = .ok (c1, r) ∧ WF c1) ∧
    (¬ (c.setStore k v = none ∨ c.sizeLimit = 0 ∨ c.size - costs c.contents ≤ c.sizeLimit) →
      c.Set k (some v) = .error .evictionLoopsForever) ∧
    (∀ m, c.hsetStore k f v = some m →
      ((m.sizeLimit = 0 ∨ m.size - costs m.contents ≤ m.sizeLimit) →
        ∃ c1, c.HSet k f (some v) = .ok (c1, none) ∧ WF c1) ∧
      (¬ (m.sizeLimit = 0 ∨ m.size - costs m.contents ≤ m.sizeLimit) →
        c.HSet k f (some v) = .error .evictionLoopsForever)) := by
  refine ⟨?_, ?_, ?_⟩
  · intro h
    cases hm : c.setStore k v with
    | none => exact ⟨c, some .wrongType, by simp only [Cache.Set, hm], hwf⟩
    | some m =>
      have hcond : m.sizeLimit = 0 ∨ m.size - costs m.contents ≤ m.sizeLimit := by
        rw [setStore_drift hwf hm, setStore_sizeLimit hm]
        rcases h with h | h
        · rw [hm] at h; cases h
        · exact h
      obtain ⟨c2, h2, hwf2⟩ :=
        (evictLoop_total m.ll.length m (setStore_WF hwf hm) (Nat.le_refl _)).1 hcond
      exact ⟨c2, none, by simp only [Cache.Set, hm, Cache.evict, h2], hwf2⟩
  · intro h
    cases hm : c.setStore k v with
    | none => exact absurd (Or.inl hm) h
    | some m =>
      have hcond : ¬ (m.sizeLimit = 0 ∨ m.size - costs m.contents ≤ m.sizeLimit) := by
        rw [setStore_drift hwf hm, setStore_sizeLimit hm]
        exact fun h2 => h (Or.inr h2)
      have h2 := (evictLoop_total m.ll.length m (setStore_WF hwf hm) (Nat.le_refl _)).2 hcond
      simp only [Cache.Set, hm, Cache.evict, h2]
  · intro m hm
    obtain ⟨h1, h2⟩ := evictLoop_total m.ll.length m (hsetStore_WF hwf hm) (Nat.le_refl _)
    refine ⟨fun h => ?_, fun h => ?_⟩
    · obtain ⟨c2, h3, hwf2⟩ := h1 h
      exact ⟨c2, by simp only [Cache.HSet, hm, Cache.evict, h3], hwf2⟩
    · simp only [Cache.HSet, hm, Cache.evict, h2 h]

/-- Witness: on the state of `TestGet` (size 7, limit `MB`) `Set("b", "c")` returns, and on
the state with no entry, size 10 and limit 5 it does not. -/
theorem eviction_exits_iff_witness :
    WF testGetState ∧ WF stuckState ∧
    (∃ c1 r, testGetState.Set (ascii "b") (some (ascii "c")) = .ok (c1, r) ∧ WF c1) ∧
    stuckState.Set (ascii "a") (some (ascii "b")) = .error .evictionLoopsForever :=
  ⟨by decide!, by decide!,
    (eviction_exits_iff testGetState (ascii "b") (ascii "f") (ascii "c") (by decide!)).1
      (Or.inr (Or.inr (by decide!))),
    (eviction_exits_iff stuckState (ascii "a") (ascii "f") (ascii "b") (by decide!)).2.1
      (by decide!)⟩

/-- A positive ttl within range: when `k` is present, `0 < ttl` and `1000000 * ttl` fits in
64 bits, `Expire(k, ttl)` returns 1 and stores `now` plus the duration, which is later than
`now`, so the entry has not expired at `now`; and when `strconv.Atoi` reads `i` from the
argument and `i * unit` fits in 64 bits, the handler calls `Expire` with `i * unit`. -/
theorem positive_ttl_in_range (c : Cache) (now : Int) (k : Bytes) (ttl : Int) (e : entry)
    (hf : c.find k = some e) (hpos : 0 < ttl) (hr : 1000000 * ttl < 2 ^ 63) :
    (c.Expire now k ttl).2 = 1 ∧
    (c.Expire now k ttl).1.find k = some { e with expire := some (now + 1000000 * ttl) } ∧
    now < now + 1000000 * ttl ∧
    entry.hasExpired { e with expire := some (now + 1000000 * ttl) } now = false ∧
    (∀ (wr : Writer) (t : Bytes) (i unit : Int), Atoi t = some i → i * unit = ttl →
      handleExpire c wr now [k, t] unit = .ok ((c.Expire now k ttl).1, wr.Int 1, none)) := by
  have hw : wrapInt64 (1000000 * ttl) = 1000000 * ttl :=
    wrapInt64_eq (by have : (0 : Int) < 2 ^ 63 := by norm_num
                     omega) hr
  have hgt : ttl > 0 := hpos
  have hE : c.Expire now k ttl
      = (⟨c.sizeLimit, c.size,
          modifyEntry c.ll k (fun x => { x with expire := some (now + 1000000 * ttl) }),
          c.cache, c.array⟩, 1) := by
    simp only [Cache.Expire, hf, hw, hgt, if_true]
  refine ⟨by rw [hE], ?_, by omega, ?_, ?_⟩
  · rw [hE]
    exact find_modifyEntry _ (fun _ => rfl) hf
  · simp only [entry.hasExpired, decide_eq_false_iff_not]
    omega
  · intro wr t i unit hA hi
    have hw2 : wrapInt64 (i * unit) = ttl := by
      rw [hi]
      exact wrapInt64_eq (by have : (0 : Int) < 2 ^ 63 := by norm_num
                             omega) (by omega)
    simp only [handleExpire, hA, hw2, hE]

/-- Witness: `EXPIRE aaa 100` on the state of `TestGet`. -/
theorem positive_ttl_in_range_witness :
    testGetState.find (ascii "aaa")
      = some ⟨ascii "aaa", .str (ascii "1234"), none, 0⟩ ∧
    (0 : Int) < 100000 ∧ (1000000 : Int) * 100000 < 2 ^ 63 ∧
    (testGetState.Expire 5 (ascii "aaa") 100000).2 = 1 ∧
    (testGetState.Expire 5 (ascii "aaa") 100000).1.find (ascii "aaa")
      = some ⟨ascii "aaa", .str (ascii "1234"), some (5 + 1000000 * 100000), 0⟩ :=
  have h := positive_ttl_in_range testGetState 5 (ascii "aaa") 100000
    ⟨ascii "aaa", .str (ascii "1234"), none, 0⟩ (by decide!) (by decide) (by decide)
  ⟨by decide!, by decide, by decide, h.1, h.2.1⟩

end Toyredis
